import Mathlib

/-!
Verification of the radix tree implementation in `radix.go` (package `radix`).

The Go code is shallowly embedded: Go strings are byte sequences, modelled as
`List Nat`; the pointer-based node graph is an inductive tree (`Node`), and the
in-place mutations of the Go methods become pure functions that rebuild the
affected path (a parent whose child is mutated in place in Go is rebuilt here
with `updateEdge`, which replaces the entry the preceding `getEdge` found).
`sort.Search`-based edge access works on the label-sorted edge list the code
maintains; it is modelled by the equivalent first-index scan on that list.
Fallible results (`value, ok` pairs in Go) are modelled with `Option`.
-/

namespace Radix

/-- Go strings, viewed as the byte sequences the radix tree compares. -/
abbrev Key := List Nat

/-- The `leafNode` struct: a stored key/value pair. -/
structure LeafNode (T : Type) where
  key : Key
  val : T

/-- The `node` struct: optional leaf, compressed prefix, sorted edge list.
An `edge` struct (label byte plus child pointer) is a `Nat × Node T` pair. -/
inductive Node (T : Type) : Type where
  | mk (leaf : Option (LeafNode T)) (pfx : Key) (edges : List (Nat × Node T)) : Node T

/-- Field accessor for the optional leaf of a node. -/
def Node.leaf {T : Type} : Node T → Option (LeafNode T)
  | .mk l _ _ => l

/-- Field accessor for the compressed prefix of a node. -/
def Node.pfx {T : Type} : Node T → Key
  | .mk _ p _ => p

/-- Field accessor for the edge list of a node. -/
def Node.edges {T : Type} : Node T → List (Nat × Node T)
  | .mk _ _ es => es

/-- The `node.isLeaf` method: whether the node carries a leaf. -/
def Node.isLeaf {T : Type} (n : Node T) : Bool :=
  n.leaf.isSome

theorem leaf_mk {T : Type} (lf : Option (LeafNode T)) (p : Key) (es : List (Nat × Node T)) :
    (Node.mk lf p es).leaf = lf := rfl

theorem pfx_mk {T : Type} (lf : Option (LeafNode T)) (p : Key) (es : List (Nat × Node T)) :
    (Node.mk lf p es).pfx = p := rfl

theorem edges_mk {T : Type} (lf : Option (LeafNode T)) (p : Key) (es : List (Nat × Node T)) :
    (Node.mk lf p es).edges = es := rfl

mutual
/-- Number of nodes of the subtree; the termination measure for the descent
loops, which move to a child node on every iteration. -/
def Node.ts {T : Type} : Node T → Nat
  | .mk _ _ es => 1 + edgesTs es
/-- Total node count of a list of edges. -/
def edgesTs {T : Type} : List (Nat × Node T) → Nat
  | [] => 0
  | (_, c) :: rest => c.ts + edgesTs rest
end

mutual
/-- Number of leaves in the subtree: what the counting `recursiveWalk` visitor
inside `deletePrefix` computes, and what `Tree.size` tracks globally. -/
def Node.leafCount {T : Type} : Node T → Nat
  | .mk l _ es => (if l.isSome then 1 else 0) + edgesLeafCount es
/-- Total leaf count of a list of edges. -/
def edgesLeafCount {T : Type} : List (Nat × Node T) → Nat
  | [] => 0
  | (_, c) :: rest => c.leafCount + edgesLeafCount rest
end

mutual
/-- The sequence of (key, value) pairs a non-mutating `recursiveWalk` visits:
the node's own leaf first, then each child subtree in edge order.  (For a
visitor that never mutates and never aborts, the re-checking loop of
`recursiveWalk` is plain iteration over the edge list.) -/
def Node.toList {T : Type} : Node T → List (Key × T)
  | .mk l _ es =>
    (match l with
     | some lf => [(lf.key, lf.val)]
     | none => []) ++ edgesToList es
/-- Walk sequence of a list of edges, in order. -/
def edgesToList {T : Type} : List (Nat × Node T) → List (Key × T)
  | [] => []
  | (_, c) :: rest => c.toList ++ edgesToList rest
end

/-- The `node.getEdge` method: `sort.Search` finds the first index whose label
is ≥ the wanted label; the edge is returned when that label matches. -/
def getEdge {T : Type} : List (Nat × Node T) → Nat → Option (Node T)
  | [], _ => none
  | f :: rest, l => if l ≤ f.1 then (if f.1 = l then some f.2 else none) else getEdge rest l

/-- The `node.addEdge` method: insert the new edge at the first index whose
label is ≥ the new label. -/
def addEdge {T : Type} : List (Nat × Node T) → Nat × Node T → List (Nat × Node T)
  | [], e => [e]
  | f :: rest, e => if e.1 ≤ f.1 then e :: f :: rest else f :: addEdge rest e

/-- The `node.updateEdge` method: replace the target of the edge carrying the
given label.  The Go code panics when the label is absent; every call site has
just found the edge via `getEdge`, so the absent case (returning the list
unchanged here) is unreachable. -/
def updateEdge {T : Type} : List (Nat × Node T) → Nat → Node T → List (Nat × Node T)
  | [], _, _ => []
  | f :: rest, l, nd => if l ≤ f.1 then (if f.1 = l then (f.1, nd) :: rest else f :: rest) else f :: updateEdge rest l nd

/-- The `node.delEdge` method: remove the edge carrying the given label, if
present. -/
def delEdge {T : Type} : List (Nat × Node T) → Nat → List (Nat × Node T)
  | [], _ => []
  | f :: rest, l => if l ≤ f.1 then (if f.1 = l then rest else f :: rest) else f :: delEdge rest l

/-- The package-level `longestPrefix` function: length of the longest common
prefix of two keys. -/
def longestPrefix : Key → Key → Nat
  | a :: as, b :: bs => if a = b then longestPrefix as bs + 1 else 0
  | _, _ => 0

/-- The `node.mergeChild` method: absorb the sole child (its prefix appended
to the parent's, its leaf and edges taken over).  Go indexes `edges[0]`; call
sites guarantee exactly one edge, so the empty case is unreachable. -/
def Node.mergeChild {T : Type} (n : Node T) : Node T :=
  match n.edges with
  | [] => n
  | (_, c) :: _ => Node.mk c.leaf (n.pfx ++ c.pfx) c.edges

theorem ts_getEdge_le {T : Type} {es : List (Nat × Node T)} {l : Nat} {c : Node T}
    (h : getEdge es l = some c) : c.ts ≤ edgesTs es := by
  induction es with
  | nil => simp [getEdge] at h
  | cons f rest ih =>
    simp only [getEdge] at h
    split at h
    · split at h
      · cases h; simp [edgesTs]
      · exact absurd h (by simp)
    · have := ih h
      simp [edgesTs]; omega

theorem ts_getEdge_lt {T : Type} {es : List (Nat × Node T)} {l : Nat} {c : Node T}
    (h : getEdge es l = some c) (lf : Option (LeafNode T)) (p : Key) :
    c.ts < (Node.mk lf p es).ts := by
  have := ts_getEdge_le h
  simp [Node.ts]; omega

theorem ts_mem_le {T : Type} {es : List (Nat × Node T)} {e : Nat × Node T}
    (h : e ∈ es) : e.2.ts ≤ edgesTs es := by
  induction es with
  | nil => simp at h
  | cons f rest ih =>
    rcases List.mem_cons.mp h with h' | h'
    · subst h'; simp [edgesTs]
    · have := ih h'
      simp [edgesTs]; omega

/-- The `Tree.Get` descent loop, one recursive call per edge followed. -/
def Node.get {T : Type} : Node T → Key → Option T
  | n, [] =>
    (match n.leaf with
     | some l => some l.val
     | none => none)
  | n, s@(c :: _) =>
    match h : getEdge n.edges c with
    | none => none
    | some child =>
      if child.pfx <+: s then Node.get child (s.drop child.pfx.length) else none
termination_by n _ => n.ts
decreasing_by
  cases n with
  | mk lf p es => exact ts_getEdge_lt h lf p

/-- The `Tree.Insert` descent loop.  `path` is the full inserted key, `search`
the still unconsumed suffix; the result is the rebuilt node together with the
previously stored value (`some` exactly when Go reports `updated = true`). -/
def Node.insertRec {T : Type} : Node T → Key → Key → T → Node T × Option T
  | n, path, [], v =>
    (match n.leaf with
     | some l => (Node.mk (some ⟨l.key, v⟩) n.pfx n.edges, some l.val)
     | none => (Node.mk (some ⟨path, v⟩) n.pfx n.edges, none))
  | n, path, s@(c :: _), v =>
    match h : getEdge n.edges c with
    | none =>
      (Node.mk n.leaf n.pfx (addEdge n.edges (c, Node.mk (some ⟨path, v⟩) s [])), none)
    | some child =>
      let cp := longestPrefix s child.pfx
      if cp = child.pfx.length then
        let r := Node.insertRec child path (s.drop cp) v
        (Node.mk n.leaf n.pfx (updateEdge n.edges c r.1), r.2)
      else
        let oldChild := Node.mk child.leaf (child.pfx.drop cp) child.edges
        let mid0 := Node.mk (none : Option (LeafNode T)) (s.take cp)
          (addEdge [] ((child.pfx.drop cp).headD 0, oldChild))
        let mid :=
          if s.drop cp = [] then
            Node.mk (some ⟨path, v⟩) mid0.pfx mid0.edges
          else
            Node.mk mid0.leaf mid0.pfx
              (addEdge mid0.edges ((s.drop cp).headD 0, Node.mk (some ⟨path, v⟩) (s.drop cp) []))
        (Node.mk n.leaf n.pfx (updateEdge n.edges c mid), none)
termination_by n _ _ _ => n.ts
decreasing_by
  cases n with
  | mk lf p es => exact ts_getEdge_lt h lf p

/-- The `Tree.Delete` descent loop, formulated at the parent: `n` is the node
the loop is at, `s` the unconsumed suffix (non-empty), `isRoot` says whether
`n` is the tree root.  When the suffix ends exactly at a child, the DELETE
block runs: clear the child's leaf, drop the child's edge if it has no edges,
merge the child if it is left with exactly one edge, then merge `n` itself if
it is a non-root leafless node with exactly one edge. -/
def Node.deleteRec {T : Type} : Bool → Node T → Key → Option (Node T × T)
  | _, _, [] => none
  | isRoot, n, s@(c :: _) =>
    match h : getEdge n.edges c with
    | none => none
    | some child =>
      if child.pfx <+: s then
        if hs : s.drop child.pfx.length = [] then
          match child.leaf with
          | none => none
          | some l =>
            let cur := Node.mk (none : Option (LeafNode T)) child.pfx child.edges
            let n1 :=
              if cur.edges.length = 0 then Node.mk n.leaf n.pfx (delEdge n.edges c)
              else Node.mk n.leaf n.pfx
                (updateEdge n.edges c (if cur.edges.length = 1 then cur.mergeChild else cur))
            let n2 :=
              if isRoot = false ∧ n1.edges.length = 1 ∧ n1.isLeaf = false then
                n1.mergeChild
              else n1
            some (n2, l.val)
        else
          match Node.deleteRec false child (s.drop child.pfx.length) with
          | none => none
          | some r => some (Node.mk n.leaf n.pfx (updateEdge n.edges c r.1), r.2)
      else none
termination_by _ n _ => n.ts
decreasing_by
  cases n with
  | mk lf p es => exact ts_getEdge_lt h lf p

/-- The `Tree.deletePrefix` recursion, formulated at the parent like
`Node.deleteRec`.  When the prefix ends at or inside a child's compressed
prefix, the child's whole subtree is discarded (leaf cleared, edges dropped)
after counting its leaves, and `n` itself is merged when it is a non-root
leafless node with exactly one edge. -/
def Node.deletePrefixRec {T : Type} : Bool → Node T → Key → Node T × Nat
  | _, n, [] => (n, 0)
  | isRoot, n, s@(c :: _) =>
    match h : getEdge n.edges c with
    | none => (n, 0)
    | some child =>
      if ¬(s <+: child.pfx) ∧ ¬(child.pfx <+: s) then (n, 0)
      else
        let s' := if s.length < child.pfx.length then ([] : Key) else s.drop child.pfx.length
        if s' = [] then
          let cnt := child.leafCount
          let child0 := Node.mk (none : Option (LeafNode T)) child.pfx []
          let n1 := Node.mk n.leaf n.pfx (updateEdge n.edges c child0)
          let n2 :=
            if isRoot = false ∧ n1.edges.length = 1 ∧ n1.isLeaf = false then
              n1.mergeChild
            else n1
          (n2, cnt)
        else
          let r := Node.deletePrefixRec false child s'
          (Node.mk n.leaf n.pfx (updateEdge n.edges c r.1), r.2)
termination_by _ n _ => n.ts
decreasing_by
  cases n with
  | mk lf p es => exact ts_getEdge_lt h lf p

/-- The `Tree.Minimum` loop: take the node's leaf when present, else descend
into the first (lowest-label) edge. -/
def Node.minimumRec {T : Type} : Node T → Option (Key × T)
  | .mk (some l) _ _ => some (l.key, l.val)
  | .mk none _ [] => none
  | .mk none p (e :: es) => Node.minimumRec e.2
termination_by n => n.ts
decreasing_by
  have : e.2.ts ≤ edgesTs (e :: es) := ts_mem_le (List.mem_cons_self e es)
  simp [Node.ts]; omega

/-- The `Tree.Maximum` loop: descend into the last (highest-label) edge while
any edge exists, then take the leaf. -/
def Node.maximumRec {T : Type} : Node T → Option (Key × T)
  | .mk lf _ [] => lf.map (fun l => (l.key, l.val))
  | .mk lf p (e :: es) => Node.maximumRec ((e :: es).getLast (by simp)).2
termination_by n => n.ts
decreasing_by
  have : ((e :: es).getLast (by simp)).2.ts ≤ edgesTs (e :: es) :=
    ts_mem_le (List.getLast_mem (by simp))
  simp [Node.ts]; omega

/-- The `Tree.LongestPrefix` loop: `last` is the most recent leaf seen on the
way down; the node's own leaf is recorded before the exhaustion check. -/
def Node.longestPrefixRec {T : Type} : Node T → Key → Option (Key × T) → Option (Key × T)
  | n, s, last =>
    let last' :=
      match n.leaf with
      | some l => some (l.key, l.val)
      | none => last
    match s with
    | [] => last'
    | c :: _ =>
      match h : getEdge n.edges c with
      | none => last'
      | some child =>
        if child.pfx <+: s then
          Node.longestPrefixRec child (s.drop child.pfx.length) last'
        else last'
termination_by n _ _ => n.ts
decreasing_by
  cases n with
  | mk lf p es => exact ts_getEdge_lt h lf p

/-- The `Tree` struct: root node plus tracked element count. -/
structure Tree (T : Type) where
  root : Node T
  size : Nat

/-- The `New` constructor: a tree with a fresh empty root. -/
def Tree.New {T : Type} : Tree T :=
  ⟨Node.mk none [] [], 0⟩

/-- The `Tree.Len` method. -/
def Tree.Len {T : Type} (t : Tree T) : Nat :=
  t.size

/-- The `Tree.Get` method. -/
def Tree.Get {T : Type} (t : Tree T) (s : Key) : Option T :=
  t.root.get s

/-- The `Tree.Insert` method: result tree plus previous value (`some` exactly
when Go returns `updated = true`; `size` is incremented in exactly the
non-update branches of the loop). -/
def Tree.Insert {T : Type} (t : Tree T) (path : Key) (v : T) : Tree T × Option T :=
  let r := Node.insertRec t.root path path v
  (⟨r.1, t.size + (if r.2.isSome then 0 else 1)⟩, r.2)

/-- The `Tree.Delete` method: result tree plus removed value.  An empty key is
the one case where the DELETE block runs at the root itself (no parent edge to
drop, no merge since both are guarded by root checks). -/
def Tree.Delete {T : Type} (t : Tree T) (s : Key) : Tree T × Option T :=
  match s with
  | [] =>
    (match t.root.leaf with
     | none => (t, none)
     | some l => (⟨Node.mk none t.root.pfx t.root.edges, t.size - 1⟩, some l.val))
  | _ =>
    match Node.deleteRec true t.root s with
    | none => (t, none)
    | some r => (⟨r.1, t.size - 1⟩, r.2)

/-- The `Tree.DeletePrefix` method: result tree plus number of removed leaves.
An empty prefix empties the root in place (count first, then clear leaf and
edges; no parent to merge). -/
def Tree.DeletePrefix {T : Type} (t : Tree T) (s : Key) : Tree T × Nat :=
  match s with
  | [] =>
    let cnt := t.root.leafCount
    (⟨Node.mk none t.root.pfx [], t.size - cnt⟩, cnt)
  | _ =>
    let r := Node.deletePrefixRec true t.root s
    (⟨r.1, t.size - r.2⟩, r.2)

/-- The `Tree.Minimum` method. -/
def Tree.Minimum {T : Type} (t : Tree T) : Option (Key × T) :=
  t.root.minimumRec

/-- The `Tree.Maximum` method. -/
def Tree.Maximum {T : Type} (t : Tree T) : Option (Key × T) :=
  t.root.maximumRec

/-- The `Tree.LongestPrefix` method. -/
def Tree.LongestPrefix {T : Type} (t : Tree T) (s : Key) : Option (Key × T) :=
  t.root.longestPrefixRec s none

/-- The `Tree.ToMap` method: a full walk inserting every visited pair into an
initially empty map; the Go `map[string]T` is modelled as a function. -/
def Tree.ToMap {T : Type} (t : Tree T) : Key → Option T :=
  t.root.toList.foldl (fun m kv => fun k => if k = kv.1 then some kv.2 else m k) (fun _ => none)


/-! ### Basic facts about the edge-list operations -/

/-- Strictly ascending labels: invariant 1 of the edge lists. -/
def sortedEdges {T : Type} (es : List (Nat × Node T)) : Prop :=
  List.Pairwise (· < ·) (es.map Prod.fst)

theorem getEdge_mem {T : Type} {es : List (Nat × Node T)} {l : Nat} {c : Node T}
    (h : getEdge es l = some c) : (l, c) ∈ es := by
  induction es with
  | nil => simp [getEdge] at h
  | cons f rest ih =>
    simp only [getEdge] at h
    split at h
    · split at h
      · rename_i h1 h2
        injection h with h3
        cases f
        simp_all
      · cases h
    · exact List.mem_cons_of_mem _ (ih h)

theorem getEdge_decomp {T : Type} {es : List (Nat × Node T)} {l : Nat} {c : Node T}
    (h : getEdge es l = some c) :
    ∃ es1 es2, es = es1 ++ (l, c) :: es2 ∧ (∀ e ∈ es1, e.1 < l) ∧
      (∀ nd : Node T, updateEdge es l nd = es1 ++ (l, nd) :: es2) ∧
      delEdge es l = es1 ++ es2 := by
  induction es with
  | nil => simp [getEdge] at h
  | cons f rest ih =>
    simp only [getEdge] at h
    split at h
    · split at h
      · rename_i h1 h2
        cases h
        refine ⟨[], rest, ?_, ?_, ?_, ?_⟩
        · cases f; simp_all
        · simp
        · intro nd; cases f; simp_all [updateEdge]
        · cases f; simp_all [delEdge]
      · simp_all
    · rename_i h1
      obtain ⟨es1, es2, heq, hlt, hupd, hdel⟩ := ih h
      refine ⟨f :: es1, es2, by simp [heq], ?_, ?_, ?_⟩
      · intro e he
        rcases List.mem_cons.mp he with rfl | he'
        · omega
        · exact hlt e he'
      · intro nd
        simp only [updateEdge, if_neg h1]
        simp [hupd nd]
      · simp only [delEdge, if_neg h1]
        simp [hdel]

theorem addEdge_decomp {T : Type} {es : List (Nat × Node T)} (hs : sortedEdges es)
    (e : Nat × Node T) :
    ∃ es1 es2, es = es1 ++ es2 ∧ addEdge es e = es1 ++ e :: es2 ∧
      (∀ f ∈ es1, f.1 < e.1) ∧ (∀ f ∈ es2, e.1 ≤ f.1) := by
  induction es with
  | nil => exact ⟨[], [], by simp, by simp [addEdge], by simp, by simp⟩
  | cons f rest ih =>
    have hs' : sortedEdges rest := by
      simpa [sortedEdges] using (List.pairwise_cons.mp hs).2
    have hfr : ∀ g ∈ rest, f.1 < g.1 := by
      intro g hg
      exact (List.pairwise_cons.mp hs).1 g.1 (List.mem_map_of_mem Prod.fst hg)
    by_cases hc : e.1 ≤ f.1
    · refine ⟨[], f :: rest, by simp, by simp [addEdge, hc], by simp, ?_⟩
      intro g hg
      rcases List.mem_cons.mp hg with rfl | hg'
      · exact hc
      · have := hfr g hg'
        omega
    · obtain ⟨es1, es2, heq, hadd, hlt, hge⟩ := ih hs'
      refine ⟨f :: es1, es2, by simp [heq], ?_, ?_, hge⟩
      · simp only [addEdge, if_neg hc]
        simp [hadd]
      · intro g hg
        rcases List.mem_cons.mp hg with rfl | hg'
        · omega
        · exact hlt g hg'


theorem getEdge_eq_some_iff {T : Type} {es : List (Nat × Node T)} (hs : sortedEdges es)
    {l : Nat} {c : Node T} : getEdge es l = some c ↔ (l, c) ∈ es := by
  constructor
  · exact getEdge_mem
  · intro hm
    induction es with
    | nil => simp at hm
    | cons f rest ih =>
      have hfr : ∀ g ∈ rest, f.1 < g.1 := by
        intro g hg
        exact (List.pairwise_cons.mp hs).1 g.1 (List.mem_map_of_mem Prod.fst hg)
      have hs' : sortedEdges rest := by
        simpa [sortedEdges] using (List.pairwise_cons.mp hs).2
      rcases List.mem_cons.mp hm with rfl | hm'
      · simp [getEdge]
      · have hlt : f.1 < l := hfr (l, c) hm'
        simp only [getEdge, if_neg (by omega : ¬ l ≤ f.1)]
        exact ih hs' hm'

theorem getEdge_eq_none_iff {T : Type} {es : List (Nat × Node T)} (hs : sortedEdges es)
    {l : Nat} : getEdge es l = none ↔ l ∉ es.map Prod.fst := by
  constructor
  · intro h hmem
    obtain ⟨e, he, hfst⟩ := List.mem_map.mp hmem
    have : getEdge es l = some e.2 := by
      refine (getEdge_eq_some_iff hs).mpr ?_
      obtain ⟨a, b⟩ := e
      simp at hfst
      subst hfst
      exact he
    simp [this] at h
  · intro hnm
    cases hg : getEdge es l with
    | none => rfl
    | some c =>
      exact absurd (List.mem_map_of_mem Prod.fst (getEdge_mem hg)) hnm

theorem labels_updateEdge {T : Type} (es : List (Nat × Node T)) (l : Nat) (nd : Node T) :
    (updateEdge es l nd).map Prod.fst = es.map Prod.fst := by
  induction es with
  | nil => simp [updateEdge]
  | cons f rest ih =>
    simp only [updateEdge]
    split
    · split <;> simp
    · simp [ih]

theorem sorted_updateEdge {T : Type} {es : List (Nat × Node T)} (hs : sortedEdges es)
    (l : Nat) (nd : Node T) : sortedEdges (updateEdge es l nd) := by
  unfold sortedEdges at hs ⊢
  rw [labels_updateEdge]
  exact hs

theorem labels_addEdge {T : Type} {es : List (Nat × Node T)} (hs : sortedEdges es)
    (e : Nat × Node T) :
    ∃ l1 l2, es.map Prod.fst = l1 ++ l2 ∧ (addEdge es e).map Prod.fst = l1 ++ e.1 :: l2 := by
  obtain ⟨es1, es2, heq, hadd, _, _⟩ := addEdge_decomp hs e
  exact ⟨es1.map Prod.fst, es2.map Prod.fst, by simp [heq], by simp [hadd]⟩

theorem sorted_addEdge {T : Type} {es : List (Nat × Node T)} (hs : sortedEdges es)
    {e : Nat × Node T} (hf : e.1 ∉ es.map Prod.fst) : sortedEdges (addEdge es e) := by
  obtain ⟨es1, es2, heq, hadd, hlt, hge⟩ := addEdge_decomp hs e
  subst heq
  unfold sortedEdges at hs ⊢
  rw [hadd]
  simp only [List.map_append, List.map_cons] at hs ⊢
  rw [List.pairwise_append] at hs ⊢
  obtain ⟨h1, h2, h12⟩ := hs
  refine ⟨h1, ?_, ?_⟩
  · rw [List.pairwise_cons]
    refine ⟨?_, h2⟩
    intro b hb
    obtain ⟨g, hg, rfl⟩ := List.mem_map.mp hb
    have := hge g hg
    have hne : e.1 ≠ g.1 := by
      intro hcontra
      apply hf
      rw [hcontra]
      exact List.mem_map_of_mem Prod.fst (List.mem_append_right _ hg)
    omega
  · intro a ha b hb
    rcases List.mem_cons.mp hb with rfl | hb'
    · obtain ⟨g, hg, rfl⟩ := List.mem_map.mp ha
      exact hlt g hg
    · exact h12 a ha b hb'

theorem delEdge_of_getEdge_none {T : Type} {es : List (Nat × Node T)} {l : Nat}
    (hg : getEdge es l = none) : delEdge es l = es := by
  induction es with
  | nil => simp [delEdge]
  | cons f rest ih =>
    simp only [getEdge] at hg
    simp only [delEdge]
    by_cases h1 : l ≤ f.1
    · rw [if_pos h1] at hg ⊢
      by_cases h2 : f.1 = l
      · rw [if_pos h2] at hg; cases hg
      · rw [if_neg h2]
    · rw [if_neg h1] at hg ⊢
      rw [ih hg]

theorem sorted_delEdge {T : Type} {es : List (Nat × Node T)} (hs : sortedEdges es)
    (l : Nat) : sortedEdges (delEdge es l) := by
  cases hg : getEdge es l with
  | none =>
    rw [delEdge_of_getEdge_none hg]
    exact hs
  | some c =>
    obtain ⟨es1, es2, heq, _, _, hdel⟩ := getEdge_decomp hg
    subst heq
    rw [hdel]
    unfold sortedEdges at hs ⊢
    simp only [List.map_append, List.map_cons] at hs ⊢
    rw [List.pairwise_append] at hs ⊢
    obtain ⟨h1, h2, h12⟩ := hs
    exact ⟨h1, (List.pairwise_cons.mp h2).2, fun a ha b hb => h12 a ha b (List.mem_cons_of_mem _ hb)⟩

theorem edgesToList_append {T : Type} (a b : List (Nat × Node T)) :
    edgesToList (a ++ b) = edgesToList a ++ edgesToList b := by
  induction a with
  | nil => simp [edgesToList]
  | cons f rest ih => obtain ⟨l, c⟩ := f; simp [edgesToList, ih]

theorem edgesLeafCount_append {T : Type} (a b : List (Nat × Node T)) :
    edgesLeafCount (a ++ b) = edgesLeafCount a + edgesLeafCount b := by
  induction a with
  | nil => simp [edgesLeafCount]
  | cons f rest ih => obtain ⟨l, c⟩ := f; simp [edgesLeafCount, ih]; omega

theorem updateEdge_self {T : Type} {es : List (Nat × Node T)} {l : Nat} {c : Node T}
    (hg : getEdge es l = some c) : updateEdge es l c = es := by
  obtain ⟨es1, es2, heq, _, hupd, _⟩ := getEdge_decomp hg
  rw [hupd c, heq]

theorem getEdge_updateEdge_ne {T : Type} (es : List (Nat × Node T)) {l l' : Nat}
    (nd : Node T) (hne : l' ≠ l) : getEdge (updateEdge es l nd) l' = getEdge es l' := by
  induction es with
  | nil => simp [updateEdge]
  | cons f rest ih =>
    simp only [updateEdge]
    by_cases h1 : l ≤ f.1
    · rw [if_pos h1]
      by_cases h2 : f.1 = l
      · rw [if_pos h2]
        have hne' : ¬ f.1 = l' := by omega
        simp [getEdge, hne']
      · rw [if_neg h2]
    · rw [if_neg h1]
      simp only [getEdge]
      rw [ih]


theorem getEdge_append_gt {T : Type} {es1 : List (Nat × Node T)} {l : Nat}
    (h : ∀ e ∈ es1, e.1 < l) (nd : Node T) (es2 : List (Nat × Node T)) :
    getEdge (es1 ++ (l, nd) :: es2) l = some nd := by
  induction es1 with
  | nil => simp [getEdge]
  | cons f rest ih =>
    have hf := h f (List.mem_cons_self _ _)
    simp only [List.cons_append, getEdge, if_neg (by omega : ¬ l ≤ f.1)]
    exact ih (fun e he => h e (List.mem_cons_of_mem _ he))

theorem getEdge_updateEdge_self {T : Type} {es : List (Nat × Node T)} {l : Nat} {c : Node T}
    (hg : getEdge es l = some c) (nd : Node T) :
    getEdge (updateEdge es l nd) l = some nd := by
  obtain ⟨es1, es2, heq, hlt, hupd, _⟩ := getEdge_decomp hg
  rw [hupd nd]
  exact getEdge_append_gt hlt nd es2

theorem getEdge_addEdge_self {T : Type} {es : List (Nat × Node T)} (hs : sortedEdges es)
    (e : Nat × Node T) : getEdge (addEdge es e) e.1 = some e.2 := by
  obtain ⟨es1, es2, heq, hadd, hlt, _⟩ := addEdge_decomp hs e
  rw [hadd]
  exact getEdge_append_gt hlt e.2 es2

theorem getEdge_addEdge_ne {T : Type} (es : List (Nat × Node T)) (e : Nat × Node T)
    {l' : Nat} (hne : l' ≠ e.1) : getEdge (addEdge es e) l' = getEdge es l' := by
  induction es with
  | nil => simp [addEdge, getEdge, Ne.symm hne]
  | cons f rest ih =>
    simp only [addEdge]
    by_cases h1 : e.1 ≤ f.1
    · rw [if_pos h1]
      by_cases h2 : l' ≤ e.1
      · have h3 : l' < e.1 := by omega
        simp only [getEdge, if_pos h2, if_neg (Ne.symm hne), if_pos (by omega : l' ≤ f.1),
          if_neg (by omega : ¬ f.1 = l')]
      · simp only [getEdge, if_neg h2]
    · rw [if_neg h1]
      simp only [getEdge]
      rw [ih]

theorem mem_addEdge {T : Type} {es : List (Nat × Node T)} (hs : sortedEdges es)
    (e x : Nat × Node T) : x ∈ addEdge es e ↔ x = e ∨ x ∈ es := by
  obtain ⟨es1, es2, heq, hadd, _, _⟩ := addEdge_decomp hs e
  subst heq
  rw [hadd]
  simp [List.mem_append, List.mem_cons]
  tauto

/-! ### Facts about longestPrefix -/

theorem longestPrefix_le_left : ∀ a b : Key, longestPrefix a b ≤ a.length := by
  intro a
  induction a with
  | nil => intro b; cases b <;> simp [longestPrefix]
  | cons x xs ih =>
    intro b
    cases b with
    | nil => simp [longestPrefix]
    | cons y ys =>
      simp only [longestPrefix]
      split
      · have := ih ys; simp; omega
      · simp

theorem longestPrefix_le_right : ∀ a b : Key, longestPrefix a b ≤ b.length := by
  intro a
  induction a with
  | nil => intro b; cases b <;> simp [longestPrefix]
  | cons x xs ih =>
    intro b
    cases b with
    | nil => simp [longestPrefix]
    | cons y ys =>
      simp only [longestPrefix]
      split
      · have := ih ys; simp; omega
      · simp

theorem longestPrefix_eq_right_iff : ∀ a b : Key, longestPrefix a b = b.length ↔ b <+: a := by
  intro a
  induction a with
  | nil =>
    intro b
    cases b with
    | nil => simp [longestPrefix]
    | cons y ys => simp [longestPrefix]
  | cons x xs ih =>
    intro b
    cases b with
    | nil => simp [longestPrefix]
    | cons y ys =>
      simp only [longestPrefix]
      by_cases hxy : x = y
      · subst hxy
        rw [if_pos rfl]
        simp only [List.length_cons, List.cons_prefix_cons, true_and]
        constructor
        · intro h
          exact (ih ys).mp (by omega)
        · intro h
          have := (ih ys).mpr h
          omega
      · rw [if_neg hxy]
        simp only [List.length_cons, List.cons_prefix_cons]
        constructor
        · intro h; omega
        · intro ⟨h, _⟩; exact absurd h.symm hxy

theorem longestPrefix_eq_left_iff (a b : Key) : longestPrefix a b = a.length ↔ a <+: b := by
  have h : ∀ a b : Key, longestPrefix a b = longestPrefix b a := by
    intro a
    induction a with
    | nil => intro b; cases b <;> simp [longestPrefix]
    | cons x xs ih =>
      intro b
      cases b with
      | nil => simp [longestPrefix]
      | cons y ys =>
        simp only [longestPrefix]
        by_cases hxy : x = y
        · subst hxy; simp [ih]
        · rw [if_neg hxy, if_neg (Ne.symm hxy)]
  rw [h]
  exact longestPrefix_eq_right_iff b a

theorem take_longestPrefix : ∀ a b : Key, a.take (longestPrefix a b) = b.take (longestPrefix a b) := by
  intro a
  induction a with
  | nil => intro b; cases b <;> simp [longestPrefix]
  | cons x xs ih =>
    intro b
    cases b with
    | nil => simp [longestPrefix]
    | cons y ys =>
      simp only [longestPrefix]
      by_cases hxy : x = y
      · subst hxy
        rw [if_pos rfl]
        simp [ih]
      · rw [if_neg hxy]
        simp

theorem longestPrefix_head_ne : ∀ a b : Key,
    longestPrefix a b < a.length → longestPrefix a b < b.length →
    (a.drop (longestPrefix a b)).headD 0 ≠ (b.drop (longestPrefix a b)).headD 0 := by
  intro a
  induction a with
  | nil => intro b h1 _; simp at h1
  | cons x xs ih =>
    intro b h1 h2
    cases b with
    | nil => simp at h2
    | cons y ys =>
      simp only [longestPrefix] at h1 h2 ⊢
      by_cases hxy : x = y
      · subst hxy
        rw [if_pos rfl] at h1 h2 ⊢
        simp only [List.length_cons] at h1 h2
        simpa using ih ys (by omega) (by omega)
      · rw [if_neg hxy] at h1 h2 ⊢
        simpa using hxy


/-! ### Well-formedness invariants -/

/-- Semantic well-formedness of a node under accumulated path `acc` (the
concatenation of the prefixes strictly above it): stored leaf keys spell the
root-to-node path (spec invariant 3), edges are strictly sorted by label
(invariant 1), and every edge label is the first byte of a non-empty child
prefix. -/
inductive SWf {T : Type} : Key → Node T → Prop where
  | mk : ∀ (acc : Key) (lf : Option (LeafNode T)) (p : Key) (es : List (Nat × Node T)),
      (∀ l, lf = some l → l.key = acc ++ p) →
      sortedEdges es →
      (∀ e ∈ es, e.2.pfx.head? = some e.1) →
      (∀ e ∈ es, SWf (acc ++ p) e.2) →
      SWf acc (Node.mk lf p es)

/-- Spec invariant 2 (path compression): every non-root node carries a leaf
or has at least two children. -/
inductive Comp {T : Type} : Bool → Node T → Prop where
  | mk : ∀ (isRoot : Bool) (lf : Option (LeafNode T)) (p : Key) (es : List (Nat × Node T)),
      (isRoot = false → lf.isSome = true ∨ 2 ≤ es.length) →
      (∀ e ∈ es, Comp false e.2) →
      Comp isRoot (Node.mk lf p es)

/-- Well-formedness of a whole tree: the root is semantically well formed with
empty context and empty prefix, compression holds (root exempt), and the
tracked size is the leaf count (spec invariant 4). -/
def Tree.Wf {T : Type} (t : Tree T) : Prop :=
  SWf [] t.root ∧ Comp true t.root ∧ t.root.pfx = [] ∧ t.size = t.root.leafCount

theorem SWf.parts {T : Type} {acc : Key} {lf : Option (LeafNode T)} {p : Key}
    {es : List (Nat × Node T)} (h : SWf acc (Node.mk lf p es)) :
    (∀ l, lf = some l → l.key = acc ++ p) ∧ sortedEdges es ∧
      (∀ e ∈ es, e.2.pfx.head? = some e.1) ∧ (∀ e ∈ es, SWf (acc ++ p) e.2) := by
  cases h
  exact ⟨by assumption, by assumption, by assumption, by assumption⟩

theorem Comp.shape {T : Type} {b : Bool} {lf : Option (LeafNode T)} {p : Key}
    {es : List (Nat × Node T)} (h : Comp b (Node.mk lf p es)) :
    (b = false → lf.isSome = true ∨ 2 ≤ es.length) ∧ (∀ e ∈ es, Comp false e.2) := by
  cases h
  exact ⟨by assumption, by assumption⟩

/-- Descent ignores the prefix of the node it starts at (Go consumes a node's
prefix at its parent, before following the edge). -/
theorem get_pfx_irrel {T : Type} (lf : Option (LeafNode T)) (p p' : Key)
    (es : List (Nat × Node T)) (s : Key) :
    Node.get (Node.mk lf p es) s = Node.get (Node.mk lf p' es) s := by
  cases s with
  | nil => simp [Node.get, Node.leaf]
  | cons c cs => simp [Node.get, Node.edges]

theorem leafCount_pfx_irrel {T : Type} (lf : Option (LeafNode T)) (p p' : Key)
    (es : List (Nat × Node T)) :
    (Node.mk lf p es).leafCount = (Node.mk lf p' es).leafCount := by
  simp [Node.leafCount]

theorem comp_pfx_irrel {T : Type} {b : Bool} {lf : Option (LeafNode T)} {p : Key}
    {es : List (Nat × Node T)} (h : Comp b (Node.mk lf p es)) (p' : Key) :
    Comp b (Node.mk lf p' es) := by
  obtain ⟨h1, h2⟩ := h.shape
  exact Comp.mk b lf p' es h1 h2

theorem toList_pfx_irrel {T : Type} (lf : Option (LeafNode T)) (p p' : Key)
    (es : List (Nat × Node T)) :
    (Node.mk lf p es).toList = (Node.mk lf p' es).toList := by
  simp [Node.toList]

theorem getEdge_addEdge_self_uncond {T : Type} (es : List (Nat × Node T)) (e : Nat × Node T) :
    getEdge (addEdge es e) e.1 = some e.2 := by
  induction es with
  | nil => simp [addEdge, getEdge]
  | cons f rest ih =>
    simp only [addEdge]
    by_cases h1 : e.1 ≤ f.1
    · rw [if_pos h1]
      simp [getEdge]
    · rw [if_neg h1]
      simp only [getEdge, if_neg h1]
      exact ih

theorem edgesLeafCount_addEdge {T : Type} (es : List (Nat × Node T)) (e : Nat × Node T) :
    edgesLeafCount (addEdge es e) = edgesLeafCount es + e.2.leafCount := by
  induction es with
  | nil => simp [addEdge, edgesLeafCount]
  | cons f rest ih =>
    simp only [addEdge]
    by_cases h1 : e.1 ≤ f.1
    · rw [if_pos h1]
      obtain ⟨a, b⟩ := e
      obtain ⟨a2, b2⟩ := f
      simp [edgesLeafCount]
      omega
    · rw [if_neg h1]
      obtain ⟨a2, b2⟩ := f
      simp [edgesLeafCount, ih]
      omega


/-! ### Unfolding lemmas for the descent functions -/

theorem get_nil {T : Type} (n : Node T) : Node.get n [] = n.leaf.map (fun l => l.val) := by
  rw [Node.get.eq_1]
  cases h : n.leaf <;> simp [h]

theorem get_cons_none {T : Type} {n : Node T} {c : Nat} {tail : Key}
    (h : getEdge n.edges c = none) : Node.get n (c :: tail) = none := by
  rw [Node.get.eq_2]
  split
  · rfl
  · rename_i child heq
    rw [h] at heq
    cases heq

theorem get_cons_some {T : Type} {n : Node T} {c : Nat} {tail : Key} {child : Node T}
    (h : getEdge n.edges c = some child) :
    Node.get n (c :: tail) =
      if child.pfx <+: (c :: tail) then child.get ((c :: tail).drop child.pfx.length)
      else none := by
  rw [Node.get.eq_2]
  split
  · rename_i heq
    rw [h] at heq
    cases heq
  · rename_i child2 heq
    rw [h] at heq
    injection heq with heq2
    subst heq2
    rfl

/-! ### Unfolding lemmas for the insert recursion -/

/-- The intermediate node built by the split branch of the insert loop, named
so that statements about that branch stay readable. -/
def splitMid {T : Type} (child : Node T) (path s : Key) (v : T) : Node T :=
  let cp := longestPrefix s child.pfx
  let oldChild := Node.mk child.leaf (child.pfx.drop cp) child.edges
  let mid0 := Node.mk (none : Option (LeafNode T)) (s.take cp)
    (addEdge [] ((child.pfx.drop cp).headD 0, oldChild))
  if s.drop cp = [] then
    Node.mk (some ⟨path, v⟩) mid0.pfx mid0.edges
  else
    Node.mk mid0.leaf mid0.pfx
      (addEdge mid0.edges ((s.drop cp).headD 0, Node.mk (some ⟨path, v⟩) (s.drop cp) []))

theorem insertRec_nil_some {T : Type} {n : Node T} {l : LeafNode T} (h : n.leaf = some l)
    (path : Key) (v : T) :
    Node.insertRec n path [] v = (Node.mk (some ⟨l.key, v⟩) n.pfx n.edges, some l.val) := by
  rw [Node.insertRec.eq_def]
  simp [h]

theorem insertRec_nil_none {T : Type} {n : Node T} (h : n.leaf = none) (path : Key) (v : T) :
    Node.insertRec n path [] v = (Node.mk (some ⟨path, v⟩) n.pfx n.edges, none) := by
  rw [Node.insertRec.eq_def]
  simp [h]

theorem insertRec_cons_none {T : Type} {n : Node T} {c : Nat} {tail : Key}
    (h : getEdge n.edges c = none) (path : Key) (v : T) :
    Node.insertRec n path (c :: tail) v =
      (Node.mk n.leaf n.pfx (addEdge n.edges (c, Node.mk (some ⟨path, v⟩) (c :: tail) [])),
        none) := by
  rw [Node.insertRec.eq_2]
  split
  · rfl
  · rename_i child heq
    rw [h] at heq
    cases heq

theorem insertRec_cons_continue {T : Type} {n : Node T} {c : Nat} {tail : Key} {child : Node T}
    (h : getEdge n.edges c = some child)
    (hcp : longestPrefix (c :: tail) child.pfx = child.pfx.length) (path : Key) (v : T) :
    Node.insertRec n path (c :: tail) v =
      (Node.mk n.leaf n.pfx
        (updateEdge n.edges c
          (Node.insertRec child path ((c :: tail).drop child.pfx.length) v).1),
        (Node.insertRec child path ((c :: tail).drop child.pfx.length) v).2) := by
  rw [Node.insertRec.eq_2]
  split
  · rename_i heq
    rw [h] at heq
    cases heq
  · rename_i child2 heq
    rw [h] at heq
    injection heq with heq2
    subst heq2
    rw [if_pos hcp, hcp]

theorem insertRec_cons_split {T : Type} {n : Node T} {c : Nat} {tail : Key} {child : Node T}
    (h : getEdge n.edges c = some child)
    (hne : ¬ longestPrefix (c :: tail) child.pfx = child.pfx.length) (path : Key) (v : T) :
    Node.insertRec n path (c :: tail) v =
      (Node.mk n.leaf n.pfx (updateEdge n.edges c (splitMid child path (c :: tail) v)), none) := by
  rw [Node.insertRec.eq_2]
  split
  · rename_i heq
    rw [h] at heq
    cases heq
  · rename_i child2 heq
    rw [h] at heq
    injection heq with heq2
    subst heq2
    rw [if_neg hne]
    rfl

/-- Insert does not change the prefix of the node it starts at. -/
theorem insertRec_pfx {T : Type} (n : Node T) (path s : Key) (v : T) :
    (Node.insertRec n path s v).1.pfx = n.pfx := by
  induction n, path, s, v using Node.insertRec.induct with
  | case1 n path v l h => rw [insertRec_nil_some h]; simp [Node.pfx]
  | case2 n path v h => rw [insertRec_nil_none h]; simp [Node.pfx]
  | case3 n path c tail v h => rw [insertRec_cons_none h]; simp [Node.pfx]
  | case4 n path c tail v child h cp hcp ih =>
    rw [insertRec_cons_continue h hcp]
    simp [Node.pfx]
  | case5 n path c tail v child h cp hne =>
    rw [insertRec_cons_split h hne]
    simp [Node.pfx]

/-- The second component returned by the insert loop is exactly what Get
returns before the insert: the previously stored value. -/
theorem insertRec_snd {T : Type} (n : Node T) (path s : Key) (v : T) :
    (Node.insertRec n path s v).2 = n.get s := by
  induction n, path, s, v using Node.insertRec.induct with
  | case1 n path v l h =>
    rw [insertRec_nil_some h, get_nil]
    simp [h]
  | case2 n path v h =>
    rw [insertRec_nil_none h, get_nil]
    simp [h]
  | case3 n path c tail v h =>
    rw [insertRec_cons_none h, get_cons_none h]
  | case4 n path c tail v child h cp hcp ih =>
    rw [insertRec_cons_continue h hcp, get_cons_some h]
    have hpre : child.pfx <+: (c :: tail) := (longestPrefix_eq_right_iff _ _).mp hcp
    rw [if_pos hpre]
    rw [hcp] at ih
    simpa using ih
  | case5 n path c tail v child h cp hne =>
    rw [insertRec_cons_split h hne, get_cons_some h]
    have hpre : ¬ child.pfx <+: (c :: tail) := by
      intro hcontra
      exact hne ((longestPrefix_eq_right_iff _ _).mpr hcontra)
    rw [if_neg hpre]


theorem length_take_lp_left {a b : Key} : (a.take (longestPrefix a b)).length = longestPrefix a b := by
  rw [List.length_take]
  have := longestPrefix_le_left a b
  omega

theorem splitMid_pfx {T : Type} (child : Node T) (path s : Key) (v : T) :
    (splitMid child path s v).pfx = s.take (longestPrefix s child.pfx) := by
  simp only [splitMid]
  split <;> simp [Node.pfx]

theorem splitMid_get {T : Type} (child : Node T) (path s : Key) (v : T) :
    Node.get (splitMid child path s v) (s.drop (longestPrefix s child.pfx)) = some v := by
  by_cases hd : s.drop (longestPrefix s child.pfx) = []
  · rw [hd]
    simp only [splitMid]
    rw [if_pos hd]
    simp [get_nil, Node.leaf]
  · obtain ⟨d, rest, hdr⟩ : ∃ d rest, s.drop (longestPrefix s child.pfx) = d :: rest := by
      cases hx : s.drop (longestPrefix s child.pfx) with
      | nil => exact absurd hx hd
      | cons d rest => exact ⟨d, rest, rfl⟩
    rw [hdr]
    have hmid : splitMid child path s v =
        Node.mk none (s.take (longestPrefix s child.pfx))
          (addEdge (addEdge [] ((child.pfx.drop (longestPrefix s child.pfx)).headD 0,
              Node.mk child.leaf (child.pfx.drop (longestPrefix s child.pfx)) child.edges))
            (d, Node.mk (some ⟨path, v⟩) (d :: rest) [])) := by
      simp only [splitMid]
      rw [if_neg hd, hdr]
      simp [Node.leaf, Node.pfx, Node.edges]
    rw [hmid]
    have hg2 := getEdge_addEdge_self_uncond (addEdge []
      ((child.pfx.drop (longestPrefix s child.pfx)).headD 0,
        Node.mk child.leaf (child.pfx.drop (longestPrefix s child.pfx)) child.edges))
      (d, Node.mk (some ⟨path, v⟩) (d :: rest) [])
    rw [get_cons_some (by simpa [Node.edges] using hg2)]
    rw [if_pos (by simp [Node.pfx])]
    simp [Node.pfx, get_nil, Node.leaf]

/-- After inserting, Get on the inserted key returns the new value. -/
theorem insertRec_get_self {T : Type} (n : Node T) (path s : Key) (v : T) :
    (Node.insertRec n path s v).1.get s = some v := by
  induction n, path, s, v using Node.insertRec.induct with
  | case1 n path v l h =>
    rw [insertRec_nil_some h]
    simp [get_nil, Node.leaf]
  | case2 n path v h =>
    rw [insertRec_nil_none h]
    simp [get_nil, Node.leaf]
  | case3 n path c tail v h =>
    rw [insertRec_cons_none h]
    have hg : getEdge (addEdge n.edges (c, Node.mk (some ⟨path, v⟩) (c :: tail) [])) c =
        some (Node.mk (some ⟨path, v⟩) (c :: tail) []) :=
      getEdge_addEdge_self_uncond n.edges _
    rw [get_cons_some (by simpa [Node.edges] using hg)]
    rw [if_pos (by simp [Node.pfx])]
    simp [Node.pfx, get_nil, Node.leaf]
  | case4 n path c tail v child h cp hcp ih =>
    rw [insertRec_cons_continue h hcp]
    have hg : getEdge (updateEdge n.edges c
        (Node.insertRec child path ((c :: tail).drop child.pfx.length) v).1) c =
        some (Node.insertRec child path ((c :: tail).drop child.pfx.length) v).1 :=
      getEdge_updateEdge_self h _
    rw [get_cons_some (by simpa [Node.edges] using hg)]
    rw [insertRec_pfx]
    have hpre : child.pfx <+: (c :: tail) := (longestPrefix_eq_right_iff _ _).mp hcp
    rw [if_pos hpre]
    rw [hcp] at ih
    exact ih
  | case5 n path c tail v child h cp hne =>
    rw [insertRec_cons_split h hne]
    have hg : getEdge (updateEdge n.edges c (splitMid child path (c :: tail) v)) c =
        some (splitMid child path (c :: tail) v) :=
      getEdge_updateEdge_self h _
    rw [get_cons_some (by simpa [Node.edges] using hg)]
    rw [splitMid_pfx]
    have htakepre : (c :: tail).take (longestPrefix (c :: tail) child.pfx) <+: (c :: tail) :=
      List.take_prefix _ _
    rw [if_pos htakepre]
    rw [length_take_lp_left]
    exact splitMid_get child path (c :: tail) v


theorem getEdge_singleton {T : Type} (a : Nat) (x : Node T) (d : Nat) :
    getEdge [(a, x)] d = if a = d then some x else none := by
  by_cases had : a = d
  · subst had
    simp [getEdge]
  · rw [if_neg had]
    simp only [getEdge]
    split_ifs <;> rfl

theorem getEdge_pair {T : Type} {a b : Nat} (x y : Node T) (hab : a ≠ b) (d : Nat) :
    getEdge (addEdge [(a, x)] (b, y)) d =
      if a = d then some x else if b = d then some y else none := by
  by_cases h1 : b ≤ a
  · have he : addEdge [(a, x)] (b, y) = [(b, y), (a, x)] := by
      simp [addEdge, h1]
    rw [he]
    simp only [getEdge]
    split_ifs with c1 c2 c3 c4 c5 c6 <;> first | rfl | omega
  · have he : addEdge [(a, x)] (b, y) = [(a, x), (b, y)] := by
      simp only [addEdge]
      rw [if_neg h1]
    rw [he]
    simp only [getEdge]
    split_ifs with c1 c2 c3 c4 c5 c6 <;> first | rfl | omega

/-- Nodes whose edge lookup agrees at the head byte compute the same Get. -/
theorem get_cons_congr {T : Type} {n m : Node T} {c : Nat}
    (h : getEdge n.edges c = getEdge m.edges c) (tail : Key) :
    n.get (c :: tail) = m.get (c :: tail) := by
  cases hg : getEdge n.edges c with
  | none =>
    rw [get_cons_none hg, get_cons_none (h.symm.trans hg)]
  | some child =>
    rw [get_cons_some hg, get_cons_some (h.symm.trans hg)]

theorem splitMid_eq_one {T : Type} (child : Node T) (path s : Key) (v : T)
    (hd : s.drop (longestPrefix s child.pfx) = []) :
    splitMid child path s v =
      Node.mk (some ⟨path, v⟩) (s.take (longestPrefix s child.pfx))
        [((child.pfx.drop (longestPrefix s child.pfx)).headD 0,
          Node.mk child.leaf (child.pfx.drop (longestPrefix s child.pfx)) child.edges)] := by
  simp only [splitMid]
  rw [if_pos hd]
  rfl

theorem splitMid_eq_two {T : Type} (child : Node T) (path s : Key) (v : T)
    (hd : ¬ s.drop (longestPrefix s child.pfx) = []) :
    splitMid child path s v =
      Node.mk none (s.take (longestPrefix s child.pfx))
        (addEdge [((child.pfx.drop (longestPrefix s child.pfx)).headD 0,
            Node.mk child.leaf (child.pfx.drop (longestPrefix s child.pfx)) child.edges)]
          ((s.drop (longestPrefix s child.pfx)).headD 0,
            Node.mk (some ⟨path, v⟩) (s.drop (longestPrefix s child.pfx)) [])) := by
  simp only [splitMid]
  rw [if_neg hd]
  rfl


/-- Nodes with the same leaf and edges compute the same Get. -/
theorem get_eq_of_leaf_edges {T : Type} {n m : Node T} (h1 : n.leaf = m.leaf)
    (h2 : n.edges = m.edges) (s : Key) : n.get s = m.get s := by
  cases n with
  | mk nl np ne =>
    cases m with
    | mk ml mp me =>
      simp only [Node.leaf, Node.edges] at h1 h2
      subst h1
      subst h2
      exact get_pfx_irrel nl np mp ne s

/-- Inserting one key leaves Get unchanged on every other key. -/
theorem insertRec_get_other {T : Type} (n : Node T) (path s : Key) (v : T) :
    ∀ s', s' ≠ s → (Node.insertRec n path s v).1.get s' = n.get s' := by
  induction n, path, s, v using Node.insertRec.induct with
  | case1 n path v l h =>
    intro s' hs'
    rw [insertRec_nil_some h]
    cases s' with
    | nil => exact absurd rfl hs'
    | cons c' t' =>
      refine get_cons_congr ?_ t'
      rfl
  | case2 n path v h =>
    intro s' hs'
    rw [insertRec_nil_none h]
    cases s' with
    | nil => exact absurd rfl hs'
    | cons c' t' =>
      refine get_cons_congr ?_ t'
      rfl
  | case3 n path c tail v h =>
    intro s' hs'
    rw [insertRec_cons_none h]
    cases s' with
    | nil =>
      rw [get_nil, get_nil]
      rfl
    | cons c' t' =>
      by_cases hc : c' = c
      · subst hc
        rw [get_cons_none h]
        have hg : getEdge (Node.mk n.leaf n.pfx
            (addEdge n.edges (c', Node.mk (some ⟨path, v⟩) (c' :: tail) []))).edges c' =
            some (Node.mk (some ⟨path, v⟩) (c' :: tail) []) := by
          simpa [Node.edges] using
            getEdge_addEdge_self_uncond n.edges (c', Node.mk (some ⟨path, v⟩) (c' :: tail) [])
        rw [get_cons_some hg]
        by_cases hpre : (Node.mk (some ⟨path, v⟩) (c' :: tail) []).pfx <+: (c' :: t')
        · rw [if_pos hpre]
          simp only [Node.pfx] at hpre
          cases hrem : (c' :: t').drop ((Node.mk (some ⟨path, v⟩) (c' :: tail) []
              : Node T)).pfx.length with
          | nil =>
            exfalso
            apply hs'
            have hle : (c' :: t').length ≤ (c' :: tail).length := by
              have h2 := congrArg List.length hrem
              simp only [Node.pfx, List.length_drop, List.length_nil] at h2
              simp only [List.length_cons] at h2 ⊢
              omega
            exact (List.IsPrefix.eq_of_length hpre
              (le_antisymm hpre.length_le hle)).symm
          | cons d rest =>
            rw [get_cons_none (by simp [Node.edges, getEdge])]
        · rw [if_neg hpre]
      · have hgg : getEdge (Node.mk n.leaf n.pfx
            (addEdge n.edges (c, Node.mk (some ⟨path, v⟩) (c :: tail) []))).edges c' =
            getEdge n.edges c' := by
          simp only [Node.edges]
          exact getEdge_addEdge_ne n.edges _ hc
        exact get_cons_congr hgg t'
  | case4 n path c tail v child h cp hcp ih =>
    intro s' hs'
    rw [insertRec_cons_continue h hcp]
    rw [hcp] at ih
    cases s' with
    | nil =>
      rw [get_nil, get_nil]
      rfl
    | cons c' t' =>
      by_cases hc : c' = c
      · subst hc
        have hg : getEdge (Node.mk n.leaf n.pfx (updateEdge n.edges c'
            (Node.insertRec child path ((c' :: tail).drop child.pfx.length) v).1)).edges c' =
            some (Node.insertRec child path ((c' :: tail).drop child.pfx.length) v).1 := by
          simpa [Node.edges] using getEdge_updateEdge_self h _
        rw [get_cons_some hg, get_cons_some h, insertRec_pfx]
        by_cases hpre : child.pfx <+: (c' :: t')
        · rw [if_pos hpre, if_pos hpre]
          apply ih
          intro heq
          apply hs'
          have hpre2 : child.pfx <+: (c' :: tail) := (longestPrefix_eq_right_iff _ _).mp hcp
          have e1 : c' :: t' = child.pfx ++ ((c' :: t').drop child.pfx.length) := by
            conv_lhs => rw [← List.take_append_drop child.pfx.length (c' :: t')]
            rw [← List.prefix_iff_eq_take.mp hpre]
          have e2 : c' :: tail = child.pfx ++ ((c' :: tail).drop child.pfx.length) := by
            conv_lhs => rw [← List.take_append_drop child.pfx.length (c' :: tail)]
            rw [← List.prefix_iff_eq_take.mp hpre2]
          rw [e1, e2, heq]
        · rw [if_neg hpre, if_neg hpre]
      · have hgg : getEdge (Node.mk n.leaf n.pfx (updateEdge n.edges c
            (Node.insertRec child path ((c :: tail).drop child.pfx.length) v).1)).edges c' =
            getEdge n.edges c' := by
          simp only [Node.edges]
          exact getEdge_updateEdge_ne n.edges _ hc
        exact get_cons_congr hgg t'
  | case5 n path c tail v child h cp hne =>
    intro s' hs'
    rw [insertRec_cons_split h hne]
    have hlpfx : longestPrefix (c :: tail) child.pfx < child.pfx.length :=
      lt_of_le_of_ne (longestPrefix_le_right _ _) hne
    cases s' with
    | nil =>
      rw [get_nil, get_nil]
      rfl
    | cons c' t' =>
      by_cases hc : c' = c
      case neg =>
        have hgg : getEdge (Node.mk n.leaf n.pfx
            (updateEdge n.edges c (splitMid child path (c :: tail) v))).edges c' =
            getEdge n.edges c' := by
          simp only [Node.edges]
          exact getEdge_updateEdge_ne n.edges _ hc
        exact get_cons_congr hgg t'
      case pos =>
        subst hc
        have hg : getEdge (Node.mk n.leaf n.pfx
            (updateEdge n.edges c' (splitMid child path (c' :: tail) v))).edges c' =
            some (splitMid child path (c' :: tail) v) := by
          simpa [Node.edges] using getEdge_updateEdge_self h _
        rw [get_cons_some hg, get_cons_some h, splitMid_pfx, length_take_lp_left]
        by_cases hB : (c' :: tail).take (longestPrefix (c' :: tail) child.pfx) <+: (c' :: t')
        case neg =>
          rw [if_neg hB]
          have hnp : ¬ child.pfx <+: (c' :: t') := by
            intro hcontra
            apply hB
            have h1 : (c' :: tail).take (longestPrefix (c' :: tail) child.pfx) =
                child.pfx.take (longestPrefix (c' :: tail) child.pfx) :=
              take_longestPrefix _ _
            rw [h1]
            exact (List.take_prefix _ _).trans hcontra
          rw [if_neg hnp]
        case pos =>
          rw [if_pos hB]
          obtain ⟨p0, prest, hpd⟩ : ∃ p0 prest,
              child.pfx.drop (longestPrefix (c' :: tail) child.pfx) = p0 :: prest := by
            cases hx : child.pfx.drop (longestPrefix (c' :: tail) child.pfx) with
            | nil =>
              have := congrArg List.length hx
              simp only [List.length_drop, List.length_nil] at this
              omega
            | cons a b => exact ⟨a, b, rfl⟩
          have hlold : (child.pfx.drop (longestPrefix (c' :: tail) child.pfx)).headD 0 = p0 := by
            rw [hpd]
            rfl
          cases hr' : (c' :: t').drop (longestPrefix (c' :: tail) child.pfx) with
          | nil =>
            -- the query ends exactly at the split point
            have hlen' : (c' :: t').length ≤ longestPrefix (c' :: tail) child.pfx := by
              have h2 := congrArg List.length hr'
              simp only [List.length_drop, List.length_nil] at h2
              omega
            have hs'take : c' :: t' = (c' :: tail).take (longestPrefix (c' :: tail) child.pfx) := by
              have hlen2 : ((c' :: tail).take (longestPrefix (c' :: tail) child.pfx)).length =
                  longestPrefix (c' :: tail) child.pfx := length_take_lp_left
              have h5 := hB.length_le
              exact (List.IsPrefix.eq_of_length hB (by omega)).symm
            have hnp : ¬ child.pfx <+: (c' :: t') := by
              intro hcontra
              have h3 := hcontra.length_le
              omega
            rw [if_neg hnp]
            by_cases hd : (c' :: tail).drop (longestPrefix (c' :: tail) child.pfx) = []
            · exfalso
              apply hs'
              rw [hs'take]
              conv_rhs => rw [← List.take_append_drop (longestPrefix (c' :: tail) child.pfx)
                (c' :: tail)]
              rw [hd]
              simp
            · rw [splitMid_eq_two _ _ _ _ hd, get_nil]
              rfl
          | cons d rest =>
            -- structure of the span: both child.pfx and the query split at LP
            have hstruct : child.pfx = (c' :: tail).take (longestPrefix (c' :: tail) child.pfx) ++
                child.pfx.drop (longestPrefix (c' :: tail) child.pfx) := by
              conv_lhs => rw [← List.take_append_drop (longestPrefix (c' :: tail) child.pfx)
                child.pfx]
              rw [← take_longestPrefix]
            have hs'struct : c' :: t' = (c' :: tail).take (longestPrefix (c' :: tail) child.pfx) ++
                (d :: rest) := by
              conv_lhs => rw [← List.take_append_drop (longestPrefix (c' :: tail) child.pfx)
                (c' :: t')]
              rw [← hr']
              congr 1
              have h2 := List.prefix_iff_eq_take.mp hB
              rw [length_take_lp_left] at h2
              exact h2.symm
            have hiff : (child.pfx <+: c' :: t') ↔
                (child.pfx.drop (longestPrefix (c' :: tail) child.pfx) <+: d :: rest) := by
              have h0 : ((c' :: tail).take (longestPrefix (c' :: tail) child.pfx)) ++
                  child.pfx.drop (longestPrefix (c' :: tail) child.pfx) <+:
                  ((c' :: tail).take (longestPrefix (c' :: tail) child.pfx)) ++ (d :: rest) ↔
                  child.pfx.drop (longestPrefix (c' :: tail) child.pfx) <+: d :: rest :=
                List.prefix_append_right_inj _
              rw [← hstruct, ← hs'struct] at h0
              exact h0
            have hdl : (((c' :: tail).take (longestPrefix (c' :: tail) child.pfx)) ++
                (d :: rest)).drop (longestPrefix (c' :: tail) child.pfx) = d :: rest := by
              calc (((c' :: tail).take (longestPrefix (c' :: tail) child.pfx)) ++
                  (d :: rest)).drop (longestPrefix (c' :: tail) child.pfx)
                  = (((c' :: tail).take (longestPrefix (c' :: tail) child.pfx)) ++
                    (d :: rest)).drop
                    (((c' :: tail).take (longestPrefix (c' :: tail) child.pfx)).length) := by
                    rw [length_take_lp_left]
                _ = d :: rest := List.drop_left _ _
            have hdropPfx : (c' :: t').drop child.pfx.length =
                (d :: rest).drop (child.pfx.length - longestPrefix (c' :: tail) child.pfx) := by
              conv_lhs => rw [hs'struct]
              have harith : child.pfx.length = longestPrefix (c' :: tail) child.pfx +
                  (child.pfx.length - longestPrefix (c' :: tail) child.pfx) := by omega
              rw [harith, ← List.drop_drop, hdl]
              congr 1
              omega
            -- case split on the head byte of the remaining query
            by_cases hld : p0 = d
            · -- descends into the re-parented original child on both sides
              have hoc : (child.pfx.drop (longestPrefix (c' :: tail) child.pfx)) <+: (d :: rest) ↔
                  child.pfx <+: (c' :: t') := hiff.symm
              by_cases hd : (c' :: tail).drop (longestPrefix (c' :: tail) child.pfx) = []
              · rw [splitMid_eq_one _ _ _ _ hd]
                have hglhs : getEdge (Node.mk (some ⟨path, v⟩)
                    ((c' :: tail).take (longestPrefix (c' :: tail) child.pfx))
                    [((child.pfx.drop (longestPrefix (c' :: tail) child.pfx)).headD 0,
                      Node.mk child.leaf
                        (child.pfx.drop (longestPrefix (c' :: tail) child.pfx))
                        child.edges)] : Node T).edges d =
                    some (Node.mk child.leaf
                      (child.pfx.drop (longestPrefix (c' :: tail) child.pfx)) child.edges) := by
                  simp only [Node.edges]
                  rw [getEdge_singleton, hlold, hld]
                  simp
                rw [get_cons_some hglhs]
                by_cases hp2 : child.pfx.drop (longestPrefix (c' :: tail) child.pfx) <+: d :: rest
                · rw [if_pos (by simpa [Node.pfx] using hp2), if_pos (hoc.mp hp2)]
                  rw [hdropPfx]
                  have hlen3 : ((Node.mk child.leaf
                      (child.pfx.drop (longestPrefix (c' :: tail) child.pfx))
                      child.edges : Node T)).pfx.length =
                      child.pfx.length - longestPrefix (c' :: tail) child.pfx := by
                    simp [Node.pfx]
                  rw [hlen3]
                  refine get_eq_of_leaf_edges ?_ ?_ _
                  · rfl
                  · rfl
                · rw [if_neg (by simpa [Node.pfx] using hp2), if_neg (fun hcontra =>
                    hp2 (hiff.mp hcontra))]
              · rw [splitMid_eq_two _ _ _ _ hd]
                have hlp_lt_s : longestPrefix (c' :: tail) child.pfx < (c' :: tail).length := by
                  by_contra hcon
                  apply hd
                  rw [List.drop_eq_nil_iff]
                  omega
                have hne2 : (child.pfx.drop (longestPrefix (c' :: tail) child.pfx)).headD 0 ≠
                    ((c' :: tail).drop (longestPrefix (c' :: tail) child.pfx)).headD 0 := by
                  have := longestPrefix_head_ne (c' :: tail) child.pfx hlp_lt_s hlpfx
                  exact fun hcontra => this hcontra.symm
                have hglhs : getEdge (Node.mk none
                    ((c' :: tail).take (longestPrefix (c' :: tail) child.pfx))
                    (addEdge [((child.pfx.drop (longestPrefix (c' :: tail) child.pfx)).headD 0,
                        Node.mk child.leaf
                          (child.pfx.drop (longestPrefix (c' :: tail) child.pfx)) child.edges)]
                      (((c' :: tail).drop (longestPrefix (c' :: tail) child.pfx)).headD 0,
                        Node.mk (some ⟨path, v⟩)
                          ((c' :: tail).drop (longestPrefix (c' :: tail) child.pfx)) []))
                    : Node T).edges d =
                    some (Node.mk child.leaf
                      (child.pfx.drop (longestPrefix (c' :: tail) child.pfx)) child.edges) := by
                  simp only [Node.edges]
                  rw [getEdge_pair _ _ hne2 d]
                  rw [hlold]
                  rw [if_pos hld]
                rw [get_cons_some hglhs]
                by_cases hp2 : child.pfx.drop (longestPrefix (c' :: tail) child.pfx) <+: d :: rest
                · rw [if_pos (by simpa [Node.pfx] using hp2), if_pos (hoc.mp hp2)]
                  rw [hdropPfx]
                  have hlen3 : ((Node.mk child.leaf
                      (child.pfx.drop (longestPrefix (c' :: tail) child.pfx))
                      child.edges : Node T)).pfx.length =
                      child.pfx.length - longestPrefix (c' :: tail) child.pfx := by
                    simp [Node.pfx]
                  rw [hlen3]
                  refine get_eq_of_leaf_edges ?_ ?_ _
                  · rfl
                  · rfl
                · rw [if_neg (by simpa [Node.pfx] using hp2), if_neg (fun hcontra =>
                    hp2 (hiff.mp hcontra))]
            · -- head byte differs from the original child: the old tree finds nothing there
              have hnp : ¬ child.pfx <+: (c' :: t') := by
                intro hcontra
                have h2 := hiff.mp hcontra
                rw [hpd] at h2
                have := (List.cons_prefix_cons.mp h2).1
                exact hld this
              rw [if_neg hnp]
              by_cases hd : (c' :: tail).drop (longestPrefix (c' :: tail) child.pfx) = []
              · rw [splitMid_eq_one _ _ _ _ hd]
                have hglhs : getEdge (Node.mk (some ⟨path, v⟩)
                    ((c' :: tail).take (longestPrefix (c' :: tail) child.pfx))
                    [((child.pfx.drop (longestPrefix (c' :: tail) child.pfx)).headD 0,
                      Node.mk child.leaf
                        (child.pfx.drop (longestPrefix (c' :: tail) child.pfx))
                        child.edges)] : Node T).edges d = none := by
                  simp only [Node.edges, getEdge_singleton, hlold]
                  rw [if_neg hld]
                rw [get_cons_none hglhs]
              · rw [splitMid_eq_two _ _ _ _ hd]
                have hlp_lt_s : longestPrefix (c' :: tail) child.pfx < (c' :: tail).length := by
                  by_contra hcon
                  apply hd
                  rw [List.drop_eq_nil_iff]
                  omega
                have hne2 : (child.pfx.drop (longestPrefix (c' :: tail) child.pfx)).headD 0 ≠
                    ((c' :: tail).drop (longestPrefix (c' :: tail) child.pfx)).headD 0 := by
                  have := longestPrefix_head_ne (c' :: tail) child.pfx hlp_lt_s hlpfx
                  exact fun hcontra => this hcontra.symm
                obtain ⟨s0, srest, hsd⟩ : ∃ s0 srest,
                    (c' :: tail).drop (longestPrefix (c' :: tail) child.pfx) = s0 :: srest := by
                  cases hx : (c' :: tail).drop (longestPrefix (c' :: tail) child.pfx) with
                  | nil => exact absurd hx hd
                  | cons a b => exact ⟨a, b, rfl⟩
                by_cases hlnd : ((c' :: tail).drop
                    (longestPrefix (c' :: tail) child.pfx)).headD 0 = d
                · -- query head matches the freshly created node for the inserted key
                  have hglhs : getEdge (Node.mk none
                      ((c' :: tail).take (longestPrefix (c' :: tail) child.pfx))
                      (addEdge [((child.pfx.drop (longestPrefix (c' :: tail) child.pfx)).headD 0,
                          Node.mk child.leaf
                            (child.pfx.drop (longestPrefix (c' :: tail) child.pfx)) child.edges)]
                        (((c' :: tail).drop (longestPrefix (c' :: tail) child.pfx)).headD 0,
                          Node.mk (some ⟨path, v⟩)
                            ((c' :: tail).drop (longestPrefix (c' :: tail) child.pfx)) []))
                      : Node T).edges d =
                      some (Node.mk (some ⟨path, v⟩)
                        ((c' :: tail).drop (longestPrefix (c' :: tail) child.pfx)) []) := by
                    simp only [Node.edges]
                    rw [getEdge_pair _ _ hne2 d]
                    rw [hlold]
                    rw [if_neg hld]
                    rw [if_pos hlnd]
                  rw [get_cons_some hglhs]
                  by_cases hp3 : (c' :: tail).drop (longestPrefix (c' :: tail) child.pfx) <+:
                      d :: rest
                  · rw [if_pos (by simpa [Node.pfx] using hp3)]
                    have hpfxred : ((Node.mk (some ⟨path, v⟩)
                        ((c' :: tail).drop (longestPrefix (c' :: tail) child.pfx)) []
                        : Node T)).pfx.length =
                        ((c' :: tail).drop (longestPrefix (c' :: tail) child.pfx)).length := rfl
                    rw [hpfxred]
                    cases hz : (d :: rest).drop
                        ((c' :: tail).drop (longestPrefix (c' :: tail) child.pfx)).length with
                    | nil =>
                      exfalso
                      apply hs'
                      have hlenz := congrArg List.length hz
                      simp only [List.length_drop, List.length_nil] at hlenz
                      have hple := hp3.length_le
                      have hfl : ((c' :: tail).drop (longestPrefix (c' :: tail) child.pfx)).length =
                          (c' :: tail).length - longestPrefix (c' :: tail) child.pfx :=
                        List.length_drop _ _
                      have heq2 : d :: rest =
                          (c' :: tail).drop (longestPrefix (c' :: tail) child.pfx) :=
                        (List.IsPrefix.eq_of_length hp3 (by omega)).symm
                      rw [hs'struct, heq2]
                      exact (List.take_append_drop _ _)
                    | cons z zs =>
                      rw [get_cons_none (by simp [Node.edges, getEdge])]
                  · rw [if_neg (by simpa [Node.pfx] using hp3)]
                · have hglhs : getEdge (Node.mk none
                      ((c' :: tail).take (longestPrefix (c' :: tail) child.pfx))
                      (addEdge [((child.pfx.drop (longestPrefix (c' :: tail) child.pfx)).headD 0,
                          Node.mk child.leaf
                            (child.pfx.drop (longestPrefix (c' :: tail) child.pfx)) child.edges)]
                        (((c' :: tail).drop (longestPrefix (c' :: tail) child.pfx)).headD 0,
                          Node.mk (some ⟨path, v⟩)
                            ((c' :: tail).drop (longestPrefix (c' :: tail) child.pfx)) []))
                      : Node T).edges d = none := by
                    simp only [Node.edges]
                    rw [getEdge_pair _ _ hne2 d]
                    rw [hlold]
                    rw [if_neg hld]
                    rw [if_neg hlnd]
                  rw [get_cons_none hglhs]


theorem leafCount_mk {T : Type} (lf : Option (LeafNode T)) (p : Key)
    (es : List (Nat × Node T)) :
    (Node.mk lf p es).leafCount = (if lf.isSome then 1 else 0) + edgesLeafCount es := by
  rw [Node.leafCount]

/-- Insert grows the leaf count by one exactly when the key was absent. -/
theorem insertRec_leafCount {T : Type} (n : Node T) (path s : Key) (v : T) :
    (Node.insertRec n path s v).1.leafCount =
      n.leafCount + (if (n.get s).isSome then 0 else 1) := by
  induction n, path, s, v using Node.insertRec.induct with
  | case1 n path v l h =>
    rw [insertRec_nil_some h, get_nil, h]
    cases n
    simp only [leaf_mk] at h
    subst h
    simp [leafCount_mk, leaf_mk, edges_mk]
  | case2 n path v h =>
    rw [insertRec_nil_none h, get_nil, h]
    cases n
    simp only [leaf_mk] at h
    subst h
    simp [leafCount_mk, leaf_mk, edges_mk]
    omega
  | case3 n path c tail v h =>
    rw [insertRec_cons_none h, get_cons_none h]
    cases n with
    | mk lf p es =>
      simp only [edges_mk, leaf_mk, pfx_mk] at h ⊢
      rw [leafCount_mk, leafCount_mk, edgesLeafCount_addEdge]
      simp [leafCount_mk, edgesLeafCount]
      omega
  | case4 n path c tail v child h cp hcp ih =>
    rw [insertRec_cons_continue h hcp, get_cons_some h]
    rw [hcp] at ih
    have hpre : child.pfx <+: (c :: tail) := (longestPrefix_eq_right_iff _ _).mp hcp
    rw [if_pos hpre]
    obtain ⟨es1, es2, heq, hlt, hupd, hdel⟩ := getEdge_decomp h
    cases n with
    | mk lf p es =>
      simp only [edges_mk, leaf_mk, pfx_mk] at heq hupd ⊢
      rw [leafCount_mk, leafCount_mk, hupd, heq, edgesLeafCount_append, edgesLeafCount_append]
      simp only [edgesLeafCount]
      rw [ih]
      by_cases hsome : (child.get ((c :: tail).drop child.pfx.length)).isSome
      · rw [if_pos hsome]
        omega
      · rw [if_neg hsome]
        omega
  | case5 n path c tail v child h cp hne =>
    rw [insertRec_cons_split h hne, get_cons_some h]
    have hpre : ¬ child.pfx <+: (c :: tail) := by
      intro hcontra
      exact hne ((longestPrefix_eq_right_iff _ _).mpr hcontra)
    rw [if_neg hpre]
    have hmidlc : (splitMid child path (c :: tail) v).leafCount = child.leafCount + 1 := by
      by_cases hd : (c :: tail).drop (longestPrefix (c :: tail) child.pfx) = []
      · rw [splitMid_eq_one _ _ _ _ hd]
        rw [leafCount_mk]
        simp only [edgesLeafCount]
        cases child with
        | mk clf cp2 ces =>
          simp only [leaf_mk, edges_mk, pfx_mk]
          rw [leafCount_mk, leafCount_mk]
          simp [edgesLeafCount]
          omega
      · rw [splitMid_eq_two _ _ _ _ hd]
        rw [leafCount_mk, edgesLeafCount_addEdge]
        simp only [edgesLeafCount]
        cases child with
        | mk clf cp2 ces =>
          simp only [leaf_mk, edges_mk, pfx_mk]
          rw [leafCount_mk, leafCount_mk, leafCount_mk]
          simp [edgesLeafCount]
    obtain ⟨es1, es2, heq, hlt, hupd, hdel⟩ := getEdge_decomp h
    cases n with
    | mk lf p es =>
      simp only [edges_mk, leaf_mk, pfx_mk] at heq hupd ⊢
      rw [leafCount_mk, leafCount_mk, hupd, heq, edgesLeafCount_append, edgesLeafCount_append]
      simp only [edgesLeafCount]
      rw [hmidlc]
      simp
      omega


theorem longestPrefix_pos {c : Nat} {tail pb : Key} :
    1 ≤ longestPrefix (c :: tail) (c :: pb) := by
  simp [longestPrefix]

/-- The node built by the split branch is well formed in the context of the
child it replaces, and keeps the same first byte. -/
theorem splitMid_SWf {T : Type} {acc2 : Key} {child : Node T} {c : Nat} {tail path : Key}
    {v : T} (hchild : SWf acc2 child) (hhead : child.pfx.head? = some c)
    (hne : ¬ longestPrefix (c :: tail) child.pfx = child.pfx.length)
    (hpath : path = acc2 ++ (c :: tail)) :
    SWf acc2 (splitMid child path (c :: tail) v) ∧
      (splitMid child path (c :: tail) v).pfx.head? = some c := by
  obtain ⟨pb, hpb⟩ : ∃ pb, child.pfx = c :: pb := by
    cases hx : child.pfx with
    | nil => rw [hx] at hhead; cases hhead
    | cons a b =>
      rw [hx] at hhead
      injection hhead with ha
      exact ⟨b, by rw [ha]⟩
  have hcp1 : 1 ≤ longestPrefix (c :: tail) child.pfx := by
    rw [hpb]
    exact longestPrefix_pos
  have hcple : longestPrefix (c :: tail) child.pfx ≤ child.pfx.length :=
    longestPrefix_le_right _ _
  have hcplt : longestPrefix (c :: tail) child.pfx < child.pfx.length := by omega
  have htpfx : ((c :: tail).take (longestPrefix (c :: tail) child.pfx)).head? = some c := by
    obtain ⟨m, hm⟩ : ∃ m, longestPrefix (c :: tail) child.pfx = m + 1 :=
      ⟨longestPrefix (c :: tail) child.pfx - 1, by omega⟩
    rw [hm]
    simp
  cases child with
  | mk clf cpx ces =>
    simp only [pfx_mk] at hpb hne hcp1 hcple hcplt htpfx
    obtain ⟨hl, hsort, hhd, hch⟩ := hchild.parts
    obtain ⟨p0, prest, hpd⟩ : ∃ p0 prest,
        cpx.drop (longestPrefix (c :: tail) cpx) = p0 :: prest := by
      cases hx : cpx.drop (longestPrefix (c :: tail) cpx) with
      | nil =>
        have := congrArg List.length hx
        simp only [List.length_drop, List.length_nil] at this
        omega
      | cons a b => exact ⟨a, b, rfl⟩
    have hctx : (acc2 ++ (c :: tail).take (longestPrefix (c :: tail) cpx)) ++
        cpx.drop (longestPrefix (c :: tail) cpx) = acc2 ++ cpx := by
      rw [List.append_assoc]
      congr 1
      rw [take_longestPrefix]
      exact List.take_append_drop _ _
    have hold : SWf (acc2 ++ (c :: tail).take (longestPrefix (c :: tail) cpx))
        (Node.mk clf (cpx.drop (longestPrefix (c :: tail) cpx)) ces) := by
      refine SWf.mk _ _ _ _ ?_ hsort hhd ?_
      · intro l hll
        rw [hctx]
        exact hl l hll
      · intro e he
        rw [hctx]
        exact hch e he
    have holdhd : (Node.mk clf (cpx.drop (longestPrefix (c :: tail) cpx)) ces
        : Node T).pfx.head? = some ((cpx.drop (longestPrefix (c :: tail) cpx)).headD 0) := by
      rw [pfx_mk, hpd]
      rfl
    by_cases hd : (c :: tail).drop (longestPrefix (c :: tail) cpx) = []
    · have hone := splitMid_eq_one (Node.mk clf cpx ces) path (c :: tail) v (by
        simpa [pfx_mk] using hd)
      rw [hone]
      have hstake : (c :: tail) = (c :: tail).take (longestPrefix (c :: tail) cpx) := by
        conv_lhs => rw [← List.take_append_drop (longestPrefix (c :: tail) cpx) (c :: tail)]
        rw [hd, List.append_nil]
      constructor
      · refine SWf.mk _ _ _ _ ?_ ?_ ?_ ?_
        · intro l hll
          injection hll with hll2
          rw [← hll2, hpath]
          simp only [pfx_mk]
          rw [← hstake]
        · simp [sortedEdges]
        · intro e he
          simp only [pfx_mk, List.mem_singleton] at he ⊢
          subst he
          simpa [pfx_mk] using holdhd
        · intro e he
          simp only [List.mem_singleton] at he
          subst he
          simpa [pfx_mk] using hold
      · simpa [pfx_mk] using htpfx
    · have htwo := splitMid_eq_two (Node.mk clf cpx ces) path (c :: tail) v (by
        simpa [pfx_mk] using hd)
      simp only [pfx_mk, leaf_mk, edges_mk] at htwo
      rw [htwo]
      have hlp_lt_s : longestPrefix (c :: tail) cpx < (c :: tail).length := by
        by_contra hcon
        apply hd
        rw [List.drop_eq_nil_iff]
        omega
      obtain ⟨s0, srest, hsd⟩ : ∃ s0 srest,
          (c :: tail).drop (longestPrefix (c :: tail) cpx) = s0 :: srest := by
        cases hx : (c :: tail).drop (longestPrefix (c :: tail) cpx) with
        | nil => exact absurd hx hd
        | cons a b => exact ⟨a, b, rfl⟩
      have hne2 : ((c :: tail).drop (longestPrefix (c :: tail) cpx)).headD 0 ≠
          (cpx.drop (longestPrefix (c :: tail) cpx)).headD 0 :=
        longestPrefix_head_ne (c :: tail) cpx hlp_lt_s hcplt
      have hsortone : sortedEdges [(((cpx.drop (longestPrefix (c :: tail) cpx)).headD 0 : Nat),
          (Node.mk clf (cpx.drop (longestPrefix (c :: tail) cpx)) ces : Node T))] := by
        simp [sortedEdges]
      have hfresh : ((c :: tail).drop (longestPrefix (c :: tail) cpx)).headD 0 ∉
          ([(((cpx.drop (longestPrefix (c :: tail) cpx)).headD 0 : Nat),
            (Node.mk clf (cpx.drop (longestPrefix (c :: tail) cpx)) ces : Node T))].map
            Prod.fst) := by
        simpa using hne2
      constructor
      · refine SWf.mk _ _ _ _ ?_ ?_ ?_ ?_
        · intro l hll
          cases hll
        · exact sorted_addEdge hsortone hfresh
        · intro e he
          rw [mem_addEdge hsortone _ e] at he
          rcases he with rfl | he'
          · rw [pfx_mk, hsd]
            rfl
          · simp only [List.mem_singleton] at he'
            subst he'
            simpa [pfx_mk] using holdhd
        · intro e he
          rw [mem_addEdge hsortone _ e] at he
          rcases he with rfl | he'
          · refine SWf.mk _ _ _ _ ?_ ?_ ?_ ?_
            · intro l hll
              injection hll with hll2
              rw [← hll2]
              show path = acc2 ++ List.take (longestPrefix (c :: tail) cpx) (c :: tail) ++
                List.drop (longestPrefix (c :: tail) cpx) (c :: tail)
              rw [hpath, List.append_assoc, List.take_append_drop]
            · simp [sortedEdges]
            · intro e2 he2
              simp at he2
            · intro e2 he2
              simp at he2
          · simp only [List.mem_singleton] at he'
            subst he'
            simpa [pfx_mk] using hold
      · simpa [pfx_mk] using htpfx


/-- Insert preserves semantic well-formedness (spec invariants 1 and 3 plus
the edge-label/prefix discipline). -/
theorem insertRec_SWf {T : Type} (n : Node T) (path s : Key) (v : T) :
    ∀ acc, SWf acc n → path = acc ++ n.pfx ++ s → SWf acc (Node.insertRec n path s v).1 := by
  induction n, path, s, v using Node.insertRec.induct with
  | case1 n path v l h =>
    intro acc hswf hpath
    rw [insertRec_nil_some h]
    cases n with
    | mk lf p es =>
      obtain ⟨hl, hsort, hhd, hch⟩ := hswf.parts
      simp only [leaf_mk] at h
      simp only [pfx_mk, edges_mk]
      refine SWf.mk _ _ _ _ ?_ hsort hhd hch
      intro l2 hl2
      injection hl2 with hl3
      rw [← hl3]
      show l.key = acc ++ p
      exact hl l h
  | case2 n path v h =>
    intro acc hswf hpath
    rw [insertRec_nil_none h]
    cases n with
    | mk lf p es =>
      obtain ⟨hl, hsort, hhd, hch⟩ := hswf.parts
      simp only [pfx_mk, edges_mk]
      simp only [pfx_mk] at hpath
      refine SWf.mk _ _ _ _ ?_ hsort hhd hch
      intro l2 hl2
      injection hl2 with hl3
      rw [← hl3]
      show path = acc ++ p
      rw [hpath]
      simp
  | case3 n path c tail v h =>
    intro acc hswf hpath
    rw [insertRec_cons_none h]
    cases n with
    | mk lf p es =>
      obtain ⟨hl, hsort, hhd, hch⟩ := hswf.parts
      simp only [edges_mk] at h
      simp only [pfx_mk] at hpath
      simp only [pfx_mk, edges_mk, leaf_mk]
      have hfresh : c ∉ es.map Prod.fst := (getEdge_eq_none_iff hsort).mp h
      refine SWf.mk _ _ _ _ hl (sorted_addEdge hsort hfresh) ?_ ?_
      · intro e he
        rw [mem_addEdge hsort _ e] at he
        rcases he with rfl | he'
        · rfl
        · exact hhd e he'
      · intro e he
        rw [mem_addEdge hsort _ e] at he
        rcases he with rfl | he'
        · refine SWf.mk _ _ _ _ ?_ (by simp [sortedEdges]) ?_ ?_
          · intro l2 hl2
            injection hl2 with hl3
            rw [← hl3]
            show path = (acc ++ p) ++ (c :: tail)
            rw [hpath]
          · intro e2 he2
            simp at he2
          · intro e2 he2
            simp at he2
        · exact hch e he'
  | case4 n path c tail v child h cp hcp ih =>
    intro acc hswf hpath
    rw [insertRec_cons_continue h hcp]
    rw [hcp] at ih
    cases n with
    | mk lf p es =>
      obtain ⟨hl, hsort, hhd, hch⟩ := hswf.parts
      simp only [edges_mk] at h
      simp only [pfx_mk] at hpath
      simp only [pfx_mk, edges_mk, leaf_mk]
      obtain ⟨es1, es2, heq, hlt, hupd, hdel⟩ := getEdge_decomp h
      have hmem : (c, child) ∈ es := getEdge_mem h
      have hpre : child.pfx <+: (c :: tail) := (longestPrefix_eq_right_iff _ _).mp hcp
      obtain ⟨k, hk⟩ := hpre
      have hdropk : (c :: tail).drop child.pfx.length = k := by
        rw [← hk]
        exact List.drop_left child.pfx k
      have hXswf : SWf (acc ++ p)
          (Node.insertRec child path ((c :: tail).drop child.pfx.length) v).1 := by
        apply ih
        · exact hch (c, child) hmem
        · rw [hdropk, hpath, ← hk]
          simp [List.append_assoc]
      have hXpfx := insertRec_pfx child path ((c :: tail).drop child.pfx.length) v
      refine SWf.mk _ _ _ _ hl (sorted_updateEdge hsort _ _) ?_ ?_
      · intro e he
        rw [hupd] at he
        rw [heq] at hhd
        rcases List.mem_append.mp he with he1 | he2
        · exact hhd e (List.mem_append_left _ he1)
        · rcases List.mem_cons.mp he2 with rfl | he3
          · show ((Node.insertRec child path ((c :: tail).drop child.pfx.length) v).1).pfx.head? =
              some c
            rw [hXpfx]
            exact hhd (c, child) (List.mem_append_right _ (List.mem_cons_self _ _))
          · exact hhd e (List.mem_append_right _ (List.mem_cons_of_mem _ he3))
      · intro e he
        rw [hupd] at he
        rw [heq] at hch
        rcases List.mem_append.mp he with he1 | he2
        · exact hch e (List.mem_append_left _ he1)
        · rcases List.mem_cons.mp he2 with rfl | he3
          · exact hXswf
          · exact hch e (List.mem_append_right _ (List.mem_cons_of_mem _ he3))
  | case5 n path c tail v child h cp hne =>
    intro acc hswf hpath
    rw [insertRec_cons_split h hne]
    cases n with
    | mk lf p es =>
      obtain ⟨hl, hsort, hhd, hch⟩ := hswf.parts
      simp only [edges_mk] at h
      simp only [pfx_mk] at hpath
      simp only [pfx_mk, edges_mk, leaf_mk]
      obtain ⟨es1, es2, heq, hlt, hupd, hdel⟩ := getEdge_decomp h
      have hmem : (c, child) ∈ es := getEdge_mem h
      obtain ⟨hmidswf, hmidhd⟩ := splitMid_SWf (hch (c, child) hmem) (hhd (c, child) hmem)
        hne (show path = (acc ++ p) ++ (c :: tail) by rw [hpath])
      refine SWf.mk _ _ _ _ hl (sorted_updateEdge hsort _ _) ?_ ?_
      · intro e he
        rw [hupd] at he
        rw [heq] at hhd
        rcases List.mem_append.mp he with he1 | he2
        · exact hhd e (List.mem_append_left _ he1)
        · rcases List.mem_cons.mp he2 with rfl | he3
          · exact hmidhd
          · exact hhd e (List.mem_append_right _ (List.mem_cons_of_mem _ he3))
      · intro e he
        rw [hupd] at he
        rw [heq] at hch
        rcases List.mem_append.mp he with he1 | he2
        · exact hch e (List.mem_append_left _ he1)
        · rcases List.mem_cons.mp he2 with rfl | he3
          · exact hmidswf
          · exact hch e (List.mem_append_right _ (List.mem_cons_of_mem _ he3))


theorem mem_addEdge_forward {T : Type} {es : List (Nat × Node T)} {e x : Nat × Node T}
    (h : x ∈ addEdge es e) : x = e ∨ x ∈ es := by
  induction es with
  | nil => simpa [addEdge] using h
  | cons f rest ih =>
    simp only [addEdge] at h
    split at h
    · rcases List.mem_cons.mp h with rfl | h2
      · exact Or.inl rfl
      · exact Or.inr h2
    · rcases List.mem_cons.mp h with rfl | h2
      · exact Or.inr (List.mem_cons_self _ _)
      · rcases ih h2 with h3 | h3
        · exact Or.inl h3
        · exact Or.inr (List.mem_cons_of_mem _ h3)

theorem len_addEdge {T : Type} (es : List (Nat × Node T)) (e : Nat × Node T) :
    (addEdge es e).length = es.length + 1 := by
  induction es with
  | nil => simp [addEdge]
  | cons f rest ih =>
    simp only [addEdge]
    split
    · simp
    · simp [ih]

/-- Insert preserves the path-compression invariant: it never removes a leaf
or an edge. -/
theorem insertRec_Comp {T : Type} (n : Node T) (path s : Key) (v : T) :
    ∀ b, Comp b n → Comp b (Node.insertRec n path s v).1 := by
  induction n, path, s, v using Node.insertRec.induct with
  | case1 n path v l h =>
    intro b hcomp
    rw [insertRec_nil_some h]
    cases n with
    | mk lf p es =>
      obtain ⟨hcond, hch⟩ := hcomp.shape
      simp only [pfx_mk, edges_mk]
      exact Comp.mk b _ p es (fun _ => Or.inl rfl) hch
  | case2 n path v h =>
    intro b hcomp
    rw [insertRec_nil_none h]
    cases n with
    | mk lf p es =>
      obtain ⟨hcond, hch⟩ := hcomp.shape
      simp only [pfx_mk, edges_mk]
      exact Comp.mk b _ p es (fun _ => Or.inl rfl) hch
  | case3 n path c tail v h =>
    intro b hcomp
    rw [insertRec_cons_none h]
    cases n with
    | mk lf p es =>
      obtain ⟨hcond, hch⟩ := hcomp.shape
      simp only [pfx_mk, edges_mk, leaf_mk]
      refine Comp.mk b _ p _ ?_ ?_
      · intro hb
        rcases hcond hb with h1 | h1
        · exact Or.inl h1
        · refine Or.inr ?_
          rw [len_addEdge]
          omega
      · intro e he
        rcases mem_addEdge_forward he with rfl | he'
        · exact Comp.mk false _ _ _ (fun _ => Or.inl rfl) (by intro e2 he2; simp at he2)
        · exact hch e he'
  | case4 n path c tail v child h cp hcp ih =>
    intro b hcomp
    rw [insertRec_cons_continue h hcp]
    rw [hcp] at ih
    cases n with
    | mk lf p es =>
      obtain ⟨hcond, hch⟩ := hcomp.shape
      simp only [edges_mk] at h
      simp only [pfx_mk, edges_mk, leaf_mk]
      obtain ⟨es1, es2, heq, hlt, hupd, hdel⟩ := getEdge_decomp h
      have hmem : (c, child) ∈ es := getEdge_mem h
      have hlen : (updateEdge es c
          (Node.insertRec child path ((c :: tail).drop child.pfx.length) v).1).length =
          es.length := by
        rw [hupd, heq]
        simp
      refine Comp.mk b _ p _ ?_ ?_
      · intro hb
        rcases hcond hb with h1 | h1
        · exact Or.inl h1
        · exact Or.inr (by rw [hlen]; exact h1)
      · intro e he
        rw [hupd] at he
        rw [heq] at hch
        rcases List.mem_append.mp he with he1 | he2
        · exact hch e (List.mem_append_left _ he1)
        · rcases List.mem_cons.mp he2 with rfl | he3
          · exact ih false (hch (c, child) (List.mem_append_right _ (List.mem_cons_self _ _)))
          · exact hch e (List.mem_append_right _ (List.mem_cons_of_mem _ he3))
  | case5 n path c tail v child h cp hne =>
    intro b hcomp
    rw [insertRec_cons_split h hne]
    cases n with
    | mk lf p es =>
      obtain ⟨hcond, hch⟩ := hcomp.shape
      simp only [edges_mk] at h
      simp only [pfx_mk, edges_mk, leaf_mk]
      obtain ⟨es1, es2, heq, hlt, hupd, hdel⟩ := getEdge_decomp h
      have hmem : (c, child) ∈ es := getEdge_mem h
      have hmidcomp : Comp false (splitMid child path (c :: tail) v) := by
        have hchildcomp : Comp false child := hch (c, child) hmem
        have holdcomp : Comp false (Node.mk child.leaf
            (child.pfx.drop (longestPrefix (c :: tail) child.pfx)) child.edges) := by
          cases child with
          | mk clf cpx ces =>
            simp only [leaf_mk, edges_mk, pfx_mk]
            exact comp_pfx_irrel hchildcomp _
        by_cases hd : (c :: tail).drop (longestPrefix (c :: tail) child.pfx) = []
        · rw [splitMid_eq_one _ _ _ _ hd]
          refine Comp.mk false _ _ _ (fun _ => Or.inl rfl) ?_
          intro e he
          simp only [List.mem_singleton] at he
          subst he
          exact holdcomp
        · rw [splitMid_eq_two _ _ _ _ hd]
          refine Comp.mk false _ _ _ ?_ ?_
          · intro _
            refine Or.inr ?_
            rw [len_addEdge]
            simp
          · intro e he
            rcases mem_addEdge_forward he with rfl | he'
            · exact Comp.mk false _ _ _ (fun _ => Or.inl rfl) (by intro e2 he2; simp at he2)
            · simp only [List.mem_singleton] at he'
              subst he'
              exact holdcomp
      have hlen : (updateEdge es c (splitMid child path (c :: tail) v)).length = es.length := by
        rw [hupd, heq]
        simp
      refine Comp.mk b _ p _ ?_ ?_
      · intro hb
        rcases hcond hb with h1 | h1
        · exact Or.inl h1
        · exact Or.inr (by rw [hlen]; exact h1)
      · intro e he
        rw [hupd] at he
        rw [heq] at hch
        rcases List.mem_append.mp he with he1 | he2
        · exact hch e (List.mem_append_left _ he1)
        · rcases List.mem_cons.mp he2 with rfl | he3
          · exact hmidcomp
          · exact hch e (List.mem_append_right _ (List.mem_cons_of_mem _ he3))


/-! ### Tree-level facts about Insert -/

theorem Wf_New {T : Type} : (Tree.New : Tree T).Wf := by
  refine ⟨?_, ?_, rfl, rfl⟩
  · exact SWf.mk _ _ _ _ (by intro l hl; cases hl) (by simp [sortedEdges])
      (by intro e he; simp at he) (by intro e he; simp at he)
  · exact Comp.mk _ _ _ _ (by intro h; cases h) (by intro e he; simp at he)

theorem Wf_Insert {T : Type} {t : Tree T} (hwf : t.Wf) (k : Key) (v : T) :
    (t.Insert k v).1.Wf := by
  obtain ⟨hswf, hcomp, hpfx, hsize⟩ := hwf
  refine ⟨?_, ?_, ?_, ?_⟩
  · exact insertRec_SWf t.root k k v [] hswf (by rw [hpfx]; simp)
  · exact insertRec_Comp t.root k k v true hcomp
  · show (Node.insertRec t.root k k v).1.pfx = []
    rw [insertRec_pfx]
    exact hpfx
  · show t.size + (if (Node.insertRec t.root k k v).2.isSome then 0 else 1) =
      (Node.insertRec t.root k k v).1.leafCount
    rw [insertRec_leafCount, hsize, insertRec_snd]

/-- Go Insert returns the previously stored value (and the update flag): the
second component is exactly what Get returned before the insert. -/
theorem Insert_snd_eq_Get {T : Type} (t : Tree T) (k : Key) (v : T) :
    (t.Insert k v).2 = t.Get k :=
  insertRec_snd t.root k k v

theorem Get_Insert_self {T : Type} (t : Tree T) (k : Key) (v : T) :
    (t.Insert k v).1.Get k = some v :=
  insertRec_get_self t.root k k v

theorem Get_Insert_other {T : Type} (t : Tree T) (k k' : Key) (v : T) (h : k' ≠ k) :
    (t.Insert k v).1.Get k' = t.Get k' :=
  insertRec_get_other t.root k k v k' h

/-! ### Sequences of Inserts (claim C1) -/

/-- Applying a list of Insert operations to the empty tree, in order. -/
def applyInserts {T : Type} (ops : List (Key × T)) : Tree T :=
  ops.foldl (fun t p => (t.Insert p.1 p.2).1) Tree.New

/-- The reference model: a plain map updated by each insert, in order. -/
def modelOf {T : Type} (ops : List (Key × T)) : Key → Option T :=
  ops.foldl (fun m p => fun k => if k = p.1 then some p.2 else m k) (fun _ => none)

theorem applyInserts_concat {T : Type} (ops : List (Key × T)) (p : Key × T) :
    applyInserts (ops ++ [p]) = ((applyInserts ops).Insert p.1 p.2).1 := by
  simp [applyInserts, List.foldl_append]

theorem modelOf_concat {T : Type} (ops : List (Key × T)) (p : Key × T) (k : Key) :
    modelOf (ops ++ [p]) k = if k = p.1 then some p.2 else modelOf ops k := by
  simp [modelOf, List.foldl_append]

theorem modelOf_isSome_iff {T : Type} (ops : List (Key × T)) (k : Key) :
    (modelOf ops k).isSome ↔ k ∈ ops.map Prod.fst := by
  induction ops using List.reverseRecOn with
  | nil => simp [modelOf]
  | append_singleton xs p ih =>
    rw [modelOf_concat]
    by_cases hk : k = p.1
    · subst hk
      simp
    · rw [if_neg hk]
      simp [ih, hk]

theorem get_New {T : Type} (k : Key) : (Tree.New : Tree T).Get k = none := by
  cases k with
  | nil => simp [Tree.Get, Tree.New, get_nil, leaf_mk]
  | cons c cs =>
    show Node.get (Node.mk none [] []) (c :: cs) = none
    rw [get_cons_none (by simp [edges_mk, getEdge])]

theorem toFinset_concat {α : Type} [DecidableEq α] (l : List α) (a : α) :
    (l ++ [a]).toFinset = insert a l.toFinset := by
  rw [List.toFinset_append]
  simp only [List.toFinset_cons, List.toFinset_nil, insert_emptyc_eq]
  rw [Finset.union_comm, ← Finset.insert_eq]

/-- Invariant for any sequence of inserts from the empty tree: the tree is
well formed, Get agrees with the reference map, and Len is the leaf count. -/
theorem applyInserts_spec {T : Type} (ops : List (Key × T)) :
    (applyInserts ops).Wf ∧ (∀ k, (applyInserts ops).Get k = modelOf ops k) ∧
      (applyInserts ops).Len = (ops.map Prod.fst).toFinset.card := by
  induction ops using List.reverseRecOn with
  | nil =>
    refine ⟨Wf_New, ?_, ?_⟩
    · intro k
      show (Tree.New : Tree T).Get k = (none : Option T)
      exact get_New k
    · rfl
  | append_singleton xs p ih =>
    obtain ⟨hwf, hget, hlen⟩ := ih
    rw [applyInserts_concat]
    refine ⟨Wf_Insert hwf p.1 p.2, ?_, ?_⟩
    · intro k
      rw [modelOf_concat]
      by_cases hk : k = p.1
      · subst hk
        rw [if_pos rfl]
        exact Get_Insert_self _ _ _
      · rw [if_neg hk, Get_Insert_other _ _ _ _ hk]
        exact hget k
    · show (applyInserts xs).size +
          (if ((Node.insertRec (applyInserts xs).root p.1 p.1 p.2).2).isSome then 0 else 1) =
          (((xs ++ [p]).map Prod.fst).toFinset).card
      have hsnd2 : (Node.insertRec (applyInserts xs).root p.1 p.1 p.2).2 =
          (applyInserts xs).Get p.1 := insertRec_snd _ _ _ _
      rw [List.map_append]
      simp only [List.map_cons, List.map_nil]
      rw [toFinset_concat, hsnd2]
      by_cases hp : p.1 ∈ xs.map Prod.fst
      · rw [Finset.card_insert_of_mem (by simpa using hp)]
        have hsome : ((applyInserts xs).Get p.1).isSome := by
          rw [hget p.1]
          exact (modelOf_isSome_iff xs p.1).mpr hp
        rw [if_pos hsome]
        simpa using hlen
      · rw [Finset.card_insert_of_not_mem (by simpa using hp)]
        have hnone : ¬ ((applyInserts xs).Get p.1).isSome = true := by
          rw [hget p.1]
          intro hcon
          exact hp ((modelOf_isSome_iff xs p.1).mp hcon)
        rw [if_neg hnone]
        have hlen2 : (applyInserts xs).size = (xs.map Prod.fst).toFinset.card := hlen
        omega


theorem modelOf_filter_getLast {T : Type} (ops : List (Key × T)) (k : Key) :
    modelOf ops k = ((ops.filter (fun p => p.1 = k)).getLast?).map Prod.snd := by
  induction ops using List.reverseRecOn with
  | nil => simp [modelOf]
  | append_singleton xs p ih =>
    rw [modelOf_concat, List.filter_append]
    by_cases hk : k = p.1
    · rw [if_pos hk]
      have hf : List.filter (fun p2 => decide (p2.1 = k)) [p] = [p] := by
        simp [hk]
      rw [hf, List.getLast?_concat]
      rfl
    · rw [if_neg hk]
      have hf : List.filter (fun p2 => decide (p2.1 = k)) [p] = [] := by
        simp
        intro hcon
        exact hk hcon.symm
      rw [hf, List.append_nil]
      exact ih

/-- Claim C1: for every sequence of Insert operations starting from an empty
tree, Get on each inserted key returns the value of the most recent Insert
with that exact key (found = true), and Len equals the number of distinct
keys inserted. -/
theorem C1_insert_sequences {T : Type} (ops : List (Key × T)) :
    (∀ k, k ∈ ops.map Prod.fst →
      (applyInserts ops).Get k = ((ops.filter (fun p => p.1 = k)).getLast?).map Prod.snd ∧
        ((applyInserts ops).Get k).isSome) ∧
      (applyInserts ops).Len = (ops.map Prod.fst).toFinset.card := by
  obtain ⟨hwf, hget, hlen⟩ := applyInserts_spec ops
  refine ⟨?_, hlen⟩
  intro k hk
  constructor
  · rw [hget k, modelOf_filter_getLast]
  · rw [hget k]
    exact (modelOf_isSome_iff ops k).mpr hk

/-- Witness for C1 at a concrete input: inserting the key 97 twice, Get
returns the most recent value and Len counts one distinct key. -/
theorem C1_insert_sequences_witness :
    (applyInserts [([97], 1), ([97], 2)] : Tree Nat).Get [97] = some 2 ∧
      (applyInserts [([97], 1), ([97], 2)] : Tree Nat).Len = 1 := by
  have h := C1_insert_sequences [([97], (1 : Nat)), ([97], 2)]
  have h1 := (h.1 [97] (by simp)).1
  refine ⟨?_, ?_⟩
  · rw [h1]
    decide
  · rw [h.2]
    decide

/-- Claim C9: Insert of an already-present key reports an update and returns
the previously stored value; Insert of an absent key reports no update (Go
then returns the zero value, modelled by `none`).  The returned previous
value is exactly what Get gave before the insert. -/
theorem C9_insert_previous {T : Type} (t : Tree T) (k : Key) (v : T) :
    (t.Insert k v).2 = t.Get k :=
  Insert_snd_eq_Get t k v


/-! ### Unfolding lemmas and helpers for the delete recursion -/

/-- The DELETE-block fixups of `Tree.Delete`, applied at the parent `n` whose
child at label `c` has just lost its leaf. -/
def delFix {T : Type} (isRoot : Bool) (n : Node T) (c : Nat) (child : Node T) : Node T :=
  let cur := Node.mk (none : Option (LeafNode T)) child.pfx child.edges
  let n1 :=
    if cur.edges.length = 0 then Node.mk n.leaf n.pfx (delEdge n.edges c)
    else Node.mk n.leaf n.pfx
      (updateEdge n.edges c (if cur.edges.length = 1 then cur.mergeChild else cur))
  if isRoot = false ∧ n1.edges.length = 1 ∧ n1.isLeaf = false then n1.mergeChild else n1

theorem deleteRec_nil {T : Type} (b : Bool) (n : Node T) :
    Node.deleteRec b n [] = none := by
  rw [Node.deleteRec.eq_1]

theorem deleteRec_cons_none {T : Type} {n : Node T} {c : Nat} {tail : Key}
    (h : getEdge n.edges c = none) (b : Bool) :
    Node.deleteRec b n (c :: tail) = none := by
  rw [Node.deleteRec.eq_2]
  split
  · rfl
  · rename_i child heq
    rw [h] at heq
    cases heq

theorem deleteRec_cons_nopre {T : Type} {n : Node T} {c : Nat} {tail : Key} {child : Node T}
    (h : getEdge n.edges c = some child) (hp : ¬ child.pfx <+: (c :: tail)) (b : Bool) :
    Node.deleteRec b n (c :: tail) = none := by
  rw [Node.deleteRec.eq_2]
  split
  · rename_i heq
    rw [h] at heq
  · rename_i child2 heq
    rw [h] at heq
    injection heq with heq2
    subst heq2
    rw [if_neg hp]

theorem deleteRec_final_noleaf {T : Type} {n : Node T} {c : Nat} {tail : Key} {child : Node T}
    (h : getEdge n.edges c = some child) (hp : child.pfx <+: (c :: tail))
    (hs : (c :: tail).drop child.pfx.length = []) (hleaf : child.leaf = none) (b : Bool) :
    Node.deleteRec b n (c :: tail) = none := by
  rw [Node.deleteRec.eq_2]
  split
  · rename_i heq
    rw [h] at heq
  · rename_i child2 heq
    rw [h] at heq
    injection heq with heq2
    subst heq2
    rw [if_pos hp, dif_pos hs, hleaf]

theorem deleteRec_final_leaf {T : Type} {n : Node T} {c : Nat} {tail : Key} {child : Node T}
    {l : LeafNode T} (h : getEdge n.edges c = some child) (hp : child.pfx <+: (c :: tail))
    (hs : (c :: tail).drop child.pfx.length = []) (hleaf : child.leaf = some l) (b : Bool) :
    Node.deleteRec b n (c :: tail) = some (delFix b n c child, l.val) := by
  rw [Node.deleteRec.eq_2]
  split
  · rename_i heq
    rw [h] at heq
    cases heq
  · rename_i child2 heq
    rw [h] at heq
    injection heq with heq2
    subst heq2
    rw [if_pos hp, dif_pos hs, hleaf]
    rfl

theorem deleteRec_step {T : Type} {n : Node T} {c : Nat} {tail : Key} {child : Node T}
    (h : getEdge n.edges c = some child) (hp : child.pfx <+: (c :: tail))
    (hs : ¬ (c :: tail).drop child.pfx.length = []) (b : Bool) :
    Node.deleteRec b n (c :: tail) =
      match Node.deleteRec false child ((c :: tail).drop child.pfx.length) with
      | none => none
      | some r => some (Node.mk n.leaf n.pfx (updateEdge n.edges c r.1), r.2) := by
  rw [Node.deleteRec.eq_2]
  split
  · rename_i heq
    rw [h] at heq
    cases heq
  · rename_i child2 heq
    rw [h] at heq
    injection heq with heq2
    subst heq2
    rw [if_pos hp, dif_neg hs]

theorem getEdge_delEdge_self {T : Type} {es : List (Nat × Node T)} (hs : sortedEdges es)
    {c : Nat} {child : Node T} (h : getEdge es c = some child) :
    getEdge (delEdge es c) c = none := by
  obtain ⟨es1, es2, heq, hlt, _, hdel⟩ := getEdge_decomp h
  rw [hdel]
  refine (getEdge_eq_none_iff ?_).mpr ?_
  · have := sorted_delEdge hs c
    rw [hdel] at this
    exact this
  · subst heq
    unfold sortedEdges at hs
    simp only [List.map_append, List.map_cons] at hs
    rw [List.pairwise_append] at hs
    obtain ⟨h1, h2, h12⟩ := hs
    intro hmem
    simp only [List.map_append, List.mem_append] at hmem
    rcases hmem with hm | hm
    · obtain ⟨e, he, hfst⟩ := List.mem_map.mp hm
      have := hlt e he
      omega
    · have hpc := List.pairwise_cons.mp h2
      obtain ⟨e, he, hfst⟩ := List.mem_map.mp hm
      have := hpc.1 e.1 (List.mem_map_of_mem Prod.fst he)
      omega

theorem getEdge_delEdge_ne {T : Type} {es : List (Nat × Node T)} (hs : sortedEdges es)
    {c x : Nat} (hne : x ≠ c) : getEdge (delEdge es c) x = getEdge es x := by
  cases h : getEdge es c with
  | none => rw [delEdge_of_getEdge_none h]
  | some child =>
    obtain ⟨es1, es2, heq, hlt, _, hdel⟩ := getEdge_decomp h
    rw [hdel]
    have hsorted2 : sortedEdges (es1 ++ es2) := by
      have := sorted_delEdge hs c
      rw [hdel] at this
      exact this
    cases hx : getEdge es x with
    | none =>
      refine (getEdge_eq_none_iff hsorted2).mpr ?_
      intro hmem
      apply (getEdge_eq_none_iff hs).mp hx
      subst heq
      simp only [List.map_append, List.mem_append, List.map_cons, List.mem_cons] at hmem ⊢
      tauto
    | some d =>
      refine (getEdge_eq_some_iff hsorted2).mpr ?_
      have hmem := getEdge_mem hx
      subst heq
      rcases List.mem_append.mp hmem with hm | hm
      · exact List.mem_append_left _ hm
      · rcases List.mem_cons.mp hm with hm2 | hm2
        · injection hm2 with hm3
          exact absurd hm3 hne
        · exact List.mem_append_right _ hm2

/-- Descent into a node as seen from its parent: its own compressed prefix is
consumed first (this is how the Go loops treat the node at the far end of an
edge). -/
def Node.findFrom {T : Type} (n : Node T) (z : Key) : Option T :=
  if n.pfx <+: z then n.get (z.drop n.pfx.length) else none

theorem append_prefix_iff {a b z : Key} :
    (a ++ b <+: z) ↔ (a <+: z ∧ b <+: z.drop a.length) := by
  constructor
  · intro h
    have ha : a <+: z := (List.prefix_append a b).trans h
    refine ⟨ha, ?_⟩
    obtain ⟨k, hk⟩ := h
    have hdrop : z.drop a.length = b ++ k := by
      rw [← hk, List.append_assoc]
      exact List.drop_left a (b ++ k)
    rw [hdrop]
    exact List.prefix_append b k
  · intro ⟨h1, h2⟩
    obtain ⟨k, hk⟩ := h2
    have hz : z = a ++ z.drop a.length := by
      conv_lhs => rw [← List.take_append_drop a.length z]
      rw [← List.prefix_iff_eq_take.mp h1]
    rw [hz, ← hk]
    rw [← List.append_assoc]
    exact List.prefix_append _ _


theorem get_cons_findFrom {T : Type} (n : Node T) (d : Nat) (rest : Key) :
    n.get (d :: rest) =
      match getEdge n.edges d with
      | none => none
      | some ch => ch.findFrom (d :: rest) := by
  cases hg : getEdge n.edges d with
  | none => rw [get_cons_none hg]
  | some ch =>
    rw [get_cons_some hg]
    rfl

/-- Denotation of a leaf-only node: exactly one key, its own prefix. -/
theorem findFrom_leafOnly {T : Type} (l : LeafNode T) (cpx : Key) (rem : Key) :
    (Node.mk (some l) cpx []).findFrom rem = if rem = cpx then some l.val else none := by
  unfold Node.findFrom
  simp only [pfx_mk]
  by_cases hp : cpx <+: rem
  · rw [if_pos hp]
    cases hrem : rem.drop cpx.length with
    | nil =>
      have hlen := congrArg List.length hrem
      simp only [List.length_drop, List.length_nil] at hlen
      have heq : rem = cpx := by
        have := hp.length_le
        exact (hp.eq_of_length (by omega)).symm
      rw [heq, if_pos rfl, get_nil]
      rfl
    | cons d rest =>
      rw [get_cons_none (by simp [edges_mk, getEdge])]
      have hne : rem ≠ cpx := by
        intro hcon
        rw [hcon] at hrem
        simp at hrem
      rw [if_neg hne]
  · rw [if_neg hp]
    rw [if_neg (fun hcon => hp (by rw [hcon]))]

/-- Merging a leafless single-child node does not change its denotation. -/
theorem findFrom_merge {T : Type} {lf : Option (LeafNode T)} {p : Key} {gl : Nat}
    {gc : Node T} (hleaf : lf = none) (hhd : gc.pfx.head? = some gl) (z : Key) :
    (Node.mk lf p [(gl, gc)]).mergeChild.findFrom z = (Node.mk lf p [(gl, gc)]).findFrom z := by
  subst hleaf
  have hmerge : (Node.mk (none : Option (LeafNode T)) p [(gl, gc)]).mergeChild =
      Node.mk gc.leaf (p ++ gc.pfx) gc.edges := by
    rw [Node.mergeChild]
    rfl
  rw [hmerge]
  unfold Node.findFrom
  simp only [pfx_mk]
  obtain ⟨g0, grest, hg0⟩ : ∃ g0 grest, gc.pfx = g0 :: grest := by
    cases hx : gc.pfx with
    | nil => rw [hx] at hhd; cases hhd
    | cons a b => exact ⟨a, b, rfl⟩
  have hg0l : g0 = gl := by
    rw [hg0] at hhd
    injection hhd with h2
  by_cases hp : p <+: z
  · rw [if_pos hp]
    have hiff : (p ++ gc.pfx <+: z) ↔ (gc.pfx <+: z.drop p.length) := by
      rw [append_prefix_iff]
      constructor
      · exact fun h => h.2
      · exact fun h => ⟨hp, h⟩
    cases hrem : z.drop p.length with
    | nil =>
      have hnp2 : ¬ (p ++ gc.pfx <+: z) := by
        rw [hiff, hrem, hg0]
        intro hcon
        simp at hcon
      rw [if_neg hnp2, get_nil]
      rfl
    | cons d rest =>
      rw [get_cons_findFrom]
      have hged : getEdge (Node.mk (none : Option (LeafNode T)) p [(gl, gc)]).edges d =
          if gl = d then some gc else none := by
        simp only [edges_mk]
        exact getEdge_singleton gl gc d
      by_cases hgld : gl = d
      · rw [hged, if_pos hgld]
        show (if p ++ gc.pfx <+: z then
            Node.get (Node.mk gc.leaf (p ++ gc.pfx) gc.edges) (z.drop (p ++ gc.pfx).length)
          else none) = gc.findFrom (d :: rest)
        unfold Node.findFrom
        rw [← hrem]
        simp only [hiff]
        by_cases hp2 : gc.pfx <+: z.drop p.length
        · rw [if_pos hp2, if_pos hp2]
          have hdid : z.drop (p ++ gc.pfx).length = (z.drop p.length).drop gc.pfx.length := by
            rw [List.drop_drop, List.length_append]
          rw [hdid]
          cases gc
          exact get_pfx_irrel _ _ _ _ _
        · rw [if_neg hp2, if_neg hp2]
      · rw [hged, if_neg hgld]
        have hnp2 : ¬ (p ++ gc.pfx <+: z) := by
          rw [hiff, hrem, hg0, hg0l]
          intro hcon
          have := (List.cons_prefix_cons.mp hcon).1
          exact hgld this
        rw [if_neg hnp2]
  · rw [if_neg hp]
    have hnp2 : ¬ (p ++ gc.pfx <+: z) := by
      intro hcon
      exact hp ((List.prefix_append p gc.pfx).trans hcon)
    rw [if_neg hnp2]


theorem head_append_left {p q : Key} (hp : p ≠ []) : (p ++ q).head? = p.head? := by
  cases p with
  | nil => exact absurd rfl hp
  | cons a b => rfl

/-- Replacing the child at label c by one whose denotation lost exactly the
key w (whose first byte is c) removes exactly w from the parent-level Get. -/
theorem get_update_congr {T : Type} {es : List (Nat × Node T)} {c : Nat}
    {child child' : Node T} (h : getEdge es c = some child) {w : Key}
    (hw : w.head? = some c)
    (hden : ∀ rem, child'.findFrom rem = if rem = w then none else child.findFrom rem)
    (lf : Option (LeafNode T)) (p : Key) (rem : Key) :
    (Node.mk lf p (updateEdge es c child')).get rem =
      if rem = w then none else (Node.mk lf p es).get rem := by
  obtain ⟨w0, wrest, hw0⟩ : ∃ w0 wrest, w = w0 :: wrest := by
    cases hx : w with
    | nil => rw [hx] at hw; cases hw
    | cons a b => exact ⟨a, b, rfl⟩
  have hw0c : w0 = c := by
    rw [hw0] at hw
    injection hw with h2
  cases rem with
  | nil =>
    rw [if_neg (by rw [hw0]; intro hcon; cases hcon), get_nil, get_nil]
    rfl
  | cons d rest =>
    rw [get_cons_findFrom, get_cons_findFrom]
    simp only [edges_mk]
    by_cases hdc : d = c
    · subst hdc
      rw [getEdge_updateEdge_self h, h]
      show child'.findFrom (d :: rest) = if d :: rest = w then none else child.findFrom (d :: rest)
      exact hden (d :: rest)
    · rw [getEdge_updateEdge_ne es child' hdc]
      have hne : d :: rest ≠ w := by
        rw [hw0]
        intro hcon
        injection hcon with h1 h2
        exact hdc (h1.trans hw0c)
      rw [if_neg hne]

/-- Dropping the edge of a child whose only key is w (first byte c) removes
exactly w from the parent-level Get. -/
theorem get_del_congr {T : Type} {es : List (Nat × Node T)} (hs : sortedEdges es) {c : Nat}
    {child : Node T} (h : getEdge es c = some child) {w : Key} {val : T}
    (hw : w.head? = some c)
    (hden : ∀ rem, child.findFrom rem = if rem = w then some val else none)
    (lf : Option (LeafNode T)) (p : Key) (rem : Key) :
    (Node.mk lf p (delEdge es c)).get rem =
      if rem = w then none else (Node.mk lf p es).get rem := by
  obtain ⟨w0, wrest, hw0⟩ : ∃ w0 wrest, w = w0 :: wrest := by
    cases hx : w with
    | nil => rw [hx] at hw; cases hw
    | cons a b => exact ⟨a, b, rfl⟩
  have hw0c : w0 = c := by
    rw [hw0] at hw
    injection hw with h2
  cases rem with
  | nil =>
    rw [if_neg (by rw [hw0]; intro hcon; cases hcon), get_nil, get_nil]
    rfl
  | cons d rest =>
    rw [get_cons_findFrom, get_cons_findFrom]
    simp only [edges_mk]
    by_cases hdc : d = c
    · subst hdc
      rw [getEdge_delEdge_self hs h, h]
      show none = if d :: rest = w then none else child.findFrom (d :: rest)
      rw [hden (d :: rest)]
      by_cases hrw : d :: rest = w
      · rw [if_pos hrw]
      · rw [if_neg hrw, if_neg hrw]
    · rw [getEdge_delEdge_ne hs hdc]
      have hne : d :: rest ≠ w := by
        rw [hw0]
        intro hcon
        injection hcon with h1 h2
        exact hdc (h1.trans hw0c)
      rw [if_neg hne]

/-- Lifting a Get-level deletion statement through the node prefix. -/
theorem findFrom_of_get_congr {T : Type} {n0 n1 : Node T} {w : Key}
    (hpfx : n1.pfx = n0.pfx)
    (hget : ∀ rem, n1.get rem = if rem = w then none else n0.get rem) (z : Key) :
    n1.findFrom z = if z = n0.pfx ++ w then none else n0.findFrom z := by
  unfold Node.findFrom
  rw [hpfx]
  by_cases hp : n0.pfx <+: z
  · rw [if_pos hp, if_pos hp, hget]
    have hz : z = n0.pfx ++ z.drop n0.pfx.length := by
      conv_lhs => rw [← List.take_append_drop n0.pfx.length z]
      rw [← List.prefix_iff_eq_take.mp hp]
    by_cases hzw : z.drop n0.pfx.length = w
    · rw [if_pos hzw, if_pos (by rw [hz, hzw])]
    · rw [if_neg hzw, if_neg ?_]
      intro hcon
      apply hzw
      rw [hcon]
      exact List.drop_left _ _
  · rw [if_neg hp, if_neg hp, if_neg ?_]
    intro hcon
    apply hp
    rw [hcon]
    exact List.prefix_append _ _

/-- Merging keeps semantic well-formedness. -/
theorem SWf_mergeChild {T : Type} {acc : Key} {lf : Option (LeafNode T)} {p : Key}
    {gl : Nat} {gc : Node T}
    (hswf : SWf acc (Node.mk lf p [(gl, gc)])) :
    SWf acc (Node.mk lf p [(gl, gc)]).mergeChild := by
  have hmerge : (Node.mk lf p [(gl, gc)]).mergeChild =
      Node.mk gc.leaf (p ++ gc.pfx) gc.edges := by
    rw [Node.mergeChild]
    rfl
  rw [hmerge]
  obtain ⟨hl, hsort, hhd, hch⟩ := hswf.parts
  have hgc : SWf (acc ++ p) gc := hch (gl, gc) (List.mem_singleton.mpr rfl)
  cases gc with
  | mk glf gp ges =>
    obtain ⟨hgl, hgsort, hghd, hgch⟩ := hgc.parts
    simp only [leaf_mk, pfx_mk, edges_mk]
    refine SWf.mk _ _ _ _ ?_ hgsort hghd ?_
    · intro l hll
      rw [← List.append_assoc]
      exact hgl l hll
    · intro e he
      rw [← List.append_assoc]
      exact hgch e he

theorem leafCount_mergeChild {T : Type} (lf : Option (LeafNode T)) (p : Key)
    (gl : Nat) (gc : Node T) :
    (Node.mk lf p [(gl, gc)]).mergeChild.leafCount = gc.leafCount := by
  have hmerge : (Node.mk lf p [(gl, gc)]).mergeChild =
      Node.mk gc.leaf (p ++ gc.pfx) gc.edges := by
    rw [Node.mergeChild]
    rfl
  rw [hmerge]
  cases gc with
  | mk glf gp ges =>
    simp [leafCount_mk, leaf_mk, edges_mk]


/-- Clearing the leaf of a node removes exactly the key at its own prefix. -/
theorem findFrom_clearLeaf {T : Type} (l : LeafNode T) (cpx : Key) (ces : List (Nat × Node T))
    (rem : Key) :
    (Node.mk (none : Option (LeafNode T)) cpx ces).findFrom rem =
      if rem = cpx then none else (Node.mk (some l) cpx ces).findFrom rem := by
  unfold Node.findFrom
  simp only [pfx_mk]
  by_cases hp : cpx <+: rem
  · rw [if_pos hp]
    cases hrem : rem.drop cpx.length with
    | nil =>
      have hlen := congrArg List.length hrem
      simp only [List.length_drop, List.length_nil] at hlen
      have heq : rem = cpx := by
        have := hp.length_le
        exact (hp.eq_of_length (by omega)).symm
      rw [if_pos heq, get_nil]
      rfl
    | cons d rest =>
      have hne : rem ≠ cpx := by
        intro hcon
        rw [hcon] at hrem
        simp at hrem
      rw [if_neg hne, if_pos hp, get_cons_findFrom, get_cons_findFrom]
      rfl
  · rw [if_neg hp]
    rw [if_neg (fun hcon => hp (by rw [hcon])), if_neg hp]

theorem SWf_clearLeaf {T : Type} {acc2 : Key} {l : LeafNode T} {cpx : Key}
    {ces : List (Nat × Node T)} (hswf : SWf acc2 (Node.mk (some l) cpx ces)) :
    SWf acc2 (Node.mk (none : Option (LeafNode T)) cpx ces) := by
  obtain ⟨hl, hsort, hhd, hch⟩ := hswf.parts
  exact SWf.mk _ _ _ _ (by intro l2 hl2; cases hl2) hsort hhd hch


/-- The final root-guarded merge of the DELETE block changes neither the
denotation nor well-formedness, leaf count, or first prefix byte. -/
theorem delTopMerge {T : Type} {acc : Key} {b : Bool} {n1 : Node T} (hswf : SWf acc n1) :
    (∀ z, (if b = false ∧ n1.edges.length = 1 ∧ n1.isLeaf = false then
        n1.mergeChild else n1).findFrom z = n1.findFrom z) ∧
    SWf acc (if b = false ∧ n1.edges.length = 1 ∧ n1.isLeaf = false then
        n1.mergeChild else n1) ∧
    (b = true → (if b = false ∧ n1.edges.length = 1 ∧ n1.isLeaf = false then
        n1.mergeChild else n1).pfx = n1.pfx) ∧
    (n1.pfx ≠ [] → (if b = false ∧ n1.edges.length = 1 ∧ n1.isLeaf = false then
        n1.mergeChild else n1).pfx.head? = n1.pfx.head?) ∧
    (if b = false ∧ n1.edges.length = 1 ∧ n1.isLeaf = false then
        n1.mergeChild else n1).leafCount = n1.leafCount := by
  by_cases hm : b = false ∧ n1.edges.length = 1 ∧ n1.isLeaf = false
  · rw [if_pos hm]
    obtain ⟨hb, hlen, hlf⟩ := hm
    cases n1 with
    | mk lf p es =>
      have hlfnone : lf = none := by
        simp only [Node.isLeaf, leaf_mk] at hlf
        cases lf with
        | none => rfl
        | some l2 => simp at hlf
      subst hlfnone
      simp only [edges_mk] at hlen
      obtain ⟨e, hes⟩ : ∃ e, es = [e] := by
        cases es with
        | nil => simp at hlen
        | cons f rest =>
          cases rest with
          | nil => exact ⟨f, rfl⟩
          | cons g r2 => simp at hlen
      obtain ⟨gl, gc⟩ := e
      subst hes
      obtain ⟨hl, hsort, hhd, hch⟩ := hswf.parts
      have hgchd : gc.pfx.head? = some gl := (hhd (gl, gc) (List.mem_singleton.mpr rfl)).symm ▸
        hhd (gl, gc) (List.mem_singleton.mpr rfl)
      refine ⟨fun z => findFrom_merge rfl hgchd z, SWf_mergeChild hswf, ?_, ?_, ?_⟩
      · intro hb2
        rw [hb2] at hb
        cases hb
      · intro hp
        have hmerge : (Node.mk (none : Option (LeafNode T)) p [(gl, gc)]).mergeChild =
            Node.mk gc.leaf (p ++ gc.pfx) gc.edges := by
          rw [Node.mergeChild]
          rfl
        rw [hmerge]
        simp only [pfx_mk] at hp ⊢
        exact head_append_left hp
      · rw [leafCount_mergeChild]
        rw [leafCount_mk]
        simp [edgesLeafCount]
  · rw [if_neg hm]
    exact ⟨fun z => rfl, hswf, fun _ => rfl, fun _ => rfl, rfl⟩


theorem SWf_updateEdge {T : Type} {acc : Key} {lf : Option (LeafNode T)} {p : Key}
    {es : List (Nat × Node T)} (hswf : SWf acc (Node.mk lf p es)) {c : Nat}
    {child child' : Node T} (h : getEdge es c = some child)
    (hswf' : SWf (acc ++ p) child') (hhd : child'.pfx.head? = some c) :
    SWf acc (Node.mk lf p (updateEdge es c child')) := by
  obtain ⟨hl, hsort, hhd0, hch⟩ := hswf.parts
  obtain ⟨es1, es2, heq, hlt, hupd, hdel⟩ := getEdge_decomp h
  rw [hupd]
  have hmem : ∀ e, e ∈ es1 ++ (c, child') :: es2 → e ∈ es ∨ e = (c, child') := by
    intro e he
    rcases List.mem_append.mp he with h1 | h1
    · exact Or.inl (by rw [heq]; exact List.mem_append.mpr (Or.inl h1))
    · rcases List.mem_cons.mp h1 with h2 | h2
      · exact Or.inr h2
      · exact Or.inl (by
          rw [heq]
          exact List.mem_append.mpr (Or.inr (List.mem_cons.mpr (Or.inr h2))))
  refine SWf.mk _ _ _ _ hl ?_ ?_ ?_
  · have := sorted_updateEdge hsort c child'
    rw [hupd] at this
    exact this
  · intro e he
    rcases hmem e he with h1 | h1
    · exact hhd0 e h1
    · rw [h1]
      exact hhd
  · intro e he
    rcases hmem e he with h1 | h1
    · exact hch e h1
    · rw [h1]
      exact hswf'

theorem SWf_delEdge {T : Type} {acc : Key} {lf : Option (LeafNode T)} {p : Key}
    {es : List (Nat × Node T)} (hswf : SWf acc (Node.mk lf p es)) (c : Nat) :
    SWf acc (Node.mk lf p (delEdge es c)) := by
  obtain ⟨hl, hsort, hhd0, hch⟩ := hswf.parts
  cases h : getEdge es c with
  | none =>
    rw [delEdge_of_getEdge_none h]
    exact hswf
  | some child =>
    obtain ⟨es1, es2, heq, hlt, hupd, hdel⟩ := getEdge_decomp h
    rw [hdel]
    have hmem : ∀ e, e ∈ es1 ++ es2 → e ∈ es := by
      intro e he
      rw [heq]
      rcases List.mem_append.mp he with h1 | h1
      · exact List.mem_append.mpr (Or.inl h1)
      · exact List.mem_append.mpr (Or.inr (List.mem_cons.mpr (Or.inr h1)))
    refine SWf.mk _ _ _ _ hl ?_ ?_ ?_
    · have := sorted_delEdge hsort c
      rw [hdel] at this
      exact this
    · exact fun e he => hhd0 e (hmem e he)
    · exact fun e he => hch e (hmem e he)

theorem edgesLeafCount_updateEdge {T : Type} {es : List (Nat × Node T)} {c : Nat}
    {child : Node T} (h : getEdge es c = some child) (child' : Node T) :
    edgesLeafCount (updateEdge es c child') + child.leafCount =
      edgesLeafCount es + child'.leafCount := by
  obtain ⟨es1, es2, heq, hlt, hupd, hdel⟩ := getEdge_decomp h
  rw [hupd, heq, edgesLeafCount_append, edgesLeafCount_append]
  simp only [edgesLeafCount]
  omega

theorem edgesLeafCount_delEdge {T : Type} {es : List (Nat × Node T)} {c : Nat}
    {child : Node T} (h : getEdge es c = some child) :
    edgesLeafCount (delEdge es c) + child.leafCount = edgesLeafCount es := by
  obtain ⟨es1, es2, heq, hlt, hupd, hdel⟩ := getEdge_decomp h
  rw [hdel, heq, edgesLeafCount_append, edgesLeafCount_append]
  simp only [edgesLeafCount]
  omega

theorem mem_updateEdge {T : Type} {es : List (Nat × Node T)} {c : Nat} {nd : Node T}
    {e : Nat × Node T} (he : e ∈ updateEdge es c nd) : e ∈ es ∨ e = (c, nd) := by
  induction es with
  | nil => simp [updateEdge] at he
  | cons f rest ih =>
    simp only [updateEdge] at he
    split at he
    · split at he
      · rcases List.mem_cons.mp he with h1 | h1
        · rename_i hfl
          right
          rw [h1, hfl]
        · exact Or.inl (List.mem_cons.mpr (Or.inr h1))
      · exact Or.inl he
    · rcases List.mem_cons.mp he with h1 | h1
      · exact Or.inl (List.mem_cons.mpr (Or.inl h1))
      · rcases ih h1 with h2 | h2
        · exact Or.inl (List.mem_cons.mpr (Or.inr h2))
        · exact Or.inr h2

theorem mem_delEdge {T : Type} {es : List (Nat × Node T)} {c : Nat}
    {e : Nat × Node T} (he : e ∈ delEdge es c) : e ∈ es := by
  induction es with
  | nil => simp [delEdge] at he
  | cons f rest ih =>
    simp only [delEdge] at he
    split at he
    · split at he
      · exact List.mem_cons.mpr (Or.inr he)
      · exact he
    · rcases List.mem_cons.mp he with h1 | h1
      · exact List.mem_cons.mpr (Or.inl h1)
      · exact List.mem_cons.mpr (Or.inr (ih h1))

theorem len_delEdge {T : Type} {es : List (Nat × Node T)} {c : Nat}
    {child : Node T} (h : getEdge es c = some child) :
    (delEdge es c).length + 1 = es.length := by
  obtain ⟨es1, es2, heq, hlt, hupd, hdel⟩ := getEdge_decomp h
  rw [hdel, heq]
  simp only [List.length_append, List.length_cons]
  omega

theorem len_updateEdge {T : Type} (es : List (Nat × Node T)) (c : Nat) (nd : Node T) :
    (updateEdge es c nd).length = es.length := by
  have := congrArg List.length (labels_updateEdge es c nd)
  simpa using this


theorem delFix_nil {T : Type} (b : Bool) (n : Node T) (c : Nat) (clf : Option (LeafNode T))
    (cpx : Key) :
    delFix b n c (Node.mk clf cpx []) =
      (if b = false ∧ (Node.mk n.leaf n.pfx (delEdge n.edges c)).edges.length = 1 ∧
          (Node.mk n.leaf n.pfx (delEdge n.edges c)).isLeaf = false then
        (Node.mk n.leaf n.pfx (delEdge n.edges c)).mergeChild
      else Node.mk n.leaf n.pfx (delEdge n.edges c)) := rfl

theorem delFix_one {T : Type} (b : Bool) (n : Node T) (c : Nat) (clf : Option (LeafNode T))
    (cpx : Key) (gl : Nat) (gc : Node T) :
    delFix b n c (Node.mk clf cpx [(gl, gc)]) =
      (if b = false ∧
          (Node.mk n.leaf n.pfx (updateEdge n.edges c
            ((Node.mk (none : Option (LeafNode T)) cpx [(gl, gc)]).mergeChild))).edges.length = 1 ∧
          (Node.mk n.leaf n.pfx (updateEdge n.edges c
            ((Node.mk (none : Option (LeafNode T)) cpx [(gl, gc)]).mergeChild))).isLeaf = false then
        (Node.mk n.leaf n.pfx (updateEdge n.edges c
          ((Node.mk (none : Option (LeafNode T)) cpx [(gl, gc)]).mergeChild))).mergeChild
      else
        Node.mk n.leaf n.pfx (updateEdge n.edges c
          ((Node.mk (none : Option (LeafNode T)) cpx [(gl, gc)]).mergeChild))) := rfl

theorem delFix_many {T : Type} (b : Bool) (n : Node T) (c : Nat) (clf : Option (LeafNode T))
    (cpx : Key) (e1 e2 : Nat × Node T) (rest : List (Nat × Node T)) :
    delFix b n c (Node.mk clf cpx (e1 :: e2 :: rest)) =
      (if b = false ∧
          (Node.mk n.leaf n.pfx (updateEdge n.edges c
            (Node.mk (none : Option (LeafNode T)) cpx (e1 :: e2 :: rest)))).edges.length = 1 ∧
          (Node.mk n.leaf n.pfx (updateEdge n.edges c
            (Node.mk (none : Option (LeafNode T)) cpx (e1 :: e2 :: rest)))).isLeaf = false then
        (Node.mk n.leaf n.pfx (updateEdge n.edges c
          (Node.mk (none : Option (LeafNode T)) cpx (e1 :: e2 :: rest)))).mergeChild
      else
        Node.mk n.leaf n.pfx (updateEdge n.edges c
          (Node.mk (none : Option (LeafNode T)) cpx (e1 :: e2 :: rest)))) := rfl

/-- Chaining the node-level deletion facts through the final root-guarded
merge of the DELETE block. -/
theorem delStep2 {T : Type} {acc : Key} {b : Bool} {n n1 : Node T} {w : Key}
    (hff : ∀ z, n1.findFrom z = if z = n.pfx ++ w then none else n.findFrom z)
    (hswf1 : SWf acc n1) (hpfx1 : n1.pfx = n.pfx)
    (hcnt : n1.leafCount + 1 = n.leafCount) :
    (∀ z, (if b = false ∧ n1.edges.length = 1 ∧ n1.isLeaf = false then n1.mergeChild
        else n1).findFrom z = if z = n.pfx ++ w then none else n.findFrom z) ∧
    SWf acc (if b = false ∧ n1.edges.length = 1 ∧ n1.isLeaf = false then n1.mergeChild
        else n1) ∧
    (b = true → (if b = false ∧ n1.edges.length = 1 ∧ n1.isLeaf = false then n1.mergeChild
        else n1).pfx = n.pfx) ∧
    (n.pfx ≠ [] → (if b = false ∧ n1.edges.length = 1 ∧ n1.isLeaf = false then n1.mergeChild
        else n1).pfx.head? = n.pfx.head?) ∧
    (if b = false ∧ n1.edges.length = 1 ∧ n1.isLeaf = false then n1.mergeChild
        else n1).leafCount + 1 = n.leafCount := by
  obtain ⟨h1, h2, h3, h4, h5⟩ := @delTopMerge T acc b n1 hswf1
  refine ⟨fun z => (h1 z).trans (hff z), h2, fun hb => (h3 hb).trans hpfx1, ?_,
    by rw [h5]; exact hcnt⟩
  intro hnp
  have hnp1 : n1.pfx ≠ [] := by rw [hpfx1]; exact hnp
  rw [h4 hnp1, hpfx1]

/-- The full correctness of the `Tree.Delete` descent loop, seen from the
parent: on success it removes exactly the key `n.pfx ++ s` from the subtree
denotation, keeps semantic well-formedness, keeps the prefix of a root node,
keeps the first prefix byte of a non-root node, returns the stored value, and
drops the leaf count by one. -/
theorem deleteRec_spec {T : Type} :
    ∀ (b : Bool) (n : Node T) (s : Key), ∀ (r : Node T × T) (acc : Key),
    Node.deleteRec b n s = some r → SWf acc n →
    ((∀ z, r.1.findFrom z = if z = n.pfx ++ s then none else n.findFrom z) ∧
     SWf acc r.1 ∧ n.get s = some r.2 ∧
     (b = true → r.1.pfx = n.pfx) ∧
     (n.pfx ≠ [] → r.1.pfx.head? = n.pfx.head?) ∧
     r.1.leafCount + 1 = n.leafCount) := by
  intro b n s
  induction b, n, s using Node.deleteRec.induct with
  | case1 b n =>
    intro r acc hres hswf
    rw [deleteRec_nil] at hres
    cases hres
  | case2 b n c tail hg =>
    intro r acc hres hswf
    rw [deleteRec_cons_none hg b] at hres
    cases hres
  | case3 b n c tail child hg hpre hdrop hnl =>
    intro r acc hres hswf
    rw [deleteRec_final_noleaf hg hpre hdrop hnl b] at hres
    cases hres
  | case7 b n c tail child hg hnp =>
    intro r acc hres hswf
    rw [deleteRec_cons_nopre hg hnp b] at hres
    cases hres
  | case5 b n c tail child hg hpre hdrop hrecnone ih =>
    intro r acc hres hswf
    rw [deleteRec_step hg hpre hdrop b, hrecnone] at hres
    cases hres
  | case4 b n c tail child hg hpre hdrop l hleaf =>
    intro r acc hres hswf
    rw [deleteRec_final_leaf hg hpre hdrop hleaf b] at hres
    injection hres with hres1
    subst hres1
    have hlen1 : (c :: tail).length ≤ child.pfx.length := by
      have h0 := congrArg List.length hdrop
      simp only [List.length_drop, List.length_nil] at h0
      omega
    have hcpx : child.pfx = c :: tail :=
      hpre.eq_of_length (Nat.le_antisymm hpre.length_le hlen1)
    cases n with
    | mk lf p es =>
      have hg2 : getEdge es c = some child := hg
      obtain ⟨hl, hsort, hhd0, hch⟩ := hswf.parts
      have hchSWf : SWf (acc ++ p) child := hch (c, child) (getEdge_mem hg2)
      have hget0 : Node.get (Node.mk lf p es) (c :: tail) = some l.val := by
        rw [get_cons_some hg, if_pos hpre, hdrop, get_nil, hleaf]
        rfl
      cases child with
      | mk clf cpx ces =>
        simp only [leaf_mk] at hleaf
        subst hleaf
        simp only [pfx_mk] at hcpx
        subst hcpx
        cases ces with
        | nil =>
          rw [delFix_nil]
          have hden : ∀ rem, (Node.mk (some l) (c :: tail)
              ([] : List (Nat × Node T))).findFrom rem =
              if rem = c :: tail then some l.val else none :=
            fun rem => findFrom_leafOnly l (c :: tail) rem
          have hget1 : ∀ rem, (Node.mk lf p (delEdge es c)).get rem =
              if rem = c :: tail then none else (Node.mk lf p es).get rem :=
            fun rem => get_del_congr hsort hg2 (rfl : (c :: tail).head? = some c) hden lf p rem
          have hff : ∀ z, (Node.mk lf p (delEdge es c)).findFrom z =
              if z = (Node.mk lf p es).pfx ++ c :: tail then none
              else (Node.mk lf p es).findFrom z := by
            intro z
            refine findFrom_of_get_congr ?_ hget1 z
            rfl
          have hswf1 : SWf acc (Node.mk lf p (delEdge es c)) := SWf_delEdge hswf c
          have hcnt1 : (Node.mk lf p (delEdge es c)).leafCount + 1 =
              (Node.mk lf p es).leafCount := by
            have h1 := edgesLeafCount_delEdge hg2
            have h2 : (Node.mk (some l) (c :: tail) ([] : List (Nat × Node T))).leafCount = 1 := by
              rw [leafCount_mk]
              rfl
            rw [leafCount_mk, leafCount_mk]
            omega
          obtain ⟨k1, k2, k3, k4, k5⟩ :=
            @delStep2 T acc b (Node.mk lf p es) (Node.mk lf p (delEdge es c)) (c :: tail)
              hff hswf1 rfl hcnt1
          exact ⟨k1, k2, hget0, k3, k4, k5⟩
        | cons e1 rest =>
          obtain ⟨hcl, hcsort, hchd0, hcch⟩ := hchSWf.parts
          cases rest with
          | nil =>
            obtain ⟨gl, gc⟩ := e1
            rw [delFix_one]
            have hghd : gc.pfx.head? = some gl := hchd0 (gl, gc) (List.mem_singleton.mpr rfl)
            have hmerge : (Node.mk (none : Option (LeafNode T)) (c :: tail)
                [(gl, gc)]).mergeChild = Node.mk gc.leaf ((c :: tail) ++ gc.pfx) gc.edges := rfl
            have hden : ∀ rem, ((Node.mk (none : Option (LeafNode T)) (c :: tail)
                [(gl, gc)]).mergeChild).findFrom rem =
                if rem = c :: tail then none
                else (Node.mk (some l) (c :: tail) [(gl, gc)]).findFrom rem := by
              intro rem
              rw [findFrom_merge rfl hghd rem, findFrom_clearLeaf l (c :: tail) [(gl, gc)] rem]
            have hsw : SWf (acc ++ p)
                ((Node.mk (none : Option (LeafNode T)) (c :: tail) [(gl, gc)]).mergeChild) :=
              SWf_mergeChild (SWf_clearLeaf hchSWf)
            have hhdC : ((Node.mk (none : Option (LeafNode T)) (c :: tail)
                [(gl, gc)]).mergeChild).pfx.head? = some c := by
              rw [hmerge]
              rfl
            have hcntC : ((Node.mk (none : Option (LeafNode T)) (c :: tail)
                [(gl, gc)]).mergeChild).leafCount + 1 =
                (Node.mk (some l) (c :: tail) [(gl, gc)]).leafCount := by
              rw [leafCount_mergeChild, leafCount_mk]
              simp [edgesLeafCount]
              omega
            have hget1 : ∀ rem, (Node.mk lf p (updateEdge es c
                ((Node.mk (none : Option (LeafNode T)) (c :: tail)
                  [(gl, gc)]).mergeChild))).get rem =
                if rem = c :: tail then none else (Node.mk lf p es).get rem :=
              fun rem => get_update_congr hg2 (rfl : (c :: tail).head? = some c) hden lf p rem
            have hff : ∀ z, (Node.mk lf p (updateEdge es c
                ((Node.mk (none : Option (LeafNode T)) (c :: tail)
                  [(gl, gc)]).mergeChild))).findFrom z =
                if z = (Node.mk lf p es).pfx ++ c :: tail then none
                else (Node.mk lf p es).findFrom z := by
              intro z
              refine findFrom_of_get_congr ?_ hget1 z
              rfl
            have hswf1 : SWf acc (Node.mk lf p (updateEdge es c
                ((Node.mk (none : Option (LeafNode T)) (c :: tail) [(gl, gc)]).mergeChild))) :=
              SWf_updateEdge hswf hg2 hsw hhdC
            have hcnt1 : (Node.mk lf p (updateEdge es c
                ((Node.mk (none : Option (LeafNode T)) (c :: tail)
                  [(gl, gc)]).mergeChild))).leafCount + 1 = (Node.mk lf p es).leafCount := by
              have h1 := edgesLeafCount_updateEdge hg2
                ((Node.mk (none : Option (LeafNode T)) (c :: tail) [(gl, gc)]).mergeChild)
              rw [leafCount_mk, leafCount_mk]
              omega
            obtain ⟨k1, k2, k3, k4, k5⟩ :=
              @delStep2 T acc b (Node.mk lf p es)
                (Node.mk lf p (updateEdge es c
                  ((Node.mk (none : Option (LeafNode T)) (c :: tail) [(gl, gc)]).mergeChild)))
                (c :: tail) hff hswf1 rfl hcnt1
            exact ⟨k1, k2, hget0, k3, k4, k5⟩
          | cons e2 r2 =>
            rw [delFix_many]
            have hden : ∀ rem, (Node.mk (none : Option (LeafNode T)) (c :: tail)
                (e1 :: e2 :: r2)).findFrom rem =
                if rem = c :: tail then none
                else (Node.mk (some l) (c :: tail) (e1 :: e2 :: r2)).findFrom rem :=
              fun rem => findFrom_clearLeaf l (c :: tail) (e1 :: e2 :: r2) rem
            have hsw : SWf (acc ++ p)
                (Node.mk (none : Option (LeafNode T)) (c :: tail) (e1 :: e2 :: r2)) :=
              SWf_clearLeaf hchSWf
            have hhdC : (Node.mk (none : Option (LeafNode T)) (c :: tail)
                (e1 :: e2 :: r2)).pfx.head? = some c := rfl
            have hcntC : (Node.mk (none : Option (LeafNode T)) (c :: tail)
                (e1 :: e2 :: r2)).leafCount + 1 =
                (Node.mk (some l) (c :: tail) (e1 :: e2 :: r2)).leafCount := by
              rw [leafCount_mk, leafCount_mk]
              simp
              omega
            have hget1 : ∀ rem, (Node.mk lf p (updateEdge es c
                (Node.mk (none : Option (LeafNode T)) (c :: tail) (e1 :: e2 :: r2)))).get rem =
                if rem = c :: tail then none else (Node.mk lf p es).get rem :=
              fun rem => get_update_congr hg2 (rfl : (c :: tail).head? = some c) hden lf p rem
            have hff : ∀ z, (Node.mk lf p (updateEdge es c
                (Node.mk (none : Option (LeafNode T)) (c :: tail)
                  (e1 :: e2 :: r2)))).findFrom z =
                if z = (Node.mk lf p es).pfx ++ c :: tail then none
                else (Node.mk lf p es).findFrom z := by
              intro z
              refine findFrom_of_get_congr ?_ hget1 z
              rfl
            have hswf1 : SWf acc (Node.mk lf p (updateEdge es c
                (Node.mk (none : Option (LeafNode T)) (c :: tail) (e1 :: e2 :: r2)))) :=
              SWf_updateEdge hswf hg2 hsw hhdC
            have hcnt1 : (Node.mk lf p (updateEdge es c
                (Node.mk (none : Option (LeafNode T)) (c :: tail)
                  (e1 :: e2 :: r2)))).leafCount + 1 = (Node.mk lf p es).leafCount := by
              have h1 := edgesLeafCount_updateEdge hg2
                (Node.mk (none : Option (LeafNode T)) (c :: tail) (e1 :: e2 :: r2))
              rw [leafCount_mk, leafCount_mk]
              omega
            obtain ⟨k1, k2, k3, k4, k5⟩ :=
              @delStep2 T acc b (Node.mk lf p es)
                (Node.mk lf p (updateEdge es c
                  (Node.mk (none : Option (LeafNode T)) (c :: tail) (e1 :: e2 :: r2))))
                (c :: tail) hff hswf1 rfl hcnt1
            exact ⟨k1, k2, hget0, k3, k4, k5⟩
  | case6 b n c tail child hg hpre hdrop r' hrec ih =>
    intro r acc hres hswf
    rw [deleteRec_step hg hpre hdrop b, hrec] at hres
    injection hres with hres1
    subst hres1
    cases n with
    | mk lf p es =>
      have hg2 : getEdge es c = some child := hg
      obtain ⟨hl, hsort, hhd0, hch⟩ := hswf.parts
      have hchSWf : SWf (acc ++ p) child := hch (c, child) (getEdge_mem hg2)
      have hchhd : child.pfx.head? = some c := hhd0 (c, child) (getEdge_mem hg2)
      have hchne : child.pfx ≠ [] := by
        intro hcon
        rw [hcon] at hchhd
        cases hchhd
      obtain ⟨ihff, ihswf, ihget, ihpfx0, ihhead, ihcnt⟩ := ih r' (acc ++ p) hrec hchSWf
      have hjoin : child.pfx ++ (c :: tail).drop child.pfx.length = c :: tail := by
        conv_rhs => rw [← List.take_append_drop child.pfx.length (c :: tail)]
        rw [← List.prefix_iff_eq_take.mp hpre]
      have ihff2 : ∀ rem, (r'.1).findFrom rem =
          if rem = c :: tail then none else child.findFrom rem := by
        intro rem
        rw [ihff rem, hjoin]
      have hhd2 : (r'.1).pfx.head? = some c := by
        rw [ihhead hchne, hchhd]
      have hget1 : ∀ rem, (Node.mk lf p (updateEdge es c r'.1)).get rem =
          if rem = c :: tail then none else (Node.mk lf p es).get rem :=
        fun rem => get_update_congr hg2 (rfl : (c :: tail).head? = some c) ihff2 lf p rem
      have hff : ∀ z, (Node.mk lf p (updateEdge es c r'.1)).findFrom z =
          if z = (Node.mk lf p es).pfx ++ c :: tail then none
          else (Node.mk lf p es).findFrom z := by
        intro z
        refine findFrom_of_get_congr ?_ hget1 z
        rfl
      have hswf1 : SWf acc (Node.mk lf p (updateEdge es c r'.1)) :=
        SWf_updateEdge hswf hg2 ihswf hhd2
      have hcnt1 : (Node.mk lf p (updateEdge es c r'.1)).leafCount + 1 =
          (Node.mk lf p es).leafCount := by
        have h1 := edgesLeafCount_updateEdge hg2 r'.1
        rw [leafCount_mk, leafCount_mk]
        omega
      have hget0 : (Node.mk lf p es).get (c :: tail) = some r'.2 := by
        rw [get_cons_some hg, if_pos hpre, ihget]
      exact ⟨hff, hswf1, hget0, fun _ => rfl, fun _ => rfl, hcnt1⟩


/-- When the delete descent fails, the key was absent. -/
theorem deleteRec_none_get {T : Type} :
    ∀ (b : Bool) (n : Node T) (s : Key),
    Node.deleteRec b n s = none → s ≠ [] → n.get s = none := by
  intro b n s
  induction b, n, s using Node.deleteRec.induct with
  | case1 b n =>
    intro _ hne
    exact absurd rfl hne
  | case2 b n c tail hg =>
    intro _ _
    exact get_cons_none hg
  | case3 b n c tail child hg hpre hdrop hnl =>
    intro _ _
    rw [get_cons_some hg, if_pos hpre, hdrop, get_nil, hnl]
    rfl
  | case4 b n c tail child hg hpre hdrop l hleaf =>
    intro hres _
    rw [deleteRec_final_leaf hg hpre hdrop hleaf b] at hres
    cases hres
  | case5 b n c tail child hg hpre hdrop hrecnone ih =>
    intro _ _
    rw [get_cons_some hg, if_pos hpre]
    exact ih hrecnone hdrop
  | case6 b n c tail child hg hpre hdrop r2 hrec ih =>
    intro hres _
    rw [deleteRec_step hg hpre hdrop b, hrec] at hres
    cases hres
  | case7 b n c tail child hg hnp =>
    intro _ _
    rw [get_cons_some hg, if_neg hnp]

/-- The final root-guarded merge keeps the compression invariant, as long as
the node is not left edge-less and leafless. -/
theorem delTopMergeComp {T : Type} {b : Bool} {n1 : Node T}
    (hch : ∀ e ∈ n1.edges, Comp false e.2)
    (hsh : b = false → n1.isLeaf = true ∨ 1 ≤ n1.edges.length) :
    Comp b (if b = false ∧ n1.edges.length = 1 ∧ n1.isLeaf = false then n1.mergeChild
      else n1) := by
  by_cases hm : b = false ∧ n1.edges.length = 1 ∧ n1.isLeaf = false
  · rw [if_pos hm]
    obtain ⟨hb, hlen, hlf⟩ := hm
    cases n1 with
    | mk lf p es =>
      simp only [edges_mk] at hlen hch
      obtain ⟨⟨gl, gc⟩, hes⟩ : ∃ e, es = [e] := by
        cases es with
        | nil => simp at hlen
        | cons f rest =>
          cases rest with
          | nil => exact ⟨f, rfl⟩
          | cons g r2 => simp at hlen
      subst hes
      have hgc : Comp false gc := hch (gl, gc) (List.mem_singleton.mpr rfl)
      have hmer : (Node.mk lf p [(gl, gc)]).mergeChild =
          Node.mk gc.leaf (p ++ gc.pfx) gc.edges := rfl
      rw [hmer]
      cases gc with
      | mk glf gp ges =>
        obtain ⟨hgcond, hgch⟩ := hgc.shape
        simp only [leaf_mk, pfx_mk, edges_mk]
        exact Comp.mk b glf (p ++ gp) ges (fun _ => hgcond rfl) hgch
  · rw [if_neg hm]
    cases n1 with
    | mk lf p es =>
      simp only [edges_mk] at hch
      refine Comp.mk b lf p es ?_ hch
      intro hb
      subst hb
      simp only [Node.isLeaf, leaf_mk, edges_mk] at hsh hm
      rcases hsh trivial with h1 | h1
      · exact Or.inl h1
      · by_cases hL : lf.isSome = true
        · exact Or.inl hL
        · right
          have hlf0 : lf.isSome = false := by
            cases h2 : lf.isSome
            · rfl
            · exact absurd h2 hL
          have hne1 : es.length ≠ 1 := by
            intro hcon
            exact hm ⟨trivial, hcon, hlf0⟩
          omega

/-- The delete descent keeps the compression invariant. -/
theorem deleteRec_Comp {T : Type} :
    ∀ (b : Bool) (n : Node T) (s : Key), ∀ (r : Node T × T),
    Node.deleteRec b n s = some r → Comp b n → Comp b r.1 := by
  intro b n s
  induction b, n, s using Node.deleteRec.induct with
  | case1 b n =>
    intro r hres _
    rw [deleteRec_nil] at hres
    cases hres
  | case2 b n c tail hg =>
    intro r hres _
    rw [deleteRec_cons_none hg b] at hres
    cases hres
  | case3 b n c tail child hg hpre hdrop hnl =>
    intro r hres _
    rw [deleteRec_final_noleaf hg hpre hdrop hnl b] at hres
    cases hres
  | case7 b n c tail child hg hnp =>
    intro r hres _
    rw [deleteRec_cons_nopre hg hnp b] at hres
    cases hres
  | case5 b n c tail child hg hpre hdrop hrecnone ih =>
    intro r hres _
    rw [deleteRec_step hg hpre hdrop b, hrecnone] at hres
    cases hres
  | case4 b n c tail child hg hpre hdrop l hleaf =>
    intro r hres hcomp
    rw [deleteRec_final_leaf hg hpre hdrop hleaf b] at hres
    injection hres with hres1
    subst hres1
    cases n with
    | mk lf p es =>
      have hg2 : getEdge es c = some child := hg
      obtain ⟨hcond, hch⟩ := hcomp.shape
      have hchComp : Comp false child := hch (c, child) (getEdge_mem hg2)
      have heslen : 1 ≤ es.length := by
        have hm := getEdge_mem hg2
        cases es with
        | nil => cases hm
        | cons f r0 => simp
      cases child with
      | mk clf cpx ces =>
        simp only [leaf_mk] at hleaf
        subst hleaf
        obtain ⟨hccond, hcch⟩ := hchComp.shape
        cases ces with
        | nil =>
          rw [delFix_nil]
          refine delTopMergeComp ?_ ?_
          · intro e he
            simp only [edges_mk] at he
            exact hch e (mem_delEdge he)
          · intro hb
            rcases hcond hb with h1 | h1
            · exact Or.inl (by simpa [Node.isLeaf, leaf_mk] using h1)
            · right
              simp only [edges_mk]
              have hd := len_delEdge hg2
              omega
        | cons e1 rest =>
          cases rest with
          | nil =>
            obtain ⟨gl, gc⟩ := e1
            rw [delFix_one]
            have hgcComp : Comp false gc := hcch (gl, gc) (List.mem_singleton.mpr rfl)
            have hC2 : Comp false
                ((Node.mk (none : Option (LeafNode T)) cpx [(gl, gc)]).mergeChild) := by
              have hmer : (Node.mk (none : Option (LeafNode T)) cpx [(gl, gc)]).mergeChild =
                  Node.mk gc.leaf (cpx ++ gc.pfx) gc.edges := rfl
              rw [hmer]
              cases gc with
              | mk glf gp ges =>
                obtain ⟨hgcond, hgch⟩ := hgcComp.shape
                simp only [leaf_mk, pfx_mk, edges_mk]
                exact Comp.mk false glf (cpx ++ gp) ges hgcond hgch
            refine delTopMergeComp ?_ ?_
            · intro e he
              simp only [edges_mk] at he
              rcases mem_updateEdge he with h1 | h1
              · exact hch e h1
              · rw [h1]
                exact hC2
            · intro _
              right
              simp only [edges_mk, len_updateEdge]
              omega
          | cons e2 r2 =>
            rw [delFix_many]
            have hC2 : Comp false
                (Node.mk (none : Option (LeafNode T)) cpx (e1 :: e2 :: r2)) := by
              refine Comp.mk false none cpx (e1 :: e2 :: r2) ?_ hcch
              intro _
              right
              simp only [List.length_cons]
              omega
            refine delTopMergeComp ?_ ?_
            · intro e he
              simp only [edges_mk] at he
              rcases mem_updateEdge he with h1 | h1
              · exact hch e h1
              · rw [h1]
                exact hC2
            · intro _
              right
              simp only [edges_mk, len_updateEdge]
              omega
  | case6 b n c tail child hg hpre hdrop r2 hrec ih =>
    intro r hres hcomp
    rw [deleteRec_step hg hpre hdrop b, hrec] at hres
    injection hres with hres1
    subst hres1
    cases n with
    | mk lf p es =>
      have hg2 : getEdge es c = some child := hg
      obtain ⟨hcond, hch⟩ := hcomp.shape
      have hchComp : Comp false child := hch (c, child) (getEdge_mem hg2)
      have hr2 : Comp false r2.1 := ih r2 hrec hchComp
      refine Comp.mk b lf p (updateEdge es c r2.1) ?_ ?_
      · intro hb
        rcases hcond hb with h1 | h1
        · exact Or.inl h1
        · right
          rw [len_updateEdge]
          omega
      · intro e he
        rcases mem_updateEdge he with h1 | h1
        · exact hch e h1
        · rw [h1]
          exact hr2


/-! ### Tree-level facts about Delete -/

theorem Delete_nil_none {T : Type} {t : Tree T} (h : t.root.leaf = none) :
    t.Delete [] = (t, none) := by
  unfold Tree.Delete
  rw [h]

theorem Delete_nil_some {T : Type} {t : Tree T} {l : LeafNode T} (h : t.root.leaf = some l) :
    t.Delete [] = (⟨Node.mk none t.root.pfx t.root.edges, t.size - 1⟩, some l.val) := by
  unfold Tree.Delete
  rw [h]

theorem Delete_cons_none {T : Type} {t : Tree T} {c : Nat} {tail : Key}
    (h : Node.deleteRec true t.root (c :: tail) = none) :
    t.Delete (c :: tail) = (t, none) := by
  unfold Tree.Delete
  rw [h]

theorem Delete_cons_some {T : Type} {t : Tree T} {c : Nat} {tail : Key} {r : Node T × T}
    (h : Node.deleteRec true t.root (c :: tail) = some r) :
    t.Delete (c :: tail) = (⟨r.1, t.size - 1⟩, some r.2) := by
  unfold Tree.Delete
  rw [h]

theorem findFrom_nil_pfx {T : Type} {n : Node T} (h : n.pfx = []) (z : Key) :
    n.findFrom z = n.get z := by
  unfold Node.findFrom
  rw [h, if_pos List.nil_prefix]
  simp

/-- Delete keeps full well-formedness of the tree. -/
theorem Wf_Delete {T : Type} {t : Tree T} (hwf : t.Wf) (s : Key) : ((t.Delete s).1).Wf := by
  obtain ⟨hswf, hcomp, hpfx, hsize⟩ := hwf
  cases s with
  | nil =>
    cases hlf : t.root.leaf with
    | none =>
      rw [Delete_nil_none hlf]
      exact ⟨hswf, hcomp, hpfx, hsize⟩
    | some l =>
      rw [Delete_nil_some hlf]
      cases hroot : t.root with
      | mk lf p es =>
        rw [hroot] at hswf hcomp hpfx hsize hlf
        simp only [leaf_mk, pfx_mk, edges_mk] at hlf hpfx hsize ⊢
        subst hlf
        refine ⟨SWf_clearLeaf hswf, ?_, hpfx, ?_⟩
        · obtain ⟨hcond, hch⟩ := hcomp.shape
          exact Comp.mk true none p es (fun hcon => by cases hcon) hch
        · rw [leafCount_mk] at hsize ⊢
          simp at hsize ⊢
          omega
  | cons c tail =>
    cases hdel : Node.deleteRec true t.root (c :: tail) with
    | none =>
      rw [Delete_cons_none hdel]
      exact ⟨hswf, hcomp, hpfx, hsize⟩
    | some r =>
      rw [Delete_cons_some hdel]
      obtain ⟨hff, hswf2, hget, hpfx2, hhd2, hcnt⟩ := deleteRec_spec true t.root (c :: tail)
        r [] hdel hswf
      refine ⟨hswf2, deleteRec_Comp true t.root (c :: tail) r hdel hcomp, ?_, ?_⟩
      · rw [hpfx2 rfl]
        exact hpfx
      · simp only
        omega

/-- Delete returns exactly what Get returned before. -/
theorem Delete_snd {T : Type} (t : Tree T) (hwf : t.Wf) (s : Key) :
    (t.Delete s).2 = t.Get s := by
  cases s with
  | nil =>
    cases hlf : t.root.leaf with
    | none =>
      rw [Delete_nil_none hlf]
      show (none : Option T) = t.Get []
      unfold Tree.Get
      rw [get_nil, hlf]
      rfl
    | some l =>
      rw [Delete_nil_some hlf]
      show some l.val = t.Get []
      unfold Tree.Get
      rw [get_nil, hlf]
      rfl
  | cons c tail =>
    cases hdel : Node.deleteRec true t.root (c :: tail) with
    | none =>
      rw [Delete_cons_none hdel]
      show (none : Option T) = t.Get (c :: tail)
      unfold Tree.Get
      exact (deleteRec_none_get true t.root (c :: tail) hdel (by simp)).symm
    | some r =>
      rw [Delete_cons_some hdel]
      obtain ⟨hff, hswf2, hget, hpfx2, hhd2, hcnt⟩ := deleteRec_spec true t.root (c :: tail)
        r [] hdel hwf.1
      show some r.2 = t.Get (c :: tail)
      unfold Tree.Get
      exact hget.symm

/-- After deleting a key, Get on it fails (also vacuously when it was absent). -/
theorem Get_Delete_self {T : Type} (t : Tree T) (hwf : t.Wf) (s : Key) :
    (t.Delete s).1.Get s = none := by
  cases s with
  | nil =>
    cases hlf : t.root.leaf with
    | none =>
      rw [Delete_nil_none hlf]
      show t.Get []  = none
      unfold Tree.Get
      rw [get_nil, hlf]
      rfl
    | some l =>
      rw [Delete_nil_some hlf]
      show (Node.mk none t.root.pfx t.root.edges).get [] = none
      rw [get_nil]
      rfl
  | cons c tail =>
    cases hdel : Node.deleteRec true t.root (c :: tail) with
    | none =>
      rw [Delete_cons_none hdel]
      show t.root.get (c :: tail) = none
      exact deleteRec_none_get true t.root (c :: tail) hdel (by simp)
    | some r =>
      rw [Delete_cons_some hdel]
      obtain ⟨hff, hswf2, hget, hpfx2, hhd2, hcnt⟩ := deleteRec_spec true t.root (c :: tail)
        r [] hdel hwf.1
      show r.1.get (c :: tail) = none
      have hp1 : r.1.pfx = [] := by
        rw [hpfx2 rfl]
        exact hwf.2.2.1
      rw [← findFrom_nil_pfx hp1, hff (c :: tail)]
      rw [if_pos ?_]
      rw [hwf.2.2.1]
      rfl

/-- Delete of an absent key returns the tree itself, unmodified. -/
theorem Delete_absent {T : Type} (t : Tree T) (hwf : t.Wf) (s : Key) (h : t.Get s = none) :
    t.Delete s = (t, none) := by
  cases s with
  | nil =>
    have hlf : t.root.leaf = none := by
      unfold Tree.Get at h
      rw [get_nil] at h
      cases hl : t.root.leaf with
      | none => rfl
      | some l =>
        rw [hl] at h
        cases h
    exact Delete_nil_none hlf
  | cons c tail =>
    cases hdel : Node.deleteRec true t.root (c :: tail) with
    | none => exact Delete_cons_none hdel
    | some r =>
      obtain ⟨hff, hswf2, hget, hpfx2, hhd2, hcnt⟩ := deleteRec_spec true t.root (c :: tail)
        r [] hdel hwf.1
      unfold Tree.Get at h
      rw [h] at hget
      cases hget


/-- C8: Delete of a present key returns the stored value (deleted = true) and
afterwards Get on that key fails; Delete of an absent key returns no value
(deleted = false) and leaves the tree — hence also Len — entirely unchanged. -/
theorem C8_delete_semantics {T : Type} (t : Tree T) (hwf : t.Wf) (s : Key) :
    (t.Delete s).2 = t.Get s ∧
    (t.Delete s).1.Get s = none ∧
    (t.Get s = none → t.Delete s = (t, none)) :=
  ⟨Delete_snd t hwf s, Get_Delete_self t hwf s, fun h => Delete_absent t hwf s h⟩

theorem C8_delete_semantics_witness :
    ((Tree.New.Insert [1] 5).1.Delete [1]).2 = some 5 ∧
    (((Tree.New.Insert [1] 5).1.Delete [1]).1.Get [1] = none) ∧
    (((Tree.New.Insert [1] 5).1.Delete [2]) = ((Tree.New.Insert [1] 5).1, none)) := by
  have hwf : ((Tree.New : Tree Nat).Insert [1] 5).1.Wf := Wf_Insert Wf_New [1] 5
  obtain ⟨h1, h2, h3⟩ := C8_delete_semantics ((Tree.New : Tree Nat).Insert [1] 5).1 hwf [1]
  obtain ⟨h4, h5, h6⟩ := C8_delete_semantics ((Tree.New : Tree Nat).Insert [1] 5).1 hwf [2]
  refine ⟨h1.trans (Get_Insert_self Tree.New [1] 5), h2, h6 ?_⟩
  rw [Get_Insert_other Tree.New [1] [2] 5 (by decide)]
  exact get_New [2]

/-! ### Sequences of Insert and Delete operations -/

/-- A public mutating operation of the key-removal-safe subset. -/
inductive Op (T : Type) where
  | ins (k : Key) (v : T) : Op T
  | del (k : Key) : Op T

/-- Apply one operation to a tree. -/
def applyOp {T : Type} (t : Tree T) : Op T → Tree T
  | Op.ins k v => (t.Insert k v).1
  | Op.del k => (t.Delete k).1

/-- Run a sequence of operations from a starting tree. -/
def runOps {T : Type} : Tree T → List (Op T) → Tree T
  | t, [] => t
  | t, o :: os => runOps (applyOp t o) os

theorem Wf_runOps {T : Type} (ops : List (Op T)) :
    ∀ t : Tree T, t.Wf → (runOps t ops).Wf := by
  induction ops with
  | nil => exact fun t h => h
  | cons o os ih =>
    intro t h
    refine ih _ ?_
    cases o with
    | ins k v => exact Wf_Insert h k v
    | del k => exact Wf_Delete h k

/-- C2 (corrected): the path-compression invariant — every non-root node
carries a leaf or has at least two children — holds after every sequence of
Insert and Delete operations (together with the other structural invariants).
It does NOT survive DeletePrefix; see the counterexample. -/
theorem C2_compression {T : Type} (ops : List (Op T)) :
    Comp true (runOps Tree.New ops).root ∧ SWf [] (runOps Tree.New ops).root ∧
      (runOps Tree.New ops).Wf := by
  have h := Wf_runOps ops Tree.New Wf_New
  exact ⟨h.2.1, h.1, h⟩

/-- C2 counterexample: after Insert [1,2], Insert [1,3], DeletePrefix [1,2],
the tree contains a non-root node with no leaf and no children — the Go
`deletePrefix` empties a child node in place but never removes its edge from
the parent, breaking the compression invariant claimed for every public
operation. -/
theorem C2_compression_counterexample :
    ¬ Comp true (((((Tree.New : Tree Nat).Insert [1, 2] 10).1.Insert [1, 3] 20).1.DeletePrefix
      [1, 2]).1.root) := by
  intro h
  have h1 : ((Tree.New : Tree Nat).Insert [1, 2] 10).1 =
      ⟨Node.mk none [] [(1, Node.mk (some ⟨[1, 2], 10⟩) [1, 2] [])], 1⟩ := by
    simp [Tree.New, Tree.Insert, Node.insertRec, getEdge, addEdge, leaf_mk, pfx_mk, edges_mk]
  have h2 : (((Tree.New : Tree Nat).Insert [1, 2] 10).1.Insert [1, 3] 20).1 =
      ⟨Node.mk none [] [(1, Node.mk none [1] [(2, Node.mk (some ⟨[1, 2], 10⟩) [2] []),
        (3, Node.mk (some ⟨[1, 3], 20⟩) [3] [])])], 2⟩ := by
    rw [h1]
    simp [Tree.Insert, Node.insertRec, getEdge, addEdge, updateEdge, longestPrefix,
      edges_mk, pfx_mk, leaf_mk]
  have hroot : (((((Tree.New : Tree Nat).Insert [1, 2] 10).1.Insert [1, 3] 20).1.DeletePrefix
      [1, 2]).1.root) = Node.mk none []
      [(1, Node.mk none [1] [(2, Node.mk (none : Option (LeafNode Nat)) [2] []),
        (3, Node.mk (some ⟨[1, 3], 20⟩) [3] [])])] := by
    rw [h2]
    simp [Tree.DeletePrefix, Node.deletePrefixRec, getEdge, updateEdge, Node.leafCount,
      edgesLeafCount, edges_mk, pfx_mk, leaf_mk, Node.isLeaf]
  rw [hroot] at h
  have h1 := h.shape.2 (1, Node.mk none [1] [(2, Node.mk (none : Option (LeafNode Nat)) [2] []),
      (3, Node.mk (some ⟨[1, 3], 20⟩) [3] [])]) (by simp)
  have h2 := h1.shape.2 (2, Node.mk (none : Option (LeafNode Nat)) [2] []) (by simp)
  have h3 := h2.shape.1 rfl
  rcases h3 with h4 | h4
  · simp at h4
  · simp at h4

/-- C3 counterexample: on the same tree the Minimum loop walks into the
dangling empty node and reports found = false although the tree still stores
the key [1,3] (and Len = 1). -/
theorem C3_minimum_counterexample :
    (((((Tree.New : Tree Nat).Insert [1, 2] 10).1.Insert [1, 3] 20).1.DeletePrefix
      [1, 2]).1.Minimum = none) ∧
    (((((Tree.New : Tree Nat).Insert [1, 2] 10).1.Insert [1, 3] 20).1.DeletePrefix
      [1, 2]).1.Get [1, 3] = some 20) ∧
    (((((Tree.New : Tree Nat).Insert [1, 2] 10).1.Insert [1, 3] 20).1.DeletePrefix
      [1, 2]).1.Len = 1) := by
  have h1 : ((Tree.New : Tree Nat).Insert [1, 2] 10).1 =
      ⟨Node.mk none [] [(1, Node.mk (some ⟨[1, 2], 10⟩) [1, 2] [])], 1⟩ := by
    simp [Tree.New, Tree.Insert, Node.insertRec, getEdge, addEdge, leaf_mk, pfx_mk, edges_mk]
  have h2 : (((Tree.New : Tree Nat).Insert [1, 2] 10).1.Insert [1, 3] 20).1 =
      ⟨Node.mk none [] [(1, Node.mk none [1] [(2, Node.mk (some ⟨[1, 2], 10⟩) [2] []),
        (3, Node.mk (some ⟨[1, 3], 20⟩) [3] [])])], 2⟩ := by
    rw [h1]
    simp [Tree.Insert, Node.insertRec, getEdge, addEdge, updateEdge, longestPrefix,
      edges_mk, pfx_mk, leaf_mk]
  have h3 : ((((Tree.New : Tree Nat).Insert [1, 2] 10).1.Insert [1, 3] 20).1.DeletePrefix
      [1, 2]).1 = ⟨Node.mk none []
      [(1, Node.mk none [1] [(2, Node.mk (none : Option (LeafNode Nat)) [2] []),
        (3, Node.mk (some ⟨[1, 3], 20⟩) [3] [])])], 1⟩ := by
    rw [h2]
    simp [Tree.DeletePrefix, Node.deletePrefixRec, getEdge, updateEdge, Node.leafCount,
      edgesLeafCount, edges_mk, pfx_mk, leaf_mk, Node.isLeaf]
  rw [h3]
  refine ⟨?_, ?_, rfl⟩
  · show Node.minimumRec _ = none
    simp [Node.minimumRec]
  · show Node.get _ [1, 3] = some 20
    simp [Node.get, getEdge, edges_mk, pfx_mk, leaf_mk]


/-! ### The walk sequence: structure, membership, order -/

theorem ts_mk {T : Type} (lf : Option (LeafNode T)) (p : Key) (es : List (Nat × Node T)) :
    (Node.mk lf p es).ts = 1 + edgesTs es := rfl

theorem ts_pos {T : Type} (n : Node T) : 1 ≤ n.ts := by
  cases n with
  | mk lf p es =>
    rw [ts_mk]
    omega

theorem ts_lt_of_mem {T : Type} {es : List (Nat × Node T)} {e : Nat × Node T}
    (he : e ∈ es) (lf : Option (LeafNode T)) (p : Key) : e.2.ts < (Node.mk lf p es).ts := by
  have h1 := ts_mem_le he
  have h2 := ts_mk lf p es
  omega

/-- Strong induction on the size of a node. -/
theorem node_strong_ind {T : Type} (P : Node T → Prop)
    (h : ∀ n : Node T, (∀ m : Node T, m.ts < n.ts → P m) → P n) : ∀ n, P n := by
  have key : ∀ (N : Nat) (m : Node T), m.ts ≤ N → P m := by
    intro N
    induction N with
    | zero =>
      intro m hm
      have h1 := ts_pos m
      exact absurd hm (by omega)
    | succ k ih =>
      intro m hm
      exact h m (fun m2 hm2 => ih m2 (by omega))
  exact fun n => key n.ts n le_rfl

theorem toList_some {T : Type} (l : LeafNode T) (p : Key) (es : List (Nat × Node T)) :
    (Node.mk (some l) p es).toList = (l.key, l.val) :: edgesToList es := rfl

theorem toList_none {T : Type} (p : Key) (es : List (Nat × Node T)) :
    (Node.mk (none : Option (LeafNode T)) p es).toList = edgesToList es := rfl

theorem edgesToList_cons {T : Type} (f : Nat × Node T) (rest : List (Nat × Node T)) :
    edgesToList (f :: rest) = f.2.toList ++ edgesToList rest := rfl

theorem leafCount_some {T : Type} (l : LeafNode T) (p : Key) (es : List (Nat × Node T)) :
    (Node.mk (some l) p es).leafCount = 1 + edgesLeafCount es := rfl

theorem leafCount_none {T : Type} (p : Key) (es : List (Nat × Node T)) :
    (Node.mk (none : Option (LeafNode T)) p es).leafCount = 0 + edgesLeafCount es := rfl

theorem mem_edgesToList {T : Type} {es : List (Nat × Node T)} {kv : Key × T} :
    kv ∈ edgesToList es ↔ ∃ e ∈ es, kv ∈ e.2.toList := by
  induction es with
  | nil => simp [edgesToList]
  | cons f rest ih =>
    rw [edgesToList_cons]
    simp only [List.mem_append, ih, List.mem_cons]
    constructor
    · rintro (h | ⟨e, he, hm⟩)
      · exact ⟨f, Or.inl rfl, h⟩
      · exact ⟨e, Or.inr he, hm⟩
    · rintro ⟨e, (rfl | he), hm⟩
      · exact Or.inl hm
      · exact Or.inr ⟨e, he, hm⟩

theorem edgesToList_length_aux {T : Type} :
    ∀ es : List (Nat × Node T), (∀ e ∈ es, e.2.toList.length = e.2.leafCount) →
      (edgesToList es).length = edgesLeafCount es := by
  intro es
  induction es with
  | nil => intro _; rfl
  | cons f rest ih =>
    intro hall
    rw [edgesToList_cons]
    simp only [edgesLeafCount, List.length_append]
    rw [hall f (List.mem_cons_self f rest), ih (fun e he => hall e (List.mem_cons_of_mem f he))]

/-- The walk visits exactly as many pairs as the leaf count. -/
theorem toList_length {T : Type} : ∀ n : Node T, n.toList.length = n.leafCount := by
  refine node_strong_ind _ ?_
  intro n ih
  cases n with
  | mk lf p es =>
    have hall : ∀ e ∈ es, e.2.toList.length = e.2.leafCount :=
      fun e he => ih e.2 (ts_lt_of_mem he lf p)
    cases lf with
    | none =>
      rw [toList_none, leafCount_none, edgesToList_length_aux es hall]
      omega
    | some l =>
      rw [toList_some, leafCount_some]
      simp only [List.length_cons]
      rw [edgesToList_length_aux es hall]
      omega

/-- A compressed non-root node holds at least one pair. -/
theorem toList_ne_nil {T : Type} : ∀ n : Node T, Comp false n → n.toList ≠ [] := by
  refine node_strong_ind _ ?_
  intro n ih hcomp
  cases n with
  | mk lf p es =>
    obtain ⟨hcond, hch⟩ := hcomp.shape
    cases lf with
    | some l =>
      rw [toList_some]
      simp
    | none =>
      rcases hcond rfl with h1 | h1
      · simp at h1
      · cases es with
        | nil => simp at h1
        | cons f rest =>
          rw [toList_none, edgesToList_cons]
          have hne := ih f.2 (ts_lt_of_mem (List.mem_cons_self f rest) none p)
            (hch f (List.mem_cons_self f rest))
          intro hcon
          exact hne (List.append_eq_nil.mp hcon).1

/-- Every key stored in a subtree extends the access path of that subtree. -/
theorem toList_key_prefix {T : Type} :
    ∀ n : Node T, ∀ acc : Key, SWf acc n → ∀ kv ∈ n.toList, acc ++ n.pfx <+: kv.1 := by
  refine node_strong_ind _ ?_
  intro n ih acc hswf kv hkv
  cases n with
  | mk lf p es =>
    obtain ⟨hl, hsort, hhd, hch⟩ := hswf.parts
    simp only [pfx_mk]
    have hchild : ∀ e ∈ es, kv ∈ e.2.toList → acc ++ p <+: kv.1 := by
      intro e he hm
      have hsub := ih e.2 (ts_lt_of_mem he lf p) (acc ++ p) (hch e he) kv hm
      exact (List.prefix_append (acc ++ p) e.2.pfx).trans hsub
    cases lf with
    | some l =>
      rw [toList_some] at hkv
      rcases List.mem_cons.mp hkv with h1 | h1
      · have hk : kv.1 = acc ++ p := by
          rw [h1]
          exact hl l rfl
        rw [hk]
      · obtain ⟨e, he, hm⟩ := mem_edgesToList.mp h1
        exact hchild e he hm
    | none =>
      rw [toList_none] at hkv
      obtain ⟨e, he, hm⟩ := mem_edgesToList.mp hkv
      exact hchild e he hm

theorem lex_append_lt : ∀ (P : Key) (a b : Nat) (x y : Key), a < b →
    List.Lex (· < ·) (P ++ a :: x) (P ++ b :: y) := by
  intro P
  induction P with
  | nil =>
    intro a b x y h
    exact List.Lex.rel h
  | cons p ps ih =>
    intro a b x y h
    exact List.Lex.cons (ih a b x y h)

theorem lex_proper_prefix : ∀ (P : Key) (c : Nat) (x : Key),
    List.Lex (· < ·) P (P ++ c :: x) := by
  intro P
  induction P with
  | nil =>
    intro c x
    exact List.Lex.nil
  | cons p ps ih =>
    intro c x
    exact List.Lex.cons (ih c x)

theorem lex_irrefl : ∀ x : Key, ¬ List.Lex (· < ·) x x := by
  intro x
  induction x with
  | nil =>
    intro h
    cases h
  | cons a l ih =>
    intro h
    cases h with
    | cons h1 => exact ih h1
    | rel h1 => exact absurd h1 (lt_irrefl a)

/-- The walk sequence is strictly ascending in lexicographic key order. -/
theorem toList_sorted {T : Type} :
    ∀ n : Node T, ∀ acc : Key, SWf acc n →
      List.Pairwise (fun a b : Key × T => List.Lex (· < ·) a.1 b.1) n.toList := by
  refine node_strong_ind _ ?_
  intro n ih acc hswf
  cases n with
  | mk lf p es =>
    obtain ⟨hl, hsort, hhd, hch⟩ := hswf.parts
    have hkey : ∀ e ∈ es, ∀ kv ∈ e.2.toList, ∃ x, kv.1 = (acc ++ p) ++ e.1 :: x := by
      intro e he kv hm
      have hpre := toList_key_prefix e.2 (acc ++ p) (hch e he) kv hm
      obtain ⟨c0, crest, hc0⟩ : ∃ c0 crest, e.2.pfx = c0 :: crest := by
        cases hx : e.2.pfx with
        | nil =>
          have hh := hhd e he
          rw [hx] at hh
          cases hh
        | cons a0 b0 => exact ⟨a0, b0, rfl⟩
      have hc0e : c0 = e.1 := by
        have hh := hhd e he
        rw [hc0] at hh
        injection hh with hh2
      rw [hc0, hc0e] at hpre
      obtain ⟨k2, hk2⟩ := hpre
      refine ⟨crest ++ k2, ?_⟩
      rw [← hk2]
      simp [List.append_assoc]
    have hedge : ∀ es2 : List (Nat × Node T), (∀ e ∈ es2, e ∈ es) → sortedEdges es2 →
        List.Pairwise (fun a b : Key × T => List.Lex (· < ·) a.1 b.1) (edgesToList es2) := by
      intro es2
      induction es2 with
      | nil =>
        intro _ _
        simp [edgesToList]
      | cons f rest ih2 =>
        intro hsub hsort2
        rw [edgesToList_cons, List.pairwise_append]
        refine ⟨?_, ?_, ?_⟩
        · exact ih f.2 (ts_lt_of_mem (hsub f (List.mem_cons_self f rest)) lf p) (acc ++ p)
            (hch f (hsub f (List.mem_cons_self f rest)))
        · refine ih2 (fun e he => hsub e (List.mem_cons_of_mem f he)) ?_
          unfold sortedEdges at hsort2 ⊢
          simp only [List.map_cons] at hsort2
          exact (List.pairwise_cons.mp hsort2).2
        · intro a ha b hb
          obtain ⟨g, hg, hbm⟩ := mem_edgesToList.mp hb
          obtain ⟨xa, hxa⟩ := hkey f (hsub f (List.mem_cons_self f rest)) a ha
          obtain ⟨xb, hxb⟩ := hkey g (hsub g (List.mem_cons_of_mem f hg)) b hbm
          have hlt : f.1 < g.1 := by
            unfold sortedEdges at hsort2
            simp only [List.map_cons] at hsort2
            exact (List.pairwise_cons.mp hsort2).1 g.1 (List.mem_map_of_mem Prod.fst hg)
          rw [hxa, hxb]
          exact lex_append_lt (acc ++ p) f.1 g.1 xa xb hlt
    cases lf with
    | none =>
      rw [toList_none]
      exact hedge es (fun e he => he) hsort
    | some l =>
      rw [toList_some]
      refine List.pairwise_cons.mpr ⟨?_, hedge es (fun e he => he) hsort⟩
      intro b hb
      obtain ⟨g, hg, hbm⟩ := mem_edgesToList.mp hb
      obtain ⟨xb, hxb⟩ := hkey g hg b hbm
      show List.Lex (· < ·) (l.key, l.val).1 b.1
      rw [hxb]
      have hlk : (l.key, l.val).1 = acc ++ p := hl l rfl
      rw [hlk]
      exact lex_proper_prefix (acc ++ p) g.1 xb

/-- Stored keys are pairwise distinct. -/
theorem toList_keys_nodup {T : Type} (n : Node T) (acc : Key) (hswf : SWf acc n) :
    (n.toList.map Prod.fst).Nodup := by
  have h := toList_sorted n acc hswf
  refine List.Pairwise.map Prod.fst ?_ h
  intro a b hab heq
  rw [heq] at hab
  exact lex_irrefl b.1 hab


theorem mem_toList_of_child {T : Type} {es : List (Nat × Node T)} {e : Nat × Node T}
    (he : e ∈ es) {kv : Key × T} (hm : kv ∈ e.2.toList) (lf : Option (LeafNode T)) (p : Key) :
    kv ∈ (Node.mk lf p es).toList := by
  cases lf with
  | some l =>
    rw [toList_some]
    exact List.mem_cons_of_mem _ (mem_edgesToList.mpr ⟨e, he, hm⟩)
  | none =>
    rw [toList_none]
    exact mem_edgesToList.mpr ⟨e, he, hm⟩

/-- Every key Get finds is visited by the walk, at its full key. -/
theorem get_toList_mem {T : Type} :
    ∀ (n : Node T) (s : Key), ∀ (acc : Key) (v : T), SWf acc n → n.get s = some v →
      (acc ++ n.pfx ++ s, v) ∈ n.toList := by
  intro n s
  induction n, s using Node.get.induct with
  | case1 n lf hleaf =>
    intro acc v hswf hget
    rw [get_nil, hleaf] at hget
    injection hget with hv
    cases n with
    | mk lf0 p es =>
      simp only [leaf_mk] at hleaf
      subst hleaf
      rw [toList_some]
      refine List.mem_cons.mpr (Or.inl ?_)
      obtain ⟨hl, hsort, hhd, hch⟩ := hswf.parts
      have hk : lf.key = acc ++ p := hl lf rfl
      simp only [pfx_mk, List.append_nil]
      have hv2 : lf.val = v := hv
      rw [hk, hv2]
  | case2 n hleaf =>
    intro acc v hswf hget
    rw [get_nil, hleaf] at hget
    cases hget
  | case3 n c tail hg =>
    intro acc v hswf hget
    rw [get_cons_none hg] at hget
    cases hget
  | case5 n c tail child hg hnp =>
    intro acc v hswf hget
    rw [get_cons_some hg, if_neg hnp] at hget
    cases hget
  | case4 n c tail child hg hpre ih =>
    intro acc v hswf hget
    rw [get_cons_some hg, if_pos hpre] at hget
    cases n with
    | mk lf p es =>
      have hg2 : getEdge es c = some child := hg
      obtain ⟨hl, hsort, hhd, hch⟩ := hswf.parts
      have hmem := ih (acc ++ p) v (hch (c, child) (getEdge_mem hg2)) hget
      have hjoin : child.pfx ++ (c :: tail).drop child.pfx.length = c :: tail := by
        conv_rhs => rw [← List.take_append_drop child.pfx.length (c :: tail)]
        rw [← List.prefix_iff_eq_take.mp hpre]
      have hkeq : acc ++ p ++ child.pfx ++ (c :: tail).drop child.pfx.length =
          acc ++ p ++ c :: tail := by
        rw [List.append_assoc (acc ++ p) child.pfx, hjoin]
      rw [hkeq] at hmem
      simp only [pfx_mk]
      exact mem_toList_of_child (getEdge_mem hg2) hmem lf p

/-- Every pair the walk visits is found by Get under its stored key. -/
theorem mem_toList_get {T : Type} :
    ∀ n : Node T, ∀ (acc : Key) (kv : Key × T), SWf acc n → kv ∈ n.toList →
      ∃ s, kv.1 = acc ++ n.pfx ++ s ∧ n.get s = some kv.2 := by
  refine node_strong_ind _ ?_
  intro n ih acc kv hswf hkv
  cases n with
  | mk lf p es =>
    obtain ⟨hl, hsort, hhd, hch⟩ := hswf.parts
    have hchild : ∀ e ∈ es, kv ∈ e.2.toList →
        ∃ s, kv.1 = acc ++ p ++ s ∧ (Node.mk lf p es).get s = some kv.2 := by
      intro e he hm
      obtain ⟨el, en⟩ := e
      obtain ⟨s1, hk1, hg1⟩ := ih en (ts_lt_of_mem he lf p) (acc ++ p) kv (hch (el, en) he) hm
      obtain ⟨crest, hc0⟩ : ∃ crest, en.pfx = el :: crest := by
        cases hx : en.pfx with
        | nil =>
          have hh := hhd (el, en) he
          rw [hx] at hh
          cases hh
        | cons a0 b0 =>
          have hh := hhd (el, en) he
          rw [hx] at hh
          injection hh with hh2
          exact ⟨b0, by rw [hh2]⟩
      refine ⟨en.pfx ++ s1, ?_, ?_⟩
      · rw [hk1]
        simp only [pfx_mk, List.append_assoc]
      · have hgedge : getEdge es el = some en := (getEdge_eq_some_iff hsort).mpr he
        have hgedge2 : getEdge (Node.mk lf p es).edges el = some en := hgedge
        rw [hc0]
        have hcons : (el :: crest) ++ s1 = el :: (crest ++ s1) := rfl
        rw [hcons, get_cons_some hgedge2, hc0]
        rw [if_pos ?_]
        · have hdrop2 : (el :: (crest ++ s1)).drop (el :: crest).length = s1 := by
            show ((el :: crest) ++ s1).drop (el :: crest).length = s1
            exact List.drop_left _ _
          rw [hdrop2]
          exact hg1
        · exact List.cons_prefix_cons.mpr ⟨rfl, List.prefix_append _ _⟩
    cases lf with
    | some l =>
      rw [toList_some] at hkv
      rcases List.mem_cons.mp hkv with h1 | h1
      · refine ⟨[], ?_, ?_⟩
        · rw [h1]
          simp [pfx_mk, hl l rfl]
        · rw [get_nil, h1]
          rfl
      · obtain ⟨e, he, hm⟩ := mem_edgesToList.mp h1
        have h2 := hchild e he hm
        simpa [pfx_mk] using h2
    | none =>
      rw [toList_none] at hkv
      obtain ⟨e, he, hm⟩ := mem_edgesToList.mp hkv
      have h2 := hchild e he hm
      simpa [pfx_mk] using h2


/-! ### ToMap, Minimum, Maximum -/

theorem getLast?_cons_eq {α : Type} (x : α) (l : List α) :
    (x :: l).getLast? = match l.getLast? with
      | some a => some a
      | none => some x := by
  induction l generalizing x with
  | nil => rfl
  | cons y ys ih =>
    rw [List.getLast?_cons_cons, ih y]
    cases hys : ys.getLast? with
    | some a => rfl
    | none => rfl

theorem getLast?_append_right {α : Type} {B : List α} (hB : B ≠ []) :
    ∀ A : List α, (A ++ B).getLast? = B.getLast? := by
  intro A
  induction A with
  | nil => rfl
  | cons a A2 ih =>
    show (a :: (A2 ++ B)).getLast? = B.getLast?
    rw [getLast?_cons_eq, ih]
    cases hBs : B.getLast? with
    | some x => rfl
    | none =>
      rw [List.getLast?_eq_none_iff] at hBs
      exact absurd hBs hB

theorem foldl_map_apply {T : Type} :
    ∀ (l : List (Key × T)) (m : Key → Option T) (k : Key),
      (l.foldl (fun m2 kv => fun k2 => if k2 = kv.1 then some kv.2 else m2 k2) m) k =
        match (l.filter (fun kv => kv.1 = k)).getLast? with
        | some kv => some kv.2
        | none => m k := by
  intro l
  induction l with
  | nil =>
    intro m k
    rfl
  | cons x xs ih =>
    intro m k
    show (xs.foldl _ (fun k2 => if k2 = x.1 then some x.2 else m k2)) k = _
    rw [ih]
    by_cases hx : x.1 = k
    · have hfilter : (x :: xs).filter (fun kv => kv.1 = k) =
          x :: xs.filter (fun kv => kv.1 = k) := by
        rw [List.filter_cons_of_pos (by simp [hx])]
      rw [hfilter, getLast?_cons_eq]
      cases hxs : (xs.filter (fun kv => kv.1 = k)).getLast? with
      | some kv => rfl
      | none =>
        show (if k = x.1 then some x.2 else m k) = some x.2
        rw [if_pos hx.symm]
    · have hfilter : (x :: xs).filter (fun kv => kv.1 = k) =
          xs.filter (fun kv => kv.1 = k) := by
        rw [List.filter_cons_of_neg (by simp [hx])]
      rw [hfilter]
      cases hxs : (xs.filter (fun kv => kv.1 = k)).getLast? with
      | some kv => rfl
      | none =>
        show (if k = x.1 then some x.2 else m k) = m k
        rw [if_neg (fun hcon => hx hcon.symm)]

theorem nodup_keys_inj {T : Type} {l : List (Key × T)} (h : (l.map Prod.fst).Nodup) :
    ∀ a ∈ l, ∀ b ∈ l, a.1 = b.1 → a = b := by
  induction l with
  | nil => simp
  | cons x xs ih =>
    simp only [List.map_cons, List.nodup_cons] at h
    obtain ⟨hx, hxs⟩ := h
    intro a ha b hb heq
    rcases List.mem_cons.mp ha with rfl | ha2
    · rcases List.mem_cons.mp hb with rfl | hb2
      · rfl
      · exact absurd (heq ▸ List.mem_map_of_mem Prod.fst hb2) hx
    · rcases List.mem_cons.mp hb with rfl | hb2
      · exact absurd (heq ▸ List.mem_map_of_mem Prod.fst ha2) hx
      · exact ih hxs a ha2 b hb2 heq

theorem mem_of_getLast?_eq {α : Type} {l : List α} {a : α} (h : l.getLast? = some a) :
    a ∈ l := by
  obtain ⟨hne, heq⟩ := List.mem_getLast?_eq_getLast (show a ∈ l.getLast? from h)
  rw [heq]
  exact List.getLast_mem hne

/-- The map ToMap builds agrees with Get everywhere. -/
theorem ToMap_eq_Get {T : Type} (t : Tree T) (hwf : t.Wf) (k : Key) :
    t.ToMap k = t.Get k := by
  obtain ⟨hswf, hcomp, hpfx, hsize⟩ := hwf
  show (t.root.toList.foldl _ (fun _ => none)) k = t.Get k
  rw [foldl_map_apply]
  cases hget : t.Get k with
  | some v =>
    have hmem : (k, v) ∈ t.root.toList := by
      have h := get_toList_mem t.root k [] v hswf hget
      rw [hpfx] at h
      simpa using h
    have hnd := toList_keys_nodup t.root [] hswf
    have hkmem : (k, v) ∈ t.root.toList.filter (fun kv => kv.1 = k) :=
      List.mem_filter.mpr ⟨hmem, by simp⟩
    have hfne : t.root.toList.filter (fun kv => kv.1 = k) ≠ [] := by
      intro hcon
      rw [hcon] at hkmem
      cases hkmem
    cases hf : (t.root.toList.filter (fun kv => kv.1 = k)).getLast? with
    | none =>
      rw [List.getLast?_eq_none_iff] at hf
      exact absurd hf hfne
    | some e =>
      have hemem : e ∈ t.root.toList.filter (fun kv => kv.1 = k) := mem_of_getLast?_eq hf
      obtain ⟨he1, he2⟩ := List.mem_filter.mp hemem
      have hek : e.1 = k := by simpa using he2
      have : e = (k, v) := nodup_keys_inj hnd e he1 (k, v) hmem (by simp [hek])
      rw [this]
  | none =>
    cases hf : (t.root.toList.filter (fun kv => kv.1 = k)).getLast? with
    | none => rfl
    | some e =>
      have hemem : e ∈ t.root.toList.filter (fun kv => kv.1 = k) := mem_of_getLast?_eq hf
      obtain ⟨he1, he2⟩ := List.mem_filter.mp hemem
      have hek : e.1 = k := by simpa using he2
      obtain ⟨s, hks, hgs⟩ := mem_toList_get t.root [] e hswf he1
      rw [hpfx] at hks
      simp only [List.nil_append] at hks
      rw [hek] at hks
      rw [← hks] at hgs
      have hget2 : t.root.get k = none := hget
      rw [hget2] at hgs
      cases hgs

/-- C7: after any sequence of Inserts and Deletes, the walk visits keys in
strictly ascending lexicographic order, and ToMap agrees with Get on every
key (in particular their key sets coincide). -/
theorem C7_walk_order_tomap {T : Type} (ops : List (Op T)) :
    List.Pairwise (fun a b : Key × T => List.Lex (· < ·) a.1 b.1)
      (runOps Tree.New ops).root.toList ∧
    ∀ k, (runOps Tree.New ops).ToMap k = (runOps Tree.New ops).Get k := by
  have hwf := Wf_runOps ops Tree.New Wf_New
  exact ⟨toList_sorted _ [] hwf.1, fun k => ToMap_eq_Get _ hwf k⟩


/-- On a compressed tree the Minimum loop lands on the first walked pair. -/
theorem minimumRec_head {T : Type} :
    ∀ n : Node T, ∀ b : Bool, Comp b n → n.minimumRec = n.toList.head? := by
  refine node_strong_ind _ ?_
  intro n ih b hcomp
  cases n with
  | mk lf p es =>
    obtain ⟨hcond, hch⟩ := hcomp.shape
    cases lf with
    | some l =>
      rw [Node.minimumRec.eq_1, toList_some]
      rfl
    | none =>
      cases es with
      | nil =>
        rw [Node.minimumRec.eq_2, toList_none]
        rfl
      | cons e es2 =>
        rw [Node.minimumRec.eq_3]
        have hcompe : Comp false e.2 := hch e (List.mem_cons_self e es2)
        rw [ih e.2 (ts_lt_of_mem (List.mem_cons_self e es2) none p) false hcompe]
        rw [toList_none, edgesToList_cons]
        have hne := toList_ne_nil e.2 hcompe
        cases hel : e.2.toList with
        | nil => exact absurd hel hne
        | cons x xs => rfl

/-- On a compressed tree the Maximum loop lands on the last walked pair. -/
theorem maximumRec_getLast {T : Type} :
    ∀ n : Node T, ∀ b : Bool, Comp b n → n.maximumRec = n.toList.getLast? := by
  refine node_strong_ind _ ?_
  intro n ih b hcomp
  cases n with
  | mk lf p es =>
    obtain ⟨hcond, hch⟩ := hcomp.shape
    cases es with
    | nil =>
      rw [Node.maximumRec.eq_1]
      cases lf with
      | some l =>
        rw [toList_some]
        rfl
      | none =>
        rw [toList_none]
        rfl
    | cons e es2 =>
      rw [Node.maximumRec.eq_2]
      have hLmem : (e :: es2).getLast (by simp) ∈ (e :: es2) := List.getLast_mem (by simp)
      have hcompL : Comp false ((e :: es2).getLast (by simp)).2 := hch _ hLmem
      rw [ih _ (ts_lt_of_mem hLmem lf p) false hcompL]
      have hedge : edgesToList (e :: es2) =
          edgesToList ((e :: es2).dropLast) ++ ((e :: es2).getLast (by simp)).2.toList := by
        conv_lhs => rw [← @List.dropLast_append_getLast _ (e :: es2) (by simp)]
        rw [edgesToList_append]
        simp [edgesToList]
      have hneL := toList_ne_nil _ hcompL
      cases lf with
      | some l =>
        rw [toList_some, hedge]
        have hassoc : (l.key, l.val) :: (edgesToList ((e :: es2).dropLast) ++
            ((e :: es2).getLast (by simp)).2.toList) =
            ((l.key, l.val) :: edgesToList ((e :: es2).dropLast)) ++
            ((e :: es2).getLast (by simp)).2.toList := rfl
        rw [hassoc, getLast?_append_right hneL]
      | none =>
        rw [toList_none, hedge, getLast?_append_right hneL]


/-- Full correctness of Minimum and Maximum on well-formed trees. -/
theorem min_max_spec {T : Type} (t : Tree T) (hwf : t.Wf) :
    (t.Minimum = none ↔ t.Len = 0) ∧
    (t.Maximum = none ↔ t.Len = 0) ∧
    (∀ k v, t.Minimum = some (k, v) → t.Get k = some v ∧
      ∀ k2 v2, t.Get k2 = some v2 → k = k2 ∨ List.Lex (· < ·) k k2) ∧
    (∀ k v, t.Maximum = some (k, v) → t.Get k = some v ∧
      ∀ k2 v2, t.Get k2 = some v2 → k = k2 ∨ List.Lex (· < ·) k2 k) := by
  obtain ⟨hswf, hcomp, hpfx, hsize⟩ := hwf
  have hmin : t.Minimum = t.root.toList.head? := minimumRec_head t.root true hcomp
  have hmax : t.Maximum = t.root.toList.getLast? := maximumRec_getLast t.root true hcomp
  have hlen : t.Len = t.root.toList.length := by
    show t.size = _
    rw [hsize, toList_length]
  have hsorted := toList_sorted t.root [] hswf
  have hmemget : ∀ kv : Key × T, kv ∈ t.root.toList → t.Get kv.1 = some kv.2 := by
    intro kv hm
    obtain ⟨s, hks, hgs⟩ := mem_toList_get t.root [] kv hswf hm
    rw [hpfx] at hks
    simp only [List.nil_append] at hks
    show t.root.get kv.1 = some kv.2
    rw [hks]
    exact hgs
  have hgetmem : ∀ k2 v2, t.Get k2 = some v2 → (k2, v2) ∈ t.root.toList := by
    intro k2 v2 hg
    have h := get_toList_mem t.root k2 [] v2 hswf hg
    rw [hpfx] at h
    simpa using h
  refine ⟨?_, ?_, ?_, ?_⟩
  · rw [hmin, hlen, List.head?_eq_none_iff, List.length_eq_zero]
  · rw [hmax, hlen, List.getLast?_eq_none_iff, List.length_eq_zero]
  · intro k v hk
    rw [hmin] at hk
    obtain ⟨ys, hys⟩ := List.head?_eq_some_iff.mp hk
    refine ⟨hmemget (k, v) (by rw [hys]; exact List.mem_cons_self _ _), ?_⟩
    intro k2 v2 hg2
    have hm2 := hgetmem k2 v2 hg2
    rw [hys] at hm2 hsorted
    rcases List.mem_cons.mp hm2 with h1 | h1
    · left
      injection h1 with h2 h3
      exact h2.symm
    · right
      exact (List.pairwise_cons.mp hsorted).1 (k2, v2) h1
  · intro k v hk
    rw [hmax] at hk
    obtain ⟨ys, hys⟩ := List.getLast?_eq_some_iff.mp hk
    refine ⟨hmemget (k, v) (by
      rw [hys]
      exact List.mem_append.mpr (Or.inr (List.mem_singleton.mpr rfl))), ?_⟩
    intro k2 v2 hg2
    have hm2 := hgetmem k2 v2 hg2
    rw [hys] at hm2 hsorted
    rcases List.mem_append.mp hm2 with h1 | h1
    · right
      exact (List.pairwise_append.mp hsorted).2.2 (k2, v2) h1 (k, v)
        (List.mem_singleton.mpr rfl)
    · left
      have h2 := List.mem_singleton.mp h1
      injection h2 with h3 h4
      exact h3.symm

/-- C3 (corrected): on every tree built by Insert and Delete operations,
Minimum returns the lexicographically smallest stored key with its value,
Maximum the largest, and each reports nothing exactly when the tree is
empty.  The original claim over all public operations fails: after
DeletePrefix the Minimum loop can walk into a dangling empty node (see the
counterexample). -/
theorem C3_minimum_maximum {T : Type} (ops : List (Op T)) :
    ((runOps Tree.New ops).Minimum = none ↔ (runOps Tree.New ops).Len = 0) ∧
    ((runOps Tree.New ops).Maximum = none ↔ (runOps Tree.New ops).Len = 0) ∧
    (∀ k v, (runOps Tree.New ops).Minimum = some (k, v) →
      (runOps Tree.New ops).Get k = some v ∧
      ∀ k2 v2, (runOps Tree.New ops).Get k2 = some v2 → k = k2 ∨ List.Lex (· < ·) k k2) ∧
    (∀ k v, (runOps Tree.New ops).Maximum = some (k, v) →
      (runOps Tree.New ops).Get k = some v ∧
      ∀ k2 v2, (runOps Tree.New ops).Get k2 = some v2 → k = k2 ∨ List.Lex (· < ·) k2 k) :=
  min_max_spec (runOps Tree.New ops) (Wf_runOps ops Tree.New Wf_New)


/-! ### LongestPrefix -/

/-- The running best leaf of the LongestPrefix loop after visiting a node. -/
def lastSeen {T : Type} (n : Node T) (last : Option (Key × T)) : Option (Key × T) :=
  match n.leaf with
  | some l => some (l.key, l.val)
  | none => last

theorem lastSeen_some {T : Type} {n : Node T} {l : LeafNode T} (h : n.leaf = some l)
    (last : Option (Key × T)) : lastSeen n last = some (l.key, l.val) := by
  unfold lastSeen
  rw [h]

theorem lastSeen_none {T : Type} {n : Node T} (h : n.leaf = none)
    (last : Option (Key × T)) : lastSeen n last = last := by
  unfold lastSeen
  rw [h]

theorem lpr_nil {T : Type} (n : Node T) (last : Option (Key × T)) :
    n.longestPrefixRec [] last = lastSeen n last := by
  rw [Node.longestPrefixRec.eq_1]
  rfl

theorem lpr_cons_noedge {T : Type} {n : Node T} {c : Nat} {tail : Key}
    (hg : getEdge n.edges c = none) (last : Option (Key × T)) :
    n.longestPrefixRec (c :: tail) last = lastSeen n last := by
  rw [Node.longestPrefixRec.eq_2]
  split
  · rfl
  · rename_i child heq
    rw [hg] at heq
    cases heq

theorem lpr_cons_nopre {T : Type} {n : Node T} {c : Nat} {tail : Key} {child : Node T}
    (hg : getEdge n.edges c = some child) (hnp : ¬ child.pfx <+: (c :: tail))
    (last : Option (Key × T)) :
    n.longestPrefixRec (c :: tail) last = lastSeen n last := by
  rw [Node.longestPrefixRec.eq_2]
  split
  · rename_i heq
    rw [hg] at heq
    cases heq
  · rename_i child2 heq
    rw [hg] at heq
    injection heq with heq2
    subst heq2
    rw [if_neg hnp]
    rfl

theorem lpr_cons_pre {T : Type} {n : Node T} {c : Nat} {tail : Key} {child : Node T}
    (hg : getEdge n.edges c = some child) (hpre : child.pfx <+: (c :: tail))
    (last : Option (Key × T)) :
    n.longestPrefixRec (c :: tail) last =
      child.longestPrefixRec ((c :: tail).drop child.pfx.length) (lastSeen n last) := by
  rw [Node.longestPrefixRec.eq_2]
  split
  · rename_i heq
    rw [hg] at heq
    cases heq
  · rename_i child2 heq
    rw [hg] at heq
    injection heq with heq2
    subst heq2
    rw [if_pos hpre]
    rfl

theorem toList_key_cons {T : Type} {lf : Option (LeafNode T)} {p : Key}
    {es : List (Nat × Node T)} {acc : Key} (hswf : SWf acc (Node.mk lf p es))
    {e : Nat × Node T} (he : e ∈ es) {kv : Key × T} (hm : kv ∈ e.2.toList) :
    ∃ x, kv.1 = (acc ++ p) ++ e.1 :: x := by
  obtain ⟨hl, hsort, hhd, hch⟩ := hswf.parts
  have hpre := toList_key_prefix e.2 (acc ++ p) (hch e he) kv hm
  obtain ⟨c0, crest, hc0⟩ : ∃ c0 crest, e.2.pfx = c0 :: crest := by
    cases hx : e.2.pfx with
    | nil =>
      have hh := hhd e he
      rw [hx] at hh
      cases hh
    | cons a0 b0 => exact ⟨a0, b0, rfl⟩
  have hc0e : c0 = e.1 := by
    have hh := hhd e he
    rw [hc0] at hh
    injection hh with hh2
  rw [hc0, hc0e] at hpre
  obtain ⟨k2, hk2⟩ := hpre
  refine ⟨crest ++ k2, ?_⟩
  rw [← hk2]
  simp [List.append_assoc]

theorem mem_toList_cases {T : Type} {lf : Option (LeafNode T)} {p : Key}
    {es : List (Nat × Node T)} {kv : Key × T} (h : kv ∈ (Node.mk lf p es).toList) :
    (∃ l, lf = some l ∧ kv = (l.key, l.val)) ∨ ∃ e ∈ es, kv ∈ e.2.toList := by
  cases lf with
  | some l =>
    rw [toList_some] at h
    rcases List.mem_cons.mp h with h1 | h1
    · exact Or.inl ⟨l, rfl, h1⟩
    · exact Or.inr (mem_edgesToList.mp h1)
  | none =>
    rw [toList_none] at h
    exact Or.inr (mem_edgesToList.mp h)

/-- Full behaviour of the LongestPrefix loop: if some stored key of the
subtree is a prefix of the query it returns the longest one, otherwise it
returns the `last` leaf carried in. -/
theorem longestPrefixRec_spec {T : Type} :
    ∀ (n : Node T) (s : Key) (last : Option (Key × T)), ∀ acc : Key, SWf acc n →
      ((∀ kv : Key × T, kv ∈ n.toList → ¬ kv.1 <+: acc ++ n.pfx ++ s) →
        n.longestPrefixRec s last = last) ∧
      (∀ kv : Key × T, kv ∈ n.toList → kv.1 <+: acc ++ n.pfx ++ s →
        ∃ kv2 : Key × T, n.longestPrefixRec s last = some kv2 ∧ kv2 ∈ n.toList ∧
          kv2.1 <+: acc ++ n.pfx ++ s ∧
          ∀ kv3 : Key × T, kv3 ∈ n.toList → kv3.1 <+: acc ++ n.pfx ++ s → kv3.1 <+: kv2.1) := by
  intro n s last
  induction n, s, last using Node.longestPrefixRec.induct with
  | case1 n last =>
    intro acc hswf
    rw [lpr_nil]
    cases n with
    | mk lf p es =>
      obtain ⟨hl, hsort, hhd, hch⟩ := hswf.parts
      simp only [pfx_mk, List.append_nil]
      have hchildlong : ∀ e ∈ es, ∀ kv : Key × T, kv ∈ e.2.toList →
          ¬ kv.1 <+: acc ++ p := by
        intro e he kv hm hcon
        obtain ⟨x, hx⟩ := toList_key_cons hswf he hm
        have hlen := hcon.length_le
        rw [hx] at hlen
        simp only [List.length_append, List.length_cons] at hlen
        omega
      cases lf with
      | some l =>
        rw [lastSeen_some (leaf_mk _ _ _)]
        constructor
        · intro hno
          exfalso
          refine hno (l.key, l.val) (by rw [toList_some]; exact List.mem_cons_self _ _) ?_
          show l.key <+: acc ++ p
          rw [hl l rfl]
        · intro kv hkv hpk
          refine ⟨(l.key, l.val), rfl,
            by rw [toList_some]; exact List.mem_cons_self _ _, ?_, ?_⟩
          · show l.key <+: acc ++ p
            rw [hl l rfl]
          · intro kv3 h3 hp3
            rcases mem_toList_cases h3 with ⟨l2, hlf2, hkv3⟩ | ⟨e, he, hm3⟩
            · injection hlf2 with hleq
              subst hleq
              rw [hkv3]
            · exact absurd hp3 (hchildlong e he kv3 hm3)
      | none =>
        rw [lastSeen_none (leaf_mk _ _ _)]
        constructor
        · intro _
          rfl
        · intro kv hkv hpk
          exfalso
          rcases mem_toList_cases hkv with ⟨l2, hlf2, _⟩ | ⟨e, he, hm3⟩
          · cases hlf2
          · exact hchildlong e he kv hm3 hpk
  | case2 n last c tail hg =>
    intro acc hswf
    rw [lpr_cons_noedge hg]
    cases n with
    | mk lf p es =>
      obtain ⟨hl, hsort, hhd, hch⟩ := hswf.parts
      have hg2 : getEdge es c = none := hg
      simp only [pfx_mk]
      have hchildno : ∀ e ∈ es, ∀ kv : Key × T, kv ∈ e.2.toList →
          ¬ kv.1 <+: acc ++ p ++ c :: tail := by
        intro e he kv hm hcon
        obtain ⟨el, en⟩ := e
        obtain ⟨x, hx⟩ := toList_key_cons hswf he hm
        rw [hx] at hcon
        have h2 := (List.prefix_append_right_inj (acc ++ p)).mp hcon
        have hel : el = c := (List.cons_prefix_cons.mp h2).1
        subst hel
        have hge : getEdge es el = some en := (getEdge_eq_some_iff hsort).mpr he
        rw [hg2] at hge
        cases hge
      cases lf with
      | some l =>
        rw [lastSeen_some (leaf_mk _ _ _)]
        constructor
        · intro hno
          exfalso
          refine hno (l.key, l.val) (by rw [toList_some]; exact List.mem_cons_self _ _) ?_
          show l.key <+: acc ++ p ++ c :: tail
          rw [hl l rfl]
          exact List.prefix_append _ _
        · intro kv hkv hpk
          refine ⟨(l.key, l.val), rfl,
            by rw [toList_some]; exact List.mem_cons_self _ _, ?_, ?_⟩
          · show l.key <+: acc ++ p ++ c :: tail
            rw [hl l rfl]
            exact List.prefix_append _ _
          · intro kv3 h3 hp3
            rcases mem_toList_cases h3 with ⟨l2, hlf2, hkv3⟩ | ⟨e, he, hm3⟩
            · injection hlf2 with hleq
              subst hleq
              rw [hkv3]
            · exact absurd hp3 (hchildno e he kv3 hm3)
      | none =>
        rw [lastSeen_none (leaf_mk _ _ _)]
        constructor
        · intro _
          rfl
        · intro kv hkv hpk
          exfalso
          rcases mem_toList_cases hkv with ⟨l2, hlf2, _⟩ | ⟨e, he, hm3⟩
          · cases hlf2
          · exact hchildno e he kv hm3 hpk
  | case4 n last c tail child hg hnp =>
    intro acc hswf
    rw [lpr_cons_nopre hg hnp]
    cases n with
    | mk lf p es =>
      obtain ⟨hl, hsort, hhd, hch⟩ := hswf.parts
      have hg2 : getEdge es c = some child := hg
      simp only [pfx_mk]
      have hchildno : ∀ e ∈ es, ∀ kv : Key × T, kv ∈ e.2.toList →
          ¬ kv.1 <+: acc ++ p ++ c :: tail := by
        intro e he kv hm hcon
        obtain ⟨el, en⟩ := e
        obtain ⟨x, hx⟩ := toList_key_cons hswf he hm
        have hcon2 := hcon
        rw [hx] at hcon2
        have h2 := (List.prefix_append_right_inj (acc ++ p)).mp hcon2
        have hel : el = c := (List.cons_prefix_cons.mp h2).1
        subst hel
        have hge : getEdge es el = some en := (getEdge_eq_some_iff hsort).mpr he
        rw [hg2] at hge
        injection hge with hge2
        subst hge2
        have hpre2 := toList_key_prefix child (acc ++ p) (hch (el, child) he) kv hm
        have htrans := hpre2.trans hcon
        have hpp := (List.prefix_append_right_inj (acc ++ p)).mp htrans
        exact hnp hpp
      cases lf with
      | some l =>
        rw [lastSeen_some (leaf_mk _ _ _)]
        constructor
        · intro hno
          exfalso
          refine hno (l.key, l.val) (by rw [toList_some]; exact List.mem_cons_self _ _) ?_
          show l.key <+: acc ++ p ++ c :: tail
          rw [hl l rfl]
          exact List.prefix_append _ _
        · intro kv hkv hpk
          refine ⟨(l.key, l.val), rfl,
            by rw [toList_some]; exact List.mem_cons_self _ _, ?_, ?_⟩
          · show l.key <+: acc ++ p ++ c :: tail
            rw [hl l rfl]
            exact List.prefix_append _ _
          · intro kv3 h3 hp3
            rcases mem_toList_cases h3 with ⟨l2, hlf2, hkv3⟩ | ⟨e, he, hm3⟩
            · injection hlf2 with hleq
              subst hleq
              rw [hkv3]
            · exact absurd hp3 (hchildno e he kv3 hm3)
      | none =>
        rw [lastSeen_none (leaf_mk _ _ _)]
        constructor
        · intro _
          rfl
        · intro kv hkv hpk
          exfalso
          rcases mem_toList_cases hkv with ⟨l2, hlf2, _⟩ | ⟨e, he, hm3⟩
          · cases hlf2
          · exact hchildno e he kv hm3 hpk
  | case3 n last last2 c tail child hg hpre ih =>
    intro acc hswf
    rw [lpr_cons_pre hg hpre]
    cases n with
    | mk lf p es =>
      have hlet : last2 = lastSeen (Node.mk lf p es) last := rfl
      obtain ⟨hl, hsort, hhd, hch⟩ := hswf.parts
      have hg2 : getEdge es c = some child := hg
      simp only [pfx_mk]
      have hchSWf : SWf (acc ++ p) child := hch (c, child) (getEdge_mem hg2)
      obtain ⟨ih1, ih2⟩ := ih (acc ++ p) hchSWf
      have hjoin : child.pfx ++ (c :: tail).drop child.pfx.length = c :: tail := by
        conv_rhs => rw [← List.take_append_drop child.pfx.length (c :: tail)]
        rw [← List.prefix_iff_eq_take.mp hpre]
      have hq : acc ++ p ++ child.pfx ++ (c :: tail).drop child.pfx.length =
          acc ++ p ++ c :: tail := by
        rw [List.append_assoc (acc ++ p) child.pfx, hjoin]
      have hforce : ∀ e ∈ es, ∀ kv : Key × T, kv ∈ e.2.toList →
          kv.1 <+: acc ++ p ++ c :: tail → kv ∈ child.toList := by
        intro e he kv hm hcon
        obtain ⟨el, en⟩ := e
        obtain ⟨x, hx⟩ := toList_key_cons hswf he hm
        have hcon2 := hcon
        rw [hx] at hcon2
        have h2 := (List.prefix_append_right_inj (acc ++ p)).mp hcon2
        have hel : el = c := (List.cons_prefix_cons.mp h2).1
        subst hel
        have hge : getEdge es el = some en := (getEdge_eq_some_iff hsort).mpr he
        rw [hg2] at hge
        injection hge with hge2
        subst hge2
        exact hm
      by_cases hcand : ∃ kv : Key × T, kv ∈ child.toList ∧ kv.1 <+: acc ++ p ++ c :: tail
      · obtain ⟨kv0, hkv0m, hkv0p⟩ := hcand
        have h0 : kv0.1 <+: acc ++ p ++ child.pfx ++ (c :: tail).drop child.pfx.length := by
          rw [hq]
          exact hkv0p
        obtain ⟨kv2, hres, hmem2, hpre2, hmax2⟩ := ih2 kv0 hkv0m h0
        rw [hq] at hpre2
        constructor
        · intro hno
          exfalso
          exact hno kv0 (mem_toList_of_child (getEdge_mem hg2) hkv0m lf p) hkv0p
        · intro kv hkv hpk
          refine ⟨kv2, ?_, mem_toList_of_child (getEdge_mem hg2) hmem2 lf p, hpre2, ?_⟩
          · rw [← hlet]
            exact hres
          · intro kv3 h3 hp3
            rcases mem_toList_cases h3 with ⟨l2, hlf2, hkv3⟩ | ⟨e, he, hm3⟩
            · have hk3 : kv3.1 = acc ++ p := by
                rw [hkv3]
                exact hl l2 hlf2
              rw [hk3]
              have hpre3 := toList_key_prefix child (acc ++ p) hchSWf kv2 hmem2
              exact (List.prefix_append (acc ++ p) child.pfx).trans hpre3
            · have hm4 := hforce e he kv3 hm3 hp3
              refine hmax2 kv3 hm4 ?_
              rw [hq]
              exact hp3
      · push_neg at hcand
        have hres0 : child.longestPrefixRec ((c :: tail).drop child.pfx.length) last2 =
            last2 := by
          refine ih1 ?_
          intro kv hm hcon
          rw [hq] at hcon
          exact hcand kv hm hcon
        rw [← hlet, hres0]
        cases lf with
        | some l =>
          rw [hlet, lastSeen_some (leaf_mk _ _ _)]
          constructor
          · intro hno
            exfalso
            refine hno (l.key, l.val) (by rw [toList_some]; exact List.mem_cons_self _ _) ?_
            show l.key <+: acc ++ p ++ c :: tail
            rw [hl l rfl]
            exact List.prefix_append _ _
          · intro kv hkv hpk
            refine ⟨(l.key, l.val), rfl,
              by rw [toList_some]; exact List.mem_cons_self _ _, ?_, ?_⟩
            · show l.key <+: acc ++ p ++ c :: tail
              rw [hl l rfl]
              exact List.prefix_append _ _
            · intro kv3 h3 hp3
              rcases mem_toList_cases h3 with ⟨l2, hlf2, hkv3⟩ | ⟨e, he, hm3⟩
              · injection hlf2 with hleq
                subst hleq
                rw [hkv3]
              · have hm4 := hforce e he kv3 hm3 hp3
                exact absurd hp3 (hcand kv3 hm4)
        | none =>
          rw [hlet, lastSeen_none (leaf_mk _ _ _)]
          constructor
          · intro _
            rfl
          · intro kv hkv hpk
            exfalso
            rcases mem_toList_cases hkv with ⟨l2, hlf2, _⟩ | ⟨e, he, hm3⟩
            · cases hlf2
            · have hm4 := hforce e he kv hm3 hpk
              exact hcand kv hm4 hpk

theorem Get_of_mem_toList {T : Type} (t : Tree T) (hswf : SWf [] t.root)
    (hpfx : t.root.pfx = []) {kv : Key × T} (hm : kv ∈ t.root.toList) :
    t.Get kv.1 = some kv.2 := by
  obtain ⟨s, hks, hgs⟩ := mem_toList_get t.root [] kv hswf hm
  rw [hpfx] at hks
  simp only [List.nil_append] at hks
  show t.root.get kv.1 = some kv.2
  rw [hks]
  exact hgs

theorem mem_toList_of_Get {T : Type} (t : Tree T) (hswf : SWf [] t.root)
    (hpfx : t.root.pfx = []) {k : Key} {v : T} (hg : t.Get k = some v) :
    (k, v) ∈ t.root.toList := by
  have h := get_toList_mem t.root k [] v hswf hg
  rw [hpfx] at h
  simpa using h

/-- C6: LongestPrefix returns the longest stored key that is a prefix of the
query (with its value), and returns nothing exactly when no stored key is a
prefix of the query. -/
theorem C6_longest_prefix {T : Type} (t : Tree T) (hwf : t.Wf) (s : Key) :
    (∀ k v, t.LongestPrefix s = some (k, v) → t.Get k = some v ∧ k <+: s ∧
      ∀ k2 v2, t.Get k2 = some v2 → k2 <+: s → k2 <+: k) ∧
    (t.LongestPrefix s = none → ∀ k v, t.Get k = some v → ¬ k <+: s) := by
  obtain ⟨hswf, hcomp, hpfx, hsize⟩ := hwf
  obtain ⟨h1, h2⟩ := longestPrefixRec_spec t.root s none [] hswf
  rw [hpfx] at h1 h2
  simp only [List.nil_append] at h1 h2
  constructor
  · intro k v hk
    by_cases hex : ∃ kv : Key × T, kv ∈ t.root.toList ∧ kv.1 <+: s
    · obtain ⟨kv0, hm0, hp0⟩ := hex
      obtain ⟨kv2, hres, hmem2, hpre2, hmax2⟩ := h2 kv0 hm0 hp0
      have heq : some (k, v) = some kv2 := hk.symm.trans hres
      injection heq with heq2
      refine ⟨?_, ?_, ?_⟩
      · have hget := Get_of_mem_toList t hswf hpfx hmem2
        rw [← heq2] at hget
        exact hget
      · rw [show k = kv2.1 by rw [← heq2]]
        exact hpre2
      · intro k2 v2 hg2 hp2
        have hm2 := mem_toList_of_Get t hswf hpfx hg2
        have h3 := hmax2 (k2, v2) hm2 hp2
        rw [show k = kv2.1 by rw [← heq2]]
        exact h3
    · have hres := h1 (by
        intro kv hm hcon
        exact hex ⟨kv, hm, hcon⟩)
      have heq : some (k, v) = (none : Option (Key × T)) := hk.symm.trans hres
      cases heq
  · intro hnone k v hg hp
    have hm := mem_toList_of_Get t hswf hpfx hg
    obtain ⟨kv2, hres, _, _, _⟩ := h2 (k, v) hm hp
    have heq : (none : Option (Key × T)) = some kv2 := hnone.symm.trans hres
    cases heq

theorem C6_longest_prefix_witness :
    (∀ k v, ((Tree.New.Insert [1] 5).1 : Tree Nat).LongestPrefix [1, 2] = some (k, v) →
      ((Tree.New.Insert [1] 5).1 : Tree Nat).Get k = some v ∧ k <+: [1, 2] ∧
      ∀ k2 v2, ((Tree.New.Insert [1] 5).1 : Tree Nat).Get k2 = some v2 → k2 <+: [1, 2] →
        k2 <+: k) ∧
    (((Tree.New.Insert [1] 5).1 : Tree Nat).LongestPrefix [1, 2] = none →
      ∀ k v, ((Tree.New.Insert [1] 5).1 : Tree Nat).Get k = some v → ¬ k <+: [1, 2]) :=
  C6_longest_prefix ((Tree.New.Insert [1] 5).1 : Tree Nat) (Wf_Insert Wf_New [1] 5) [1, 2]


/-! ### DeletePrefix -/

theorem dpr_nil {T : Type} (b : Bool) (n : Node T) :
    Node.deletePrefixRec b n [] = (n, 0) := by
  rw [Node.deletePrefixRec.eq_1]

theorem dpr_cons_none {T : Type} {n : Node T} {c : Nat} {tail : Key}
    (hg : getEdge n.edges c = none) (b : Bool) :
    Node.deletePrefixRec b n (c :: tail) = (n, 0) := by
  rw [Node.deletePrefixRec.eq_2]
  split
  · rfl
  · rename_i child heq
    rw [hg] at heq
    cases heq

theorem dpr_cons_guard {T : Type} {n : Node T} {c : Nat} {tail : Key} {child : Node T}
    (hg : getEdge n.edges c = some child)
    (hng : ¬ (c :: tail) <+: child.pfx ∧ ¬ child.pfx <+: (c :: tail)) (b : Bool) :
    Node.deletePrefixRec b n (c :: tail) = (n, 0) := by
  rw [Node.deletePrefixRec.eq_2]
  split
  · rename_i heq
    rw [hg] at heq
  · rename_i child2 heq
    rw [hg] at heq
    injection heq with heq2
    subst heq2
    rw [if_pos hng]

theorem dpr_cons_base {T : Type} {n : Node T} {c : Nat} {tail : Key} {child : Node T}
    (hg : getEdge n.edges c = some child)
    (hng : ¬ (¬ (c :: tail) <+: child.pfx ∧ ¬ child.pfx <+: (c :: tail)))
    (hs : (if (c :: tail).length < child.pfx.length then ([] : Key)
      else (c :: tail).drop child.pfx.length) = []) (b : Bool) :
    Node.deletePrefixRec b n (c :: tail) =
      ((if b = false ∧ (Node.mk n.leaf n.pfx (updateEdge n.edges c
          (Node.mk (none : Option (LeafNode T)) child.pfx []))).edges.length = 1 ∧
          (Node.mk n.leaf n.pfx (updateEdge n.edges c
          (Node.mk (none : Option (LeafNode T)) child.pfx []))).isLeaf = false then
        (Node.mk n.leaf n.pfx (updateEdge n.edges c
          (Node.mk (none : Option (LeafNode T)) child.pfx []))).mergeChild
      else Node.mk n.leaf n.pfx (updateEdge n.edges c
          (Node.mk (none : Option (LeafNode T)) child.pfx []))),
       child.leafCount) := by
  rw [Node.deletePrefixRec.eq_2]
  split
  · rename_i heq
    rw [hg] at heq
    cases heq
  · rename_i child2 heq
    rw [hg] at heq
    injection heq with heq2
    subst heq2
    rw [if_neg hng]
    simp only [dite_eq_ite]
    rw [if_pos hs]

theorem dpr_cons_step {T : Type} {n : Node T} {c : Nat} {tail : Key} {child : Node T}
    (hg : getEdge n.edges c = some child)
    (hng : ¬ (¬ (c :: tail) <+: child.pfx ∧ ¬ child.pfx <+: (c :: tail)))
    (hs : ¬ (if (c :: tail).length < child.pfx.length then ([] : Key)
      else (c :: tail).drop child.pfx.length) = []) (b : Bool) :
    Node.deletePrefixRec b n (c :: tail) =
      (Node.mk n.leaf n.pfx (updateEdge n.edges c
        (Node.deletePrefixRec false child (if (c :: tail).length < child.pfx.length
          then ([] : Key) else (c :: tail).drop child.pfx.length)).1),
       (Node.deletePrefixRec false child (if (c :: tail).length < child.pfx.length
          then ([] : Key) else (c :: tail).drop child.pfx.length)).2) := by
  rw [Node.deletePrefixRec.eq_2]
  split
  · rename_i heq
    rw [hg] at heq
    cases heq
  · rename_i child2 heq
    rw [hg] at heq
    injection heq with heq2
    subst heq2
    rw [if_neg hng]
    simp only [dite_eq_ite]
    rw [if_neg hs]

/-- Replacing the child at label c by one whose denotation lost exactly the
keys extending w (whose first byte is c) removes exactly those keys from the
parent-level Get. -/
theorem get_update_prefix_congr {T : Type} {es : List (Nat × Node T)} {c : Nat}
    {child child' : Node T} (h : getEdge es c = some child) {w : Key}
    (hw : w.head? = some c)
    (hden : ∀ rem, child'.findFrom rem = if w <+: rem then none else child.findFrom rem)
    (lf : Option (LeafNode T)) (p : Key) (rem : Key) :
    (Node.mk lf p (updateEdge es c child')).get rem =
      if w <+: rem then none else (Node.mk lf p es).get rem := by
  obtain ⟨w0, wrest, hw0⟩ : ∃ w0 wrest, w = w0 :: wrest := by
    cases hx : w with
    | nil =>
      rw [hx] at hw
      cases hw
    | cons a b => exact ⟨a, b, rfl⟩
  have hw0c : w0 = c := by
    rw [hw0] at hw
    injection hw with h2
  cases rem with
  | nil =>
    rw [if_neg (by rw [hw0]; intro hcon; cases List.prefix_nil.mp hcon)]
    rw [get_nil, get_nil]
    rfl
  | cons d rest =>
    rw [get_cons_findFrom, get_cons_findFrom]
    simp only [edges_mk]
    by_cases hdc : d = c
    · subst hdc
      rw [getEdge_updateEdge_self h, h]
      show child'.findFrom (d :: rest) =
        if w <+: d :: rest then none else child.findFrom (d :: rest)
      exact hden (d :: rest)
    · rw [getEdge_updateEdge_ne es child' hdc]
      have hne : ¬ w <+: d :: rest := by
        rw [hw0]
        intro hcon
        have := (List.cons_prefix_cons.mp hcon).1
        exact hdc ((this.symm).trans hw0c)
      rw [if_neg hne]

/-- Lifting a prefix-deletion statement through the node prefix. -/
theorem findFrom_of_get_prefix_congr {T : Type} {n0 n1 : Node T} {w : Key}
    (hpfx : n1.pfx = n0.pfx)
    (hget : ∀ rem, n1.get rem = if w <+: rem then none else n0.get rem) (z : Key) :
    n1.findFrom z = if n0.pfx ++ w <+: z then none else n0.findFrom z := by
  unfold Node.findFrom
  rw [hpfx]
  by_cases hp : n0.pfx <+: z
  · rw [if_pos hp, if_pos hp, hget]
    by_cases hzw : w <+: z.drop n0.pfx.length
    · rw [if_pos hzw, if_pos (append_prefix_iff.mpr ⟨hp, hzw⟩)]
    · rw [if_neg hzw, if_neg ?_]
      intro hcon
      exact hzw (append_prefix_iff.mp hcon).2
  · rw [if_neg hp, if_neg hp, if_neg ?_]
    intro hcon
    exact hp (append_prefix_iff.mp hcon).1


theorem findFrom_empty {T : Type} (q : Key) (rem : Key) :
    (Node.mk (none : Option (LeafNode T)) q []).findFrom rem = none := by
  unfold Node.findFrom
  simp only [pfx_mk]
  by_cases hp : q <+: rem
  · rw [if_pos hp]
    cases hrem : rem.drop q.length with
    | nil =>
      rw [get_nil]
      rfl
    | cons d rest =>
      exact get_cons_none (by simp [edges_mk, getEdge])
  · rw [if_neg hp]

theorem SWf_empty {T : Type} (acc : Key) (q : Key) :
    SWf acc (Node.mk (none : Option (LeafNode T)) q []) := by
  refine SWf.mk _ _ _ _ ?_ ?_ ?_ ?_
  · intro l hl
    cases hl
  · unfold sortedEdges
    simp
  · intro e he
    cases he
  · intro e he
    cases he

/-- Chaining the node-level prefix-deletion facts through the final
root-guarded merge. -/
theorem delStep2P {T : Type} {acc : Key} {b : Bool} {n n1 : Node T} {w : Key} {cnt : Nat}
    (hff : ∀ z, n1.findFrom z = if n.pfx ++ w <+: z then none else n.findFrom z)
    (hswf1 : SWf acc n1) (hpfx1 : n1.pfx = n.pfx)
    (hcnt : n1.leafCount + cnt = n.leafCount) :
    (∀ z, (if b = false ∧ n1.edges.length = 1 ∧ n1.isLeaf = false then n1.mergeChild
        else n1).findFrom z = if n.pfx ++ w <+: z then none else n.findFrom z) ∧
    SWf acc (if b = false ∧ n1.edges.length = 1 ∧ n1.isLeaf = false then n1.mergeChild
        else n1) ∧
    (b = true → (if b = false ∧ n1.edges.length = 1 ∧ n1.isLeaf = false then n1.mergeChild
        else n1).pfx = n.pfx) ∧
    (n.pfx ≠ [] → (if b = false ∧ n1.edges.length = 1 ∧ n1.isLeaf = false then n1.mergeChild
        else n1).pfx.head? = n.pfx.head?) ∧
    (if b = false ∧ n1.edges.length = 1 ∧ n1.isLeaf = false then n1.mergeChild
        else n1).leafCount + cnt = n.leafCount := by
  obtain ⟨h1, h2, h3, h4, h5⟩ := @delTopMerge T acc b n1 hswf1
  refine ⟨fun z => (h1 z).trans (hff z), h2, fun hb => (h3 hb).trans hpfx1, ?_,
    by rw [h5]; exact hcnt⟩
  intro hnp
  have hnp1 : n1.pfx ≠ [] := by
    rw [hpfx1]
    exact hnp
  rw [h4 hnp1, hpfx1]

/-- Full correctness of the deletePrefix recursion, seen from the parent: it
removes exactly the keys extending `n.pfx ++ s` from the subtree denotation,
keeps semantic well-formedness, keeps the prefix of a root node and the first
prefix byte of a non-root node, returns the exact number of removed leaves,
and does nothing at all when that number is zero. -/
theorem deletePrefixRec_spec {T : Type} :
    ∀ (b : Bool) (n : Node T) (s : Key), ∀ acc : Key, SWf acc n → Comp b n → s ≠ [] →
      (∀ z, (Node.deletePrefixRec b n s).1.findFrom z =
        if n.pfx ++ s <+: z then none else n.findFrom z) ∧
      SWf acc (Node.deletePrefixRec b n s).1 ∧
      (b = true → (Node.deletePrefixRec b n s).1.pfx = n.pfx) ∧
      (n.pfx ≠ [] → (Node.deletePrefixRec b n s).1.pfx.head? = n.pfx.head?) ∧
      (Node.deletePrefixRec b n s).1.leafCount + (Node.deletePrefixRec b n s).2 =
        n.leafCount ∧
      ((Node.deletePrefixRec b n s).2 = 0 → Node.deletePrefixRec b n s = (n, 0)) := by
  intro b n s
  induction b, n, s using Node.deletePrefixRec.induct with
  | case1 b n =>
    intro acc hswf hcomp hne
    exact absurd rfl hne
  | case2 b n c tail hg =>
    intro acc hswf hcomp hne
    rw [dpr_cons_none hg b]
    refine ⟨?_, hswf, fun _ => rfl, fun _ => rfl, rfl, fun _ => rfl⟩
    intro z
    by_cases hp : n.pfx ++ c :: tail <+: z
    · rw [if_pos hp]
      show n.findFrom z = none
      unfold Node.findFrom
      by_cases hq : n.pfx <+: z
      · rw [if_pos hq]
        obtain ⟨rest, hw⟩ : ∃ rest, z.drop n.pfx.length = c :: rest := by
          obtain ⟨k, hk⟩ := (append_prefix_iff.mp hp).2
          exact ⟨tail ++ k, by rw [← hk]; rfl⟩
        rw [hw]
        exact get_cons_none hg
      · rw [if_neg hq]
    · rw [if_neg hp]
  | case3 b n c tail child hg hng =>
    intro acc hswf hcomp hne
    rw [dpr_cons_guard hg hng b]
    refine ⟨?_, hswf, fun _ => rfl, fun _ => rfl, rfl, fun _ => rfl⟩
    intro z
    by_cases hp : n.pfx ++ c :: tail <+: z
    · rw [if_pos hp]
      show n.findFrom z = none
      unfold Node.findFrom
      by_cases hq : n.pfx <+: z
      · rw [if_pos hq]
        have hsw := (append_prefix_iff.mp hp).2
        obtain ⟨rest, hw⟩ : ∃ rest, z.drop n.pfx.length = c :: rest := by
          obtain ⟨k, hk⟩ := hsw
          exact ⟨tail ++ k, by rw [← hk]; rfl⟩
        rw [hw]
        rw [get_cons_some hg]
        rw [if_neg ?_]
        intro hcp
        rw [hw] at hsw
        rcases List.prefix_or_prefix_of_prefix hsw hcp with h1 | h1
        · exact hng.1 h1
        · exact hng.2 h1
      · rw [if_neg hq]
    · rw [if_neg hp]
  | case4 b n c tail child hg hng s2 hs2 =>
    intro acc hswf hcomp hne
    have hs2eq : s2 = (if (c :: tail).length < child.pfx.length then ([] : Key)
        else (c :: tail).drop child.pfx.length) := dite_eq_ite
    rw [hs2eq] at hs2
    rw [dpr_cons_base hg hng hs2 b]
    have hdisj : (c :: tail) <+: child.pfx ∨ child.pfx <+: (c :: tail) := by
      by_cases h1 : (c :: tail) <+: child.pfx
      · exact Or.inl h1
      · by_cases h2 : child.pfx <+: (c :: tail)
        · exact Or.inr h2
        · exact absurd ⟨h1, h2⟩ hng
    have hspre : (c :: tail) <+: child.pfx := by
      rcases hdisj with h1 | h1
      · exact h1
      · by_cases hlt : (c :: tail).length < child.pfx.length
        · exact absurd h1.length_le (by omega)
        · rw [if_neg hlt] at hs2
          have hlen0 := congrArg List.length hs2
          simp only [List.length_drop, List.length_nil] at hlen0
          have h2 : child.pfx = c :: tail := h1.eq_of_length (by
            have := h1.length_le
            omega)
          rw [h2]
    cases n with
    | mk lf p es =>
      have hg2 : getEdge es c = some child := hg
      obtain ⟨hl, hsort, hhd, hch⟩ := hswf.parts
      obtain ⟨hcond, hchComp⟩ := hcomp.shape
      have hchildComp : Comp false child := hchComp (c, child) (getEdge_mem hg2)
      have hchd : child.pfx.head? = some c := hhd (c, child) (getEdge_mem hg2)
      have hkill : ∀ rem, ¬ (c :: tail) <+: rem → child.findFrom rem = none := by
        intro rem hnp
        by_cases hcp : child.pfx <+: rem
        · exact absurd (hspre.trans hcp) hnp
        · unfold Node.findFrom
          rw [if_neg hcp]
      have hden : ∀ rem, (Node.mk (none : Option (LeafNode T)) child.pfx []).findFrom rem =
          if (c :: tail) <+: rem then none else child.findFrom rem := by
        intro rem
        by_cases hsp : (c :: tail) <+: rem
        · rw [if_pos hsp]
          exact findFrom_empty child.pfx rem
        · rw [if_neg hsp, findFrom_empty child.pfx rem, hkill rem hsp]
      have hget1 : ∀ rem, (Node.mk lf p (updateEdge es c
          (Node.mk (none : Option (LeafNode T)) child.pfx []))).get rem =
          if (c :: tail) <+: rem then none else (Node.mk lf p es).get rem :=
        fun rem => get_update_prefix_congr hg2 (rfl : (c :: tail).head? = some c) hden lf p rem
      have hff : ∀ z, (Node.mk lf p (updateEdge es c
          (Node.mk (none : Option (LeafNode T)) child.pfx []))).findFrom z =
          if (Node.mk lf p es).pfx ++ c :: tail <+: z then none
          else (Node.mk lf p es).findFrom z := by
        intro z
        refine findFrom_of_get_prefix_congr ?_ hget1 z
        rfl
      have hswf1 : SWf acc (Node.mk lf p (updateEdge es c
          (Node.mk (none : Option (LeafNode T)) child.pfx []))) := by
        refine SWf_updateEdge hswf hg2 (SWf_empty (acc ++ p) child.pfx) ?_
        rw [pfx_mk]
        exact hchd
      have hcnt1 : (Node.mk lf p (updateEdge es c
          (Node.mk (none : Option (LeafNode T)) child.pfx []))).leafCount +
          child.leafCount = (Node.mk lf p es).leafCount := by
        have h1 := edgesLeafCount_updateEdge hg2
          (Node.mk (none : Option (LeafNode T)) child.pfx [])
        have h0 : (Node.mk (none : Option (LeafNode T)) child.pfx []).leafCount = 0 := rfl
        rw [leafCount_mk, leafCount_mk]
        omega
      obtain ⟨k1, k2, k3, k4, k5⟩ :=
        @delStep2P T acc b (Node.mk lf p es)
          (Node.mk lf p (updateEdge es c (Node.mk (none : Option (LeafNode T)) child.pfx [])))
          (c :: tail) child.leafCount hff hswf1 rfl hcnt1
      refine ⟨k1, k2, k3, k4, k5, ?_⟩
      intro h0
      exfalso
      have h02 : child.leafCount = 0 := h0
      have hnel := toList_ne_nil child hchildComp
      have hlenl := toList_length child
      rw [h02] at hlenl
      exact hnel (List.length_eq_zero.mp hlenl)
  | case5 b n c tail child hg hng s2 hs2 ih =>
    intro acc hswf hcomp hne
    have hs2eq : s2 = (if (c :: tail).length < child.pfx.length then ([] : Key)
        else (c :: tail).drop child.pfx.length) := dite_eq_ite
    rw [hs2eq] at hs2 ih
    have hlt : ¬ (c :: tail).length < child.pfx.length := by
      intro hcon
      rw [if_pos hcon] at hs2
      exact hs2 rfl
    rw [if_neg hlt] at hs2 ih
    rw [dpr_cons_step hg hng (by rw [if_neg hlt]; exact hs2) b]
    rw [if_neg hlt]
    have hdisj : (c :: tail) <+: child.pfx ∨ child.pfx <+: (c :: tail) := by
      by_cases h1 : (c :: tail) <+: child.pfx
      · exact Or.inl h1
      · by_cases h2 : child.pfx <+: (c :: tail)
        · exact Or.inr h2
        · exact absurd ⟨h1, h2⟩ hng
    have hpre : child.pfx <+: (c :: tail) := by
      rcases hdisj with h1 | h1
      · have h2 : c :: tail = child.pfx := h1.eq_of_length (by
          have := h1.length_le
          omega)
        rw [← h2]
      · exact h1
    cases n with
    | mk lf p es =>
      have hg2 : getEdge es c = some child := hg
      obtain ⟨hl, hsort, hhd, hch⟩ := hswf.parts
      obtain ⟨hcond, hchComp⟩ := hcomp.shape
      have hchildComp : Comp false child := hchComp (c, child) (getEdge_mem hg2)
      have hchd : child.pfx.head? = some c := hhd (c, child) (getEdge_mem hg2)
      have hchne : child.pfx ≠ [] := by
        intro hcon
        rw [hcon] at hchd
        cases hchd
      have hchSWf : SWf (acc ++ p) child := hch (c, child) (getEdge_mem hg2)
      obtain ⟨ih1, ih2, ih3, ih4, ih5, ih6⟩ := ih (acc ++ p) hchSWf hchildComp hs2
      have hjoin : child.pfx ++ (c :: tail).drop child.pfx.length = c :: tail := by
        conv_rhs => rw [← List.take_append_drop child.pfx.length (c :: tail)]
        rw [← List.prefix_iff_eq_take.mp hpre]
      have hden : ∀ rem, (Node.deletePrefixRec false child
          ((c :: tail).drop child.pfx.length)).1.findFrom rem =
          if (c :: tail) <+: rem then none else child.findFrom rem := by
        intro rem
        rw [ih1 rem, hjoin]
      have hget1 : ∀ rem, (Node.mk lf p (updateEdge es c
          (Node.deletePrefixRec false child ((c :: tail).drop child.pfx.length)).1)).get rem =
          if (c :: tail) <+: rem then none else (Node.mk lf p es).get rem :=
        fun rem => get_update_prefix_congr hg2 (rfl : (c :: tail).head? = some c) hden lf p rem
      have hff : ∀ z, (Node.mk lf p (updateEdge es c
          (Node.deletePrefixRec false child
            ((c :: tail).drop child.pfx.length)).1)).findFrom z =
          if (Node.mk lf p es).pfx ++ c :: tail <+: z then none
          else (Node.mk lf p es).findFrom z := by
        intro z
        refine findFrom_of_get_prefix_congr ?_ hget1 z
        rfl
      have hhd2 : (Node.deletePrefixRec false child
          ((c :: tail).drop child.pfx.length)).1.pfx.head? = some c := by
        rw [ih4 hchne, hchd]
      have hswf1 : SWf acc (Node.mk lf p (updateEdge es c
          (Node.deletePrefixRec false child ((c :: tail).drop child.pfx.length)).1)) :=
        SWf_updateEdge hswf hg2 ih2 hhd2
      have hcnt1 : (Node.mk lf p (updateEdge es c
          (Node.deletePrefixRec false child
            ((c :: tail).drop child.pfx.length)).1)).leafCount +
          (Node.deletePrefixRec false child ((c :: tail).drop child.pfx.length)).2 =
          (Node.mk lf p es).leafCount := by
        have h1 := edgesLeafCount_updateEdge hg2
          (Node.deletePrefixRec false child ((c :: tail).drop child.pfx.length)).1
        rw [leafCount_mk, leafCount_mk]
        omega
      refine ⟨hff, hswf1, fun _ => rfl, fun _ => rfl, hcnt1, ?_⟩
      intro h0
      have h6 := ih6 h0
      show (Node.mk lf p (updateEdge es c
        (Node.deletePrefixRec false child ((c :: tail).drop child.pfx.length)).1),
        (Node.deletePrefixRec false child ((c :: tail).drop child.pfx.length)).2) =
        (Node.mk lf p es, 0)
      rw [h6]
      show (Node.mk lf p (updateEdge es c child), (0 : Nat)) = (Node.mk lf p es, 0)
      rw [updateEdge_self hg2]


theorem DeletePrefix_nil {T : Type} (t : Tree T) :
    t.DeletePrefix [] =
      (⟨Node.mk none t.root.pfx [], t.size - t.root.leafCount⟩, t.root.leafCount) := rfl

theorem DeletePrefix_cons {T : Type} (t : Tree T) (c : Nat) (tail : Key) :
    t.DeletePrefix (c :: tail) =
      (⟨(Node.deletePrefixRec true t.root (c :: tail)).1,
        t.size - (Node.deletePrefixRec true t.root (c :: tail)).2⟩,
       (Node.deletePrefixRec true t.root (c :: tail)).2) := rfl

theorem get_empty_node {T : Type} (q : Key) (k : Key) :
    (Node.mk (none : Option (LeafNode T)) q []).get k = none := by
  cases k with
  | nil =>
    rw [get_nil]
    rfl
  | cons d rest => exact get_cons_none (by simp [edges_mk, getEdge])

/-- A well-formed tree with zero stored pairs has a bare root. -/
theorem empty_root_shape {T : Type} {t : Tree T} (hwf : t.Wf)
    (h0 : t.root.leafCount = 0) : t.root = Node.mk none t.root.pfx [] := by
  obtain ⟨hswf, hcomp, hpfx, hsize⟩ := hwf
  cases hroot : t.root with
  | mk lf rp res =>
    rw [hroot] at hcomp h0
    obtain ⟨hcond, hch⟩ := hcomp.shape
    rw [leafCount_mk] at h0
    have hlf : lf = none := by
      cases lf with
      | none => rfl
      | some l => simp at h0
    subst hlf
    have hres : res = [] := by
      cases res with
      | nil => rfl
      | cons f r2 =>
        exfalso
        have hcf : Comp false f.2 := hch f (List.mem_cons_self f r2)
        have hnel := toList_ne_nil f.2 hcf
        have hlenl := toList_length f.2
        simp only [edgesLeafCount] at h0
        have hf0 : f.2.leafCount = 0 := by omega
        rw [hf0] at hlenl
        exact hnel (List.length_eq_zero.mp hlenl)
    subst hres
    simp only [pfx_mk]

/-- C5: DeletePrefix removes exactly the stored keys extending the prefix,
returns their exact number, decrements the size by that number, and leaves
the tree unchanged when nothing matches. -/
theorem C5_delete_prefix {T : Type} (t : Tree T) (hwf : t.Wf) (p : Key) :
    (∀ k, (t.DeletePrefix p).1.Get k = if p <+: k then none else t.Get k) ∧
    (t.DeletePrefix p).2 = (t.root.toList.filter (fun kv => p <+: kv.1)).length ∧
    (t.DeletePrefix p).1.Len = t.Len - (t.DeletePrefix p).2 ∧
    ((t.DeletePrefix p).2 = 0 → t.DeletePrefix p = (t, 0)) := by
  obtain ⟨hswf, hcomp, hpfx, hsize⟩ := hwf
  cases p with
  | nil =>
    rw [DeletePrefix_nil]
    refine ⟨?_, ?_, rfl, ?_⟩
    · intro k
      rw [if_pos List.nil_prefix]
      exact get_empty_node t.root.pfx k
    · have hfilter : t.root.toList.filter (fun kv => ([] : Key) <+: kv.1) = t.root.toList :=
        List.filter_eq_self.mpr (fun kv _ => by simp)
      rw [hfilter, toList_length]
    · intro h0
      have h02 : t.root.leafCount = 0 := h0
      have hroot := empty_root_shape ⟨hswf, hcomp, hpfx, hsize⟩ h02
      rw [h02, ← hroot]
      rfl
  | cons c tail =>
    rw [DeletePrefix_cons]
    obtain ⟨k1, k2, k3, k4, k5, k6⟩ :=
      deletePrefixRec_spec true t.root (c :: tail) [] hswf hcomp (by simp)
    have hp1 : (Node.deletePrefixRec true t.root (c :: tail)).1.pfx = [] :=
      (k3 rfl).trans hpfx
    have hget : ∀ k, (Node.deletePrefixRec true t.root (c :: tail)).1.get k =
        if (c :: tail) <+: k then none else t.root.get k := by
      intro k
      rw [← findFrom_nil_pfx hp1, k1 k, hpfx]
      simp only [List.nil_append]
      by_cases hpk : (c :: tail) <+: k
      · rw [if_pos hpk, if_pos hpk]
      · rw [if_neg hpk, if_neg hpk, findFrom_nil_pfx hpfx]
    refine ⟨hget, ?_, rfl, ?_⟩
    · -- counting
      have hndL : t.root.toList.Nodup :=
        List.Nodup.of_map Prod.fst (toList_keys_nodup t.root [] hswf)
      have hndA : ((Node.deletePrefixRec true t.root (c :: tail)).1.toList).Nodup :=
        List.Nodup.of_map Prod.fst
          (toList_keys_nodup (Node.deletePrefixRec true t.root (c :: tail)).1 [] k2)
      have hndB : (t.root.toList.filter (fun kv => ¬ (c :: tail) <+: kv.1)).Nodup :=
        List.Nodup.sublist (List.filter_sublist t.root.toList) hndL
      have hmemiff : ∀ kv : Key × T,
          kv ∈ (Node.deletePrefixRec true t.root (c :: tail)).1.toList ↔
          kv ∈ t.root.toList.filter (fun kv => ¬ (c :: tail) <+: kv.1) := by
        intro kv
        constructor
        · intro hm
          obtain ⟨s1, hks, hgs⟩ :=
            mem_toList_get (Node.deletePrefixRec true t.root (c :: tail)).1 [] kv k2 hm
          rw [hp1] at hks
          simp only [List.nil_append] at hks
          rw [← hks] at hgs
          rw [hget kv.1] at hgs
          by_cases hpk : (c :: tail) <+: kv.1
          · rw [if_pos hpk] at hgs
            cases hgs
          · rw [if_neg hpk] at hgs
            refine List.mem_filter.mpr ⟨?_, by simpa using hpk⟩
            have h2 := get_toList_mem t.root kv.1 [] kv.2 hswf hgs
            rw [hpfx] at h2
            simpa using h2
        · intro hm
          obtain ⟨hmL, hpk⟩ := List.mem_filter.mp hm
          have hpk2 : ¬ (c :: tail) <+: kv.1 := by simpa using hpk
          obtain ⟨s1, hks, hgs⟩ := mem_toList_get t.root [] kv hswf hmL
          rw [hpfx] at hks
          simp only [List.nil_append] at hks
          rw [← hks] at hgs
          have hg2 : (Node.deletePrefixRec true t.root (c :: tail)).1.get kv.1 =
              some kv.2 := by
            rw [hget kv.1, if_neg hpk2]
            exact hgs
          have h2 := get_toList_mem (Node.deletePrefixRec true t.root (c :: tail)).1
            kv.1 [] kv.2 k2 hg2
          rw [hp1] at h2
          simpa using h2
      have hperm : List.Perm ((Node.deletePrefixRec true t.root (c :: tail)).1.toList)
          (t.root.toList.filter (fun kv => ¬ (c :: tail) <+: kv.1)) :=
        (List.perm_ext_iff_of_nodup hndA hndB).mpr hmemiff
      have hlenB := hperm.length_eq
      have hAB := (List.filter_append_perm
        (fun kv : Key × T => (c :: tail) <+: kv.1) t.root.toList).length_eq
      rw [List.length_append] at hAB
      have hBeq : t.root.toList.filter (fun kv : Key × T => !((c :: tail) <+: kv.1)) =
          t.root.toList.filter (fun kv => ¬ (c :: tail) <+: kv.1) :=
        List.filter_congr (fun kv _ => by simp)
      rw [hBeq] at hAB
      have hlen1 := toList_length t.root
      have hlen2 := toList_length (Node.deletePrefixRec true t.root (c :: tail)).1
      omega
    · intro h0
      have h6 := k6 h0
      rw [h6]
      rfl


theorem C5_delete_prefix_witness :
    (∀ k, (((Tree.New.Insert [1] 5).1 : Tree Nat).DeletePrefix [1]).1.Get k =
      if [1] <+: k then none else ((Tree.New.Insert [1] 5).1 : Tree Nat).Get k) ∧
    (((Tree.New.Insert [1] 5).1 : Tree Nat).DeletePrefix [1]).2 =
      (((Tree.New.Insert [1] 5).1 : Tree Nat).root.toList.filter
        (fun kv => [1] <+: kv.1)).length ∧
    (((Tree.New.Insert [1] 5).1 : Tree Nat).DeletePrefix [1]).1.Len =
      ((Tree.New.Insert [1] 5).1 : Tree Nat).Len -
        (((Tree.New.Insert [1] 5).1 : Tree Nat).DeletePrefix [1]).2 ∧
    ((((Tree.New.Insert [1] 5).1 : Tree Nat).DeletePrefix [1]).2 = 0 →
      ((Tree.New.Insert [1] 5).1 : Tree Nat).DeletePrefix [1] =
        (((Tree.New.Insert [1] 5).1 : Tree Nat), 0)) :=
  C5_delete_prefix ((Tree.New.Insert [1] 5).1 : Tree Nat) (Wf_Insert Wf_New [1] 5) [1]

/-- The count returned by the deletePrefix recursion ignores the root flag. -/
theorem dpr_snd_iso {T : Type} : ∀ (b : Bool) (n : Node T) (s : Key) (b' : Bool),
    (Node.deletePrefixRec b n s).2 = (Node.deletePrefixRec b' n s).2 := by
  intro b n s
  induction b, n, s using Node.deletePrefixRec.induct with
  | case1 b n =>
    intro b'
    rw [dpr_nil, dpr_nil]
  | case2 b n c tail hg =>
    intro b'
    rw [dpr_cons_none hg b, dpr_cons_none hg b']
  | case3 b n c tail child hg hng =>
    intro b'
    rw [dpr_cons_guard hg hng b, dpr_cons_guard hg hng b']
  | case4 b n c tail child hg hng s2 hs2 =>
    intro b'
    have hs2eq : s2 = (if (c :: tail).length < child.pfx.length then ([] : Key)
        else (c :: tail).drop child.pfx.length) := dite_eq_ite
    rw [hs2eq] at hs2
    rw [dpr_cons_base hg hng hs2 b, dpr_cons_base hg hng hs2 b']
  | case5 b n c tail child hg hng s2 hs2 ih =>
    intro b'
    have hs2eq : s2 = (if (c :: tail).length < child.pfx.length then ([] : Key)
        else (c :: tail).drop child.pfx.length) := dite_eq_ite
    rw [hs2eq] at hs2
    rw [dpr_cons_step hg hng hs2 b, dpr_cons_step hg hng hs2 b']

/-- The descent of `deletePrefix`, recorded explicitly: from node `n` with
remaining prefix `s` and consumed global path `g`, the loop reaches node `m`
with remaining prefix `u` and consumed path `g2`. -/
inductive ReachesDP {T : Type} : Key → Node T → Key → Key → Node T → Key → Prop where
  | refl (g : Key) (n : Node T) (s : Key) : ReachesDP g n s g n s
  | step (g : Key) (n : Node T) (c : Nat) (tail : Key) (child : Node T)
      (g2 : Key) (m : Node T) (u : Key)
      (hg : getEdge n.edges c = some child)
      (hng : ¬ (¬ (c :: tail) <+: child.pfx ∧ ¬ child.pfx <+: (c :: tail)))
      (hlt : ¬ (c :: tail).length < child.pfx.length)
      (hs2 : (c :: tail).drop child.pfx.length ≠ [])
      (hrest : ReachesDP (g ++ child.pfx) child ((c :: tail).drop child.pfx.length) g2 m u) :
      ReachesDP g n (c :: tail) g2 m u

theorem reachDP_ne {T : Type} {g s g2 u : Key} {n m : Node T}
    (h : ReachesDP g n s g2 m u) (hu : u ≠ []) : s ≠ [] := by
  cases h with
  | refl => exact hu
  | step => simp

theorem reachDP_facts {T : Type} {g s g2 u : Key} {n m : Node T}
    (h : ReachesDP g n s g2 m u) :
    ∀ (acc : Key) (b : Bool), SWf acc n → Comp b n → acc ++ n.pfx = g →
      (∃ acc2 b2, SWf acc2 m ∧ Comp b2 m ∧ acc2 ++ m.pfx = g2) ∧
      g ++ s = g2 ++ u ∧
      ∀ b', (Node.deletePrefixRec b' n s).2 = (Node.deletePrefixRec false m u).2 := by
  induction h with
  | refl g n s =>
    intro acc b hswf hcomp hacc
    exact ⟨⟨acc, b, hswf, hcomp, hacc⟩, rfl, fun b' => dpr_snd_iso b' n s false⟩
  | step g n c tail child g2 m u hg hng hlt hs2 hrest ih =>
    intro acc b hswf hcomp hacc
    cases n with
    | mk lf p es =>
      simp only [pfx_mk] at hacc
      have hg2 : getEdge es c = some child := hg
      obtain ⟨hl, hsort, hhd, hch⟩ := hswf.parts
      have hchSWf : SWf (acc ++ p) child := hch _ (getEdge_mem hg2)
      have hchComp : Comp false child := (hcomp.shape).2 _ (getEdge_mem hg2)
      obtain ⟨hex, hgs, hcount⟩ := ih (acc ++ p) false hchSWf hchComp (by rw [hacc])
      have hdisj : (c :: tail) <+: child.pfx ∨ child.pfx <+: (c :: tail) := by
        by_cases h1 : (c :: tail) <+: child.pfx
        · exact Or.inl h1
        · by_cases h2 : child.pfx <+: (c :: tail)
          · exact Or.inr h2
          · exact absurd ⟨h1, h2⟩ hng
      have hpre : child.pfx <+: (c :: tail) := by
        rcases hdisj with h1 | h1
        · have h2 : c :: tail = child.pfx := h1.eq_of_length (by
            have := h1.length_le
            omega)
          rw [← h2]
        · exact h1
      have hjoin : child.pfx ++ (c :: tail).drop child.pfx.length = c :: tail := by
        conv_rhs => rw [← List.take_append_drop child.pfx.length (c :: tail)]
        rw [← List.prefix_iff_eq_take.mp hpre]
      refine ⟨hex, ?_, ?_⟩
      · rw [← hgs, List.append_assoc]
        congr 1
        exact hjoin.symm
      · intro b'
        have hs0 : ¬ (if (c :: tail).length < child.pfx.length then ([] : Key)
            else (c :: tail).drop child.pfx.length) = [] := by
          rw [if_neg hlt]
          exact hs2
        rw [dpr_cons_step hg hng hs0 b']
        rw [if_neg hlt]
        exact hcount false

/-- C10: when the deletePrefix descent ends in the middle of a compressed
edge (the remaining prefix is a proper prefix of the reached child's edge
prefix), the whole child subtree is removed: every key stored in it extends
the query prefix, the returned count is exactly that subtree's leaf count
(at least one, not zero), and the size drops by it. -/
theorem C10_mid_edge {T : Type} (t : Tree T) (hwf : t.Wf) (p : Key) {m : Node T} {u : Key}
    {g2 : Key} (hreach : ReachesDP [] t.root p g2 m u) {c : Nat} {utail : Key}
    (hu : u = c :: utail) {child : Node T} (hg : getEdge m.edges c = some child)
    (hmid : u <+: child.pfx) (hne : u ≠ child.pfx) :
    (t.DeletePrefix p).2 = child.leafCount ∧ 1 ≤ child.leafCount ∧
    (∀ kv ∈ child.toList, p <+: kv.1) ∧
    (t.DeletePrefix p).1.Len = t.Len - child.leafCount := by
  obtain ⟨hswf, hcomp, hpfx, hsize⟩ := hwf
  subst hu
  have hpne : p ≠ [] := reachDP_ne hreach (by simp)
  obtain ⟨hfacts, hgs, hcount⟩ := reachDP_facts hreach [] true hswf hcomp (by
    rw [hpfx]
    rfl)
  obtain ⟨acc2, b2, hswf2, hcomp2, hacc2⟩ := hfacts
  simp only [List.nil_append] at hgs
  have hlt : (c :: utail).length < child.pfx.length := by
    have h1 := hmid.length_le
    rcases Nat.lt_or_ge (c :: utail).length child.pfx.length with h2 | h2
    · exact h2
    · exact absurd (hmid.eq_of_length (by omega)) hne
  have hng : ¬ (¬ (c :: utail) <+: child.pfx ∧ ¬ child.pfx <+: (c :: utail)) := by
    intro hcon
    exact hcon.1 hmid
  have hs0 : (if (c :: utail).length < child.pfx.length then ([] : Key)
      else (c :: utail).drop child.pfx.length) = [] := by
    rw [if_pos hlt]
  have hbase : (Node.deletePrefixRec false m (c :: utail)).2 = child.leafCount := by
    rw [dpr_cons_base hg hng hs0 false]
  have hchComp : Comp false child := by
    cases m with
    | mk lfm pm esm =>
      exact (hcomp2.shape).2 _ (getEdge_mem (show getEdge esm c = some child from hg))
  have hone : 1 ≤ child.leafCount := by
    have hnel := toList_ne_nil child hchComp
    have hlenl := toList_length child
    cases htl : child.toList with
    | nil => exact absurd htl hnel
    | cons x xs =>
      rw [htl] at hlenl
      simp only [List.length_cons] at hlenl
      omega
  obtain ⟨c0, ptail, hp0⟩ : ∃ c0 ptail, p = c0 :: ptail := by
    cases p with
    | nil => exact absurd rfl hpne
    | cons a b0 => exact ⟨a, b0, rfl⟩
  have hcnt : (t.DeletePrefix p).2 = child.leafCount := by
    rw [hp0, DeletePrefix_cons]
    show (Node.deletePrefixRec true t.root (c0 :: ptail)).2 = child.leafCount
    rw [← hp0]
    rw [hp0] at hcount
    have := hcount true
    rw [← hp0] at this
    rw [this, hbase]
  refine ⟨hcnt, hone, ?_, ?_⟩
  · intro kv hm
    have hchSWf : SWf (acc2 ++ m.pfx) child := by
      cases m with
      | mk lfm pm esm =>
        obtain ⟨hl2, hsort2, hhd2, hch2⟩ := hswf2.parts
        simp only [pfx_mk]
        exact hch2 _ (getEdge_mem (show getEdge esm c = some child from hg))
    have hkpre := toList_key_prefix child (acc2 ++ m.pfx) hchSWf kv hm
    rw [hacc2] at hkpre
    have hp2 : p <+: g2 ++ child.pfx := by
      rw [hgs]
      exact (List.prefix_append_right_inj g2).mpr hmid
    exact hp2.trans hkpre
  · rw [hp0, DeletePrefix_cons]
    show t.size - (Node.deletePrefixRec true t.root (c0 :: ptail)).2 = t.Len - child.leafCount
    rw [← hp0]
    rw [hp0] at hcount
    have h2 := hcount true
    rw [← hp0] at h2
    rw [h2, hbase]
    rfl

theorem C10_mid_edge_witness :
    (((Tree.New.Insert [1, 2] 10).1 : Tree Nat).DeletePrefix [1]).2 =
      (Node.mk (some ⟨[1, 2], 10⟩) [1, 2] [] : Node Nat).leafCount ∧
    1 ≤ (Node.mk (some ⟨[1, 2], 10⟩) [1, 2] [] : Node Nat).leafCount ∧
    (∀ kv ∈ (Node.mk (some ⟨[1, 2], 10⟩) [1, 2] [] : Node Nat).toList, [1] <+: kv.1) ∧
    (((Tree.New.Insert [1, 2] 10).1 : Tree Nat).DeletePrefix [1]).1.Len =
      ((Tree.New.Insert [1, 2] 10).1 : Tree Nat).Len -
        (Node.mk (some ⟨[1, 2], 10⟩) [1, 2] [] : Node Nat).leafCount := by
  have h1 : ((Tree.New : Tree Nat).Insert [1, 2] 10).1 =
      ⟨Node.mk none [] [(1, Node.mk (some ⟨[1, 2], 10⟩) [1, 2] [])], 1⟩ := by
    simp [Tree.New, Tree.Insert, Node.insertRec, getEdge, addEdge, leaf_mk, pfx_mk, edges_mk]
  have hg : getEdge ((Tree.New : Tree Nat).Insert [1, 2] 10).1.root.edges 1 =
      some (Node.mk (some ⟨[1, 2], 10⟩) [1, 2] []) := by
    rw [h1]
    simp [edges_mk, getEdge]
  exact C10_mid_edge ((Tree.New.Insert [1, 2] 10).1 : Tree Nat) (Wf_Insert Wf_New [1, 2] 10)
    [1] (ReachesDP.refl [] ((Tree.New.Insert [1, 2] 10).1 : Tree Nat).root [1]) rfl hg
    (by decide) (by decide)

end Radix
